import Mathlib

/-!
Shallow embedding of the spatik core (persistent vector, chron log, markup,
world/model store, wave merge, stream, binary codec slice), translated from
the TypeScript sources, together with proofs of the specification claims.

Conventions used throughout the embedding:
* JavaScript arrays that may contain holes are modelled as `List (Option χ)`;
  reading a hole and reading past the end both yield `undefined`, modelled as
  `none`.
* JavaScript bitwise index computations `(i >> s) & 31` are written
  `i / 2 ^ s % 32`, which is equal for the non-negative in-range numbers the
  vector uses (indices are below 2^31).
* Where the source uses an unbounded `while` walk over linked structure, the
  embedding uses an explicit fuel that is provably sufficient on well-formed
  states (the source relies on the same well-formedness for termination).
-/

namespace Spatik

/-- JS array read `l[i]`: out of range and holes give `undefined` (`none`). -/
def jsGet {χ : Type _} (l : List (Option χ)) (i : Nat) : Option χ :=
  (l.get? i).join

/-- JS array write `l[i] = x`: extends the array with holes when `i` is past
the end, as JS assignment does. -/
def jsSet {χ : Type _} : List (Option χ) → Nat → Option χ → List (Option χ)
  | [], 0, x => [x]
  | [], i + 1, x => none :: jsSet [] i x
  | _ :: t, 0, x => x :: t
  | h :: t, i + 1, x => h :: jsSet t i x

theorem jsGet_nil {χ : Type _} (i : Nat) : jsGet ([] : List (Option χ)) i = none := by
  cases i <;> simp [jsGet, List.get?]

theorem jsGet_cons_zero {χ : Type _} (h : Option χ) (t : List (Option χ)) :
    jsGet (h :: t) 0 = h := by
  simp [jsGet, List.get?]

theorem jsGet_cons_succ {χ : Type _} (h : Option χ) (t : List (Option χ)) (i : Nat) :
    jsGet (h :: t) (i + 1) = jsGet t i := by
  simp [jsGet, List.get?]

theorem jsGet_jsSet_same {χ : Type _} (l : List (Option χ)) (i : Nat) (x : Option χ) :
    jsGet (jsSet l i x) i = x := by
  induction l generalizing i with
  | nil =>
    induction i with
    | zero => simp [jsSet, jsGet, List.get?]
    | succ n ih => simpa [jsSet, jsGet_cons_succ] using ih
  | cons h t ih =>
    cases i with
    | zero => simp [jsSet, jsGet_cons_zero]
    | succ n => simpa [jsSet, jsGet_cons_succ] using ih n

theorem jsGet_jsSet_ne {χ : Type _} (l : List (Option χ)) (i j : Nat) (x : Option χ)
    (hij : i ≠ j) : jsGet (jsSet l i x) j = jsGet l j := by
  induction l generalizing i j with
  | nil =>
    induction i generalizing j with
    | zero =>
      cases j with
      | zero => exact absurd rfl hij
      | succ m => simp [jsSet, jsGet_cons_succ, jsGet_nil]
    | succ n ih =>
      cases j with
      | zero => simp [jsSet, jsGet_cons_zero, jsGet_nil]
      | succ m =>
        have := ih (j := m) (by omega)
        simpa [jsSet, jsGet_cons_succ, jsGet_nil] using this
  | cons h t ih =>
    cases i with
    | zero =>
      cases j with
      | zero => exact absurd rfl hij
      | succ m => simp [jsSet, jsGet_cons_succ]
    | succ n =>
      cases j with
      | zero => simp [jsSet, jsGet_cons_zero]
      | succ m =>
        have := ih n m (by omega)
        simpa [jsSet, jsGet_cons_succ] using this

/-- Untyped mirror of the vector trie nodes: a JS value that is either an
element of the vector or a nested (possibly holey) array. -/
inductive VN (α : Type _) where
  | val : α → VN α
  | arr : List (Option (VN α)) → VN α

/-- The trie walk of `Vector.get`, structured on the number of interior levels
`lv` (the source's `while (shift)` loop runs `shift / nodeBits` times, the
shifts in a vector being multiples of `nodeBits = 5`).  Each step reads
`node[(index >> shift) & 31]`, then the leaf read is `node[index & 31]`.
Reading through a non-array (which would throw in JS) yields `none`;
well-formed vectors never reach that case. -/
def vnGetLv {α : Type _} : Nat → VN α → Nat → Nat → Option α
  | _, .val _, _, _ => none
  | 0, .arr l, _, index =>
    (match jsGet l (index % 32) with
      | some (.val a) => some a
      | _ => none)
  | lv + 1, .arr l, shift, index =>
    (match jsGet l (index / 2 ^ shift % 32) with
      | some child => vnGetLv lv child (shift - 5) index
      | none => none)

/-- `Vector.get`'s trie walk. -/
def vnGet {α : Type _} (n : VN α) (shift index : Nat) : Option α :=
  vnGetLv (shift / 5) n shift index

/-- The path-copying loop of `Vector.set` (the `while (shift > 0)` body plus
the final leaf assignment `node[index & bitmask] = value`), structured on the
level count like `vnGetLv`.  A missing child is replaced by a fresh `[]`
exactly as the source does. -/
def vnSetLv {α : Type _} : Nat → List (Option (VN α)) → Nat → Nat → Option α →
    List (Option (VN α))
  | 0, l, _, index, x => jsSet l (index % 32) (x.map .val)
  | lv + 1, l, shift, index, x =>
    let nindex := index / 2 ^ shift % 32
    let child : List (Option (VN α)) :=
      match jsGet l nindex with
      | some (.arr cl) => cl
      | some (.val _) => []
      | none => []
    jsSet l nindex (some (.arr (vnSetLv lv child (shift - 5) index x)))

def vnSetGo {α : Type _} (l : List (Option (VN α))) (shift index : Nat) (x : Option α) :
    List (Option (VN α)) :=
  vnSetLv (shift / 5) l shift index x

/-- The level-growing chain built by `Vector.set` when capacity is exhausted:
`for (i = 2; i < shift/nodeBits + 1; i++) { node.push([]); node = node[...] }`
followed by `node[0] = value`; `levels` is the number of loop iterations. -/
def growChain {α : Type _} : Nat → Option α → List (Option (VN α))
  | 0, x => jsSet [] 0 (x.map .val)
  | n + 1, x => [some (.arr (growChain n x))]

/-- Persistent bit-partitioned vector (fanout 32), as in `immutable.Vector`. -/
structure Vector (α : Type _) where
  root : List (Option (VN α))
  shift : Nat
  length : Nat

def Vector.empty {α : Type _} : Vector α := ⟨[], 0, 0⟩

def Vector.get {α : Type _} (v : Vector α) (index : Nat) : Option α :=
  if index < v.length then vnGet (.arr v.root) v.shift index else none

/-- The three non-recursive branches of `Vector.set` (replace in place, append
within capacity, grow a level); used when `index ≤ length`, which is exactly
when the source's leading `index > this.length` test fails. -/
def Vector.set1 {α : Type _} (v : Vector α) (index : Nat) (x : Option α) : Vector α :=
  if index < v.length ∨ v.length < 32 * 2 ^ v.shift then
    ⟨vnSetGo v.root v.shift index x, v.shift,
      if index < v.length then v.length else index + 1⟩
  else
    ⟨[some (.arr v.root), some (.arr (growChain ((v.shift + 5) / 5 - 1) x))],
      v.shift + 5, v.length + 1⟩

/-- `Vector.set`.  When `index > length` the source loops
`for (i = length; i < index; i++) vector = vector.set(i, undefined)`; every
such inner call has `i = vector.length`, so it lands in the non-recursive
branches, which is how the fill is written here. -/
def Vector.set {α : Type _} (v : Vector α) (index : Nat) (x : Option α) : Vector α :=
  if index > v.length then
    ((List.range' v.length (index - v.length)).foldl (fun vv i => vv.set1 i none) v).set1
      index x
  else v.set1 index x

def Vector.append {α : Type _} (v : Vector α) (x : Option α) : Vector α :=
  v.set v.length x

theorem vnGetLv_arr_nil {α : Type _} (lv shift index : Nat) :
    vnGetLv lv (.arr ([] : List (Option (VN α)))) shift index = none := by
  cases lv <;> simp [vnGetLv, jsGet_nil]

theorem vnGetLv_setLv_same {α : Type _} (lv : Nat) :
    ∀ (l : List (Option (VN α))) (shift index : Nat) (x : Option α),
      vnGetLv lv (.arr (vnSetLv lv l shift index x)) shift index = x := by
  induction lv with
  | zero =>
    intro l shift index x
    show vnGetLv 0 (.arr (jsSet l (index % 32) (x.map .val))) shift index = x
    rw [vnGetLv, jsGet_jsSet_same]
    cases x <;> rfl
  | succ n ih =>
    intro l shift index x
    rw [vnSetLv, vnGetLv]
    rw [jsGet_jsSet_same]
    exact ih _ (shift - 5) index x

theorem vnGetLv_setLv_ne {α : Type _} (lv : Nat) :
    ∀ (l : List (Option (VN α))) (shift index index' : Nat) (x : Option α),
      shift = 5 * lv →
      index % (2 ^ shift * 32) ≠ index' % (2 ^ shift * 32) →
      vnGetLv lv (.arr (vnSetLv lv l shift index x)) shift index' =
        vnGetLv lv (.arr l) shift index' := by
  induction lv with
  | zero =>
    intro l shift index index' x hsl hne
    subst hsl
    have hmod : index % 32 ≠ index' % 32 := by simpa using hne
    show vnGetLv 0 (.arr (jsSet l (index % 32) (x.map .val))) _ index' = _
    rw [vnGetLv, vnGetLv, jsGet_jsSet_ne _ _ _ _ hmod]
  | succ n ih =>
    intro l shift index index' x hsl hne
    have hs5 : shift - 5 = 5 * n := by omega
    have h2 : 2 ^ shift = 2 ^ (shift - 5) * 32 := by
      have h55 : shift - 5 + 5 = shift := by omega
      calc 2 ^ shift = 2 ^ (shift - 5 + 5) := by rw [h55]
        _ = 2 ^ (shift - 5) * 2 ^ 5 := by rw [pow_add]
        _ = 2 ^ (shift - 5) * 32 := by norm_num
    rw [vnSetLv, vnGetLv, vnGetLv]
    by_cases hd : index / 2 ^ shift % 32 = index' / 2 ^ shift % 32
    · -- same top digit: the write went into this child; recurse
      rw [hd, jsGet_jsSet_same]
      have hlow : index % (2 ^ (shift - 5) * 32) ≠ index' % (2 ^ (shift - 5) * 32) := by
        rw [← h2]
        intro hlow
        apply hne
        rw [Nat.mod_mul, Nat.mod_mul, hlow, hd]
      have hrec := fun (cl : List (Option (VN α))) =>
        ih cl (shift - 5) index index' x hs5 hlow
      cases hj : jsGet l (index' / 2 ^ shift % 32) with
      | none =>
        show vnGetLv n (.arr (vnSetLv n _ (shift - 5) index x)) (shift - 5) index' = _
        rw [hrec, vnGetLv_arr_nil]
      | some child =>
        cases child with
        | val a =>
          show vnGetLv n (.arr (vnSetLv n [] (shift - 5) index x)) (shift - 5) index' =
            vnGetLv n (.val a) (shift - 5) index'
          rw [hrec, vnGetLv_arr_nil, vnGetLv]
        | arr cl =>
          show vnGetLv n (.arr (vnSetLv n cl (shift - 5) index x)) (shift - 5) index' =
            vnGetLv n (.arr cl) (shift - 5) index'
          rw [hrec]
    · -- different top digit: the write left this child untouched
      rw [jsGet_jsSet_ne _ _ _ _ hd]

/-- All base-32 digits of an index divisible by the whole chain capacity
vanish, so the freshly grown chain stores it at the all-zero path. -/
theorem vnGetLv_growChain {α : Type _} :
    ∀ (levels index : Nat) (x : Option α),
      index % (2 ^ (5 * levels) * 32) = 0 →
      vnGetLv levels (.arr (growChain levels x)) (5 * levels) index = x := by
  intro levels
  induction levels with
  | zero =>
    intro index x h0
    show vnGetLv 0 (.arr (jsSet [] 0 (x.map .val))) (5 * 0) index = x
    rw [vnGetLv]
    have hmod : index % 32 = 0 := by
      simp only [Nat.mul_zero, pow_zero, one_mul] at h0
      exact h0
    rw [hmod, jsGet_jsSet_same]
    cases x <;> rfl
  | succ n ih =>
    intro index x h0
    obtain ⟨q, hq⟩ := Nat.dvd_of_mod_eq_zero h0
    show vnGetLv (n + 1) (.arr [some (.arr (growChain n x))]) (5 * (n + 1)) index = x
    rw [vnGetLv]
    have hd : index / 2 ^ (5 * (n + 1)) % 32 = 0 := by
      subst hq
      rw [Nat.mul_assoc, Nat.mul_div_cancel_left (32 * q) (by positivity)]
      exact Nat.mul_mod_right 32 q
    rw [hd, jsGet_cons_zero]
    have hlow : index % (2 ^ (5 * n) * 32) = 0 := by
      have h2 : 2 ^ (5 * (n + 1)) * 32 = 2 ^ (5 * n) * 32 * 32 := by
        have h : 5 * (n + 1) = 5 * n + 5 := by omega
        rw [h, pow_add]
        ring
      rw [hq, h2, Nat.mul_assoc]
      exact Nat.mul_mod_right _ _
    have harith : 5 * (n + 1) - 5 = 5 * n := by omega
    rw [harith]
    exact ih index x hlow

theorem Vector.set_eq_set1 {α : Type _} (v : Vector α) (index : Nat) (x : Option α)
    (h : index ≤ v.length) : v.set index x = v.set1 index x := by
  rw [Vector.set, if_neg (by omega)]

theorem Vector.get_set1_lt {α : Type _} (v : Vector α) (index : Nat) (x : Option α)
    (h : index < v.length) : (v.set1 index x).get index = x := by
  rw [Vector.set1, if_pos (Or.inl h), Vector.get]
  simp only [if_pos h]
  exact vnGetLv_setLv_same _ _ _ _ _

theorem Vector.length_set1_lt {α : Type _} (v : Vector α) (index : Nat) (x : Option α)
    (h : index < v.length) : (v.set1 index x).length = v.length := by
  rw [Vector.set1, if_pos (Or.inl h)]
  show (if index < v.length then v.length else index + 1) = v.length
  exact if_pos h

theorem Vector.shift_set1_le {α : Type _} (v : Vector α) (index : Nat) (x : Option α)
    (hb : index < v.length ∨ v.length < 32 * 2 ^ v.shift) :
    (v.set1 index x).shift = v.shift := by
  rw [Vector.set1, if_pos hb]

/-- C7: for every persistent vector `v`, index `i < v.length` and value `x`,
`v.set(i, x).get(i)` equals `x` and `v.set(i, x).length` equals `v.length`. -/
theorem vector_set_get_C7 {α : Type _} (v : Vector α) (i : Nat) (x : Option α)
    (h : i < v.length) :
    (v.set i x).get i = x ∧ (v.set i x).length = v.length := by
  rw [Vector.set_eq_set1 v i x (Nat.le_of_lt h)]
  exact ⟨Vector.get_set1_lt v i x h, Vector.length_set1_lt v i x h⟩

/-- Witness for `vector_set_get_C7` at a concrete one-element vector. -/
theorem vector_set_get_C7_witness :
    0 < (⟨[some (.val 0)], 0, 1⟩ : Vector Nat).length ∧
      (((⟨[some (.val 0)], 0, 1⟩ : Vector Nat).set 0 (some 7)).get 0 = some 7 ∧
        ((⟨[some (.val 0)], 0, 1⟩ : Vector Nat).set 0 (some 7)).length =
          (⟨[some (.val 0)], 0, 1⟩ : Vector Nat).length) :=
  ⟨by decide, vector_set_get_C7 (⟨[some (.val 0)], 0, 1⟩ : Vector Nat) 0 (some 7) (by decide)⟩

theorem Vector.get_set1_append {α : Type _} (v : Vector α) (x : Option α)
    (h5 : v.shift % 5 = 0) (hcap : v.length ≤ 32 * 2 ^ v.shift) :
    (v.set1 v.length x).get v.length = x ∧ (v.set1 v.length x).length = v.length + 1 := by
  by_cases hlt : v.length < 32 * 2 ^ v.shift
  · rw [Vector.set1, if_pos (Or.inr hlt)]
    constructor
    · rw [Vector.get]
      simp only [if_neg (lt_irrefl v.length), if_pos (Nat.lt_succ_self v.length)]
      exact vnGetLv_setLv_same _ _ _ _ _
    · show (if v.length < v.length then v.length else v.length + 1) = v.length + 1
      exact if_neg (lt_irrefl v.length)
  · have hcap2 : v.length = 32 * 2 ^ v.shift := by omega
    rw [Vector.set1, if_neg (by push_neg; exact ⟨le_refl _, by omega⟩)]
    refine ⟨?_, rfl⟩
    rw [Vector.get]
    simp only [if_pos (Nat.lt_succ_self v.length)]
    show vnGet (.arr [some (.arr v.root), some (.arr (growChain ((v.shift + 5) / 5 - 1) x))])
      (v.shift + 5) v.length = x
    have hlv : (v.shift + 5) / 5 = v.shift / 5 + 1 := by omega
    rw [vnGet, hlv, vnGetLv]
    have hpow : 32 * 2 ^ v.shift = 2 ^ (v.shift + 5) := by
      rw [pow_add]
      ring
    have hd : v.length / 2 ^ (v.shift + 5) % 32 = 1 := by
      rw [hcap2, hpow, Nat.div_self (by positivity)]
    rw [hd, jsGet_cons_succ, jsGet_cons_zero]
    show vnGetLv (v.shift / 5) (.arr (growChain (v.shift / 5 + 1 - 1) x))
      (v.shift + 5 - 5) v.length = x
    have hlv2 : v.shift / 5 + 1 - 1 = v.shift / 5 := by omega
    have hsh : v.shift + 5 - 5 = 5 * (v.shift / 5) := by omega
    rw [hlv2, hsh]
    apply vnGetLv_growChain
    have h55 : 5 * (v.shift / 5) = v.shift := by omega
    rw [h55, hcap2]
    rw [Nat.mul_comm (2 ^ v.shift) 32, Nat.mod_self]

theorem Vector.get_set1_other {α : Type _} (v : Vector α) (index j : Nat) (x : Option α)
    (h5 : v.shift % 5 = 0) (hcap : v.length ≤ 32 * 2 ^ v.shift)
    (hle : index ≤ v.length) (hj : j < v.length) (hne : j ≠ index) :
    (v.set1 index x).get j = v.get j := by
  by_cases hb : index < v.length ∨ v.length < 32 * 2 ^ v.shift
  · rw [Vector.set1, if_pos hb]
    have hjlen : j < (if index < v.length then v.length else index + 1) := by
      by_cases hc : index < v.length <;> simp [hc] <;> omega
    rw [Vector.get, if_pos hjlen, Vector.get, if_pos hj]
    show vnGetLv (v.shift / 5) (.arr (vnSetLv (v.shift / 5) v.root v.shift index x))
      v.shift j = vnGetLv (v.shift / 5) (.arr v.root) v.shift j
    apply vnGetLv_setLv_ne
    · omega
    · have hicap : index < 32 * 2 ^ v.shift := by
        rcases hb with hb | hb <;> omega
      have hjcap : j < 32 * 2 ^ v.shift := by omega
      rw [Nat.mul_comm (2 ^ v.shift) 32, Nat.mod_eq_of_lt hicap, Nat.mod_eq_of_lt hjcap]
      omega
  · push_neg at hb
    obtain ⟨hge, hcap2⟩ := hb
    have hcape : v.length = 32 * 2 ^ v.shift := by omega
    rw [Vector.set1, if_neg (by push_neg; exact ⟨hge, hcap2⟩)]
    rw [Vector.get]
    simp only [if_pos (by omega : j < v.length + 1)]
    show vnGet (.arr [some (.arr v.root), some (.arr (growChain ((v.shift + 5) / 5 - 1) x))])
      (v.shift + 5) j = v.get j
    have hlv : (v.shift + 5) / 5 = v.shift / 5 + 1 := by omega
    rw [vnGet, hlv, vnGetLv]
    have hpow : 32 * 2 ^ v.shift = 2 ^ (v.shift + 5) := by
      rw [pow_add]
      ring
    have hd : j / 2 ^ (v.shift + 5) % 32 = 0 := by
      rw [Nat.div_eq_of_lt (by omega : j < 2 ^ (v.shift + 5))]
    rw [hd, jsGet_cons_zero]
    show vnGetLv (v.shift / 5) (.arr v.root) (v.shift + 5 - 5) j = v.get j
    have hsh : v.shift + 5 - 5 = v.shift := by omega
    rw [hsh, Vector.get, if_pos hj]
    rfl

/-- The shift-alignment and capacity invariant is preserved by in-range sets
and appends. -/
theorem Vector.cap_set1 {α : Type _} (v : Vector α) (index : Nat) (x : Option α)
    (h5 : v.shift % 5 = 0) (hcap : v.length ≤ 32 * 2 ^ v.shift) (hle : index ≤ v.length) :
    (v.set1 index x).shift % 5 = 0 ∧
      (v.set1 index x).length ≤ 32 * 2 ^ (v.set1 index x).shift := by
  by_cases hb : index < v.length ∨ v.length < 32 * 2 ^ v.shift
  · rw [Vector.set1, if_pos hb]
    refine ⟨h5, ?_⟩
    show (if index < v.length then v.length else index + 1) ≤ 32 * 2 ^ v.shift
    by_cases hc : index < v.length
    · rw [if_pos hc]
      exact hcap
    · rw [if_neg hc]
      rcases hb with hb | hb
      · omega
      · omega
  · rw [Vector.set1, if_neg hb]
    refine ⟨?_, ?_⟩
    · show (v.shift + 5) % 5 = 0
      omega
    show v.length + 1 ≤ 32 * 2 ^ (v.shift + 5)
    have : 32 * 2 ^ v.shift < 32 * 2 ^ (v.shift + 5) := by
      have : (2 : Nat) ^ v.shift < 2 ^ (v.shift + 5) := by
        apply Nat.pow_lt_pow_right (by omega)
        omega
      omega
    omega

/-! ### Chron: the persistent order-preserving log (`immutable.Chron`) -/

/-- A Chron atom slot: either a real atom or the `ChronEntry.deleted` token. -/
inductive ChronAtom (α : Type _) where
  | atom : α → ChronAtom α
  | deleted
  deriving DecidableEq

/-- `immutable.ChronEntry`; `former`/`latter` are JS `number | undefined`
link fields. -/
structure ChronEntry (α : Type _) where
  index : Nat
  key : Nat
  atom : ChronAtom α
  former : Option Nat
  latter : Option Nat
  deriving DecidableEq

/-- `ChronEntry.isSame` on an entry argument:
`_.key === this.key && _.index === this.index`. -/
def ChronEntry.isSameE {α : Type _} (self other : ChronEntry α) : Prop :=
  other.key = self.key ∧ other.index = self.index

instance {α : Type _} (self other : ChronEntry α) : Decidable (self.isSameE other) :=
  inferInstanceAs (Decidable (_ ∧ _))

/-- A cursor anchor: an entry or a bare key. -/
inductive CAnchor (α : Type _) where
  | entry : ChronEntry α → CAnchor α
  | key : Nat → CAnchor α
  deriving DecidableEq

/-- `immutable.ChronCursor`: `(anchor, offset)` with offset `-1` or `+1`. -/
structure ChronCursor (α : Type _) where
  anchor : CAnchor α
  offset : Int
  deriving DecidableEq

/-- `immutable.ChronRange`: a pair of cursors. -/
structure ChronRange (α : Type _) where
  head : ChronCursor α
  tail : ChronCursor α
  deriving DecidableEq

/-- `immutable.Chron`: `(log, last)`. -/
structure Chron (α : Type _) where
  log : Vector (ChronEntry α)
  last : Nat

/-- `Chron.root`: the immutable deleted root entry anchoring the log. -/
def Chron.rootEntry {α : Type _} : ChronEntry α := ⟨0, 0, .deleted, none, none⟩

/-- `Chron.empty = new Chron(Vector.empty.append(Chron.root), 0)`. -/
def Chron.empty {α : Type _} : Chron α := ⟨Vector.empty.append (some Chron.rootEntry), 0⟩

/-- `this.log.get(i)` where the link `i` may be `undefined` (`none`), in which
case JS `Vector.get` returns `undefined`. -/
def Chron.logGet {α : Type _} (c : Chron α) (i : Option Nat) : Option (ChronEntry α) :=
  match i with
  | some j => c.log.get j
  | none => none

/-- `get head() { return this.log.get(0).tail; }`.  A reachable chron always
holds the root at slot 0 (JS would throw otherwise; the `getD` default is
never used on such chrons). -/
def Chron.headC {α : Type _} (c : Chron α) : ChronCursor α :=
  ⟨.entry ((c.log.get 0).getD Chron.rootEntry), 1⟩

/-- `get tail() { return this.log.get(this.last).tail; }` (same remark). -/
def Chron.tailC {α : Type _} (c : Chron α) : ChronCursor α :=
  ⟨.entry ((c.log.get c.last).getD Chron.rootEntry), 1⟩

/-- The `range` generator loop
`for (let _ = head; _ && _ != tail; _ = this.log.get(_.latter)) yield _`,
with a fuel bound; the log length suffices on well-formed chrons, on which the
source loop terminates for the same reason. -/
def Chron.walkGo {α : Type _} [DecidableEq α] (c : Chron α) (stop : Option (ChronEntry α)) :
    Option (ChronEntry α) → Nat → List (ChronEntry α)
  | _, 0 => []
  | none, _ + 1 => []
  | some e, fuel + 1 =>
    if stop = some e then []
    else e :: c.walkGo stop (c.logGet e.latter) fuel

/-- The entry sequence of `range(this)` (all entries after the root).
`range` walks from `nextTo(this.head)` to `nextTo(this.tail)`; both bounds are
entry-anchored cursors with offset `+1`, which `nextTo` resolves to the
`latter` link of the entry at slot 0 resp. slot `last`, inlined here to keep
the definitions non-circular (`anchorOf` on a bare key searches this list). -/
def Chron.entriesList {α : Type _} [DecidableEq α] (c : Chron α) : List (ChronEntry α) :=
  let start := match c.log.get 0 with
    | some r => c.logGet r.latter
    | none => none
  let stop := match c.log.get c.last with
    | some t => c.logGet t.latter
    | none => none
  c.walkGo stop start c.log.length

/-- `Chron.anchorOf`: bare keys search the full range via `find`; entry
anchors are checked against the current entry at the same slot. -/
def Chron.anchorOf {α : Type _} [DecidableEq α] (c : Chron α) (cursor : ChronCursor α) :
    Option (ChronEntry α) :=
  match cursor.anchor with
  | .key k => c.entriesList.find? (fun e => e.key == k)
  | .entry a =>
    match c.log.get a.index with
    | none => none
    | some anchor => if anchor.isSameE a then some anchor else none

/-- `Chron.nextTo`. -/
def Chron.nextTo {α : Type _} [DecidableEq α] (c : Chron α) (cursor : ChronCursor α) :
    Option (ChronEntry α) :=
  match c.anchorOf cursor with
  | none => none
  | some anchor => if cursor.offset < 0 then some anchor else c.logGet anchor.latter

/-- The `prevTo` walk
`while (_ && _.latter != index) _ = this.log.get(_.latter)`, fuelled. -/
def Chron.prevToGo {α : Type _} (c : Chron α) (idx : Nat) :
    Option (ChronEntry α) → Nat → Option (ChronEntry α)
  | _, 0 => none
  | none, _ + 1 => none
  | some e, fuel + 1 =>
    if e.latter = some idx then some e
    else c.prevToGo idx (c.logGet e.latter) fuel

/-- `Chron.prevTo`. -/
def Chron.prevTo {α : Type _} [DecidableEq α] (c : Chron α) (cursor : ChronCursor α) :
    Option (ChronEntry α) :=
  match c.anchorOf cursor with
  | none => none
  | some a =>
    if cursor.offset > 0 then some a
    else c.prevToGo a.index (c.logGet a.former) (c.log.length + 1)

/-- `Chron.insert`.  The source's default `key = this.randomKey` draws host
randomness; the embedding takes the key as an argument.  The new-`last`
selection mirrors the JS truthiness of `_.latter ? this.last : index` (a `0`
link would count as absent). -/
def Chron.insert {α : Type _} [DecidableEq α] (c : Chron α) (cursor : ChronCursor α)
    (x : α) (key : Nat) : Chron α :=
  match c.prevTo cursor with
  | none => c
  | some p =>
    let index := c.log.length
    let log := (c.log.set p.index (some ⟨p.index, p.key, p.atom, p.former, some index⟩)).set
      index (some ⟨index, key, .atom x, some p.index, p.latter⟩)
    let last := match p.latter with
      | some l => if l = 0 then index else c.last
      | none => index
    ⟨log, last⟩

/-- `Chron.delete`.  When the slot of `element.index` is empty the source
would throw reading `.isSame` of `undefined`; that case is unreachable for
entries of the chron and modelled as a no-op. -/
def Chron.delete {α : Type _} [DecidableEq α] (c : Chron α) (element : ChronEntry α) :
    Chron α :=
  match c.log.get element.index with
  | none => c
  | some e =>
    if ¬ e.isSameE element ∨ e.atom = ChronAtom.deleted then c
    else ⟨c.log.set e.index (some ⟨e.index, e.key, .deleted, e.former, e.latter⟩), c.last⟩

/-- `Chron.range(range)` as a list. -/
def Chron.rangeList {α : Type _} [DecidableEq α] (c : Chron α) (r : ChronRange α) :
    List (ChronEntry α) :=
  c.walkGo (c.nextTo r.tail) (c.nextTo r.head) c.log.length

/-- The chron itself as a range (`Chron implements ChronRange` through its
`head`/`tail` getters). -/
def Chron.fullRange {α : Type _} (c : Chron α) : ChronRange α := ⟨c.headC, c.tailC⟩

/-- The atoms of the live entries of a list, in order (`data`'s filter). -/
def atomsOf {α : Type _} (l : List (ChronEntry α)) : List α :=
  l.filterMap fun e =>
    match e.atom with
    | .atom a => some a
    | .deleted => none

/-- `Chron.data(range)` as a list. -/
def Chron.dataList {α : Type _} [DecidableEq α] (c : Chron α) (r : ChronRange α) : List α :=
  atomsOf (c.rangeList r)

/-- `Chron.data()` over the whole chron (the default range is `this`). -/
def Chron.dataFull {α : Type _} [DecidableEq α] (c : Chron α) : List α :=
  c.dataList c.fullRange

/-- The `latter` chain: `e` links to the successive entries of `rest`, and the
final entry has no `latter`. -/
def Chain {α : Type _} : ChronEntry α → List (ChronEntry α) → Prop
  | e, [] => e.latter = none
  | e, f :: rest => e.latter = some f.index ∧ Chain f rest

instance Chain.decidable {α : Type _} :
    (e : ChronEntry α) → (l : List (ChronEntry α)) → Decidable (Chain e l)
  | e, [] => inferInstanceAs (Decidable (e.latter = none))
  | e, f :: rest => @instDecidableAnd _ _ _ (Chain.decidable f rest)

/-- The head of a spine is the root entry (slot 0, key 0, deleted, no former)
and chains through the rest. -/
def SpineHead {α : Type _} : List (ChronEntry α) → Prop
  | [] => False
  | h :: rest =>
    h.index = 0 ∧ h.key = 0 ∧ h.atom = ChronAtom.deleted ∧ h.former = none ∧ Chain h rest

instance SpineHead.decidable {α : Type _} [DecidableEq α] :
    (s : List (ChronEntry α)) → Decidable (SpineHead s)
  | [] => inferInstanceAs (Decidable False)
  | h :: rest => inferInstanceAs (Decidable (_ ∧ _ ∧ _ ∧ _ ∧ Chain h rest))

/-- The last spine entry has no `latter` link and is indexed by `c.last`. -/
def SpineLast {α : Type _} (c : Chron α) (s : List (ChronEntry α)) : Prop :=
  match s.getLast? with
  | some e => e.latter = none ∧ c.last = e.index
  | none => False

instance SpineLast.decidable {α : Type _} (c : Chron α) (s : List (ChronEntry α)) :
    Decidable (SpineLast c s) :=
  match hl : s.getLast? with
  | some e => decidable_of_iff (e.latter = none ∧ c.last = e.index) (by simp [SpineLast, hl])
  | none => decidable_of_iff False (by simp [SpineLast, hl])

/-- Well-formedness of a chron, witnessed by its spine `s`: the list of its
entries in logical (`latter`-chain) order starting at the root.  Every
reachable chron is spined: `Chron.empty` is (see `spined_empty`), and
`insert`/`delete` preserve spinedness (established inside the proofs of the
claims below). -/
def Spined {α : Type _} (c : Chron α) (s : List (ChronEntry α)) : Prop :=
  c.log.length = s.length ∧
  c.log.shift % 5 = 0 ∧
  c.log.length ≤ 32 * 2 ^ c.log.shift ∧
  (∀ e ∈ s, e.index < s.length ∧ c.log.get e.index = some e) ∧
  (∀ j ∈ List.range s.length, ∃ e ∈ s, e.index = j) ∧
  (s.map ChronEntry.index).Nodup ∧
  SpineHead s ∧
  SpineLast c s

instance {α : Type _} [DecidableEq α] (c : Chron α) (s : List (ChronEntry α)) :
    Decidable (Spined c s) :=
  inferInstanceAs (Decidable (_ ∧ _ ∧ _ ∧ _ ∧ _ ∧ _ ∧ _ ∧ _))

theorem Vector.get_ge {α : Type _} (v : Vector α) (j : Nat) (h : v.length ≤ j) :
    v.get j = none := by
  rw [Vector.get, if_neg (by omega)]

theorem spined_mem_get {α : Type _} {c : Chron α} {s : List (ChronEntry α)}
    (h : Spined c s) {e : ChronEntry α} (he : e ∈ s) :
    c.log.get e.index = some e ∧ e.index < s.length :=
  ⟨(h.2.2.2.1 e he).2, (h.2.2.2.1 e he).1⟩

theorem spined_get_mem {α : Type _} {c : Chron α} {s : List (ChronEntry α)}
    (h : Spined c s) {j : Nat} {e : ChronEntry α} (hget : c.log.get j = some e) :
    e ∈ s ∧ e.index = j := by
  have hlen := h.1
  have hjlt : j < s.length := by
    by_contra hge
    rw [Vector.get_ge c.log j (by omega)] at hget
    exact Option.noConfusion hget
  obtain ⟨f, hf, hfj⟩ := h.2.2.2.2.1 j (List.mem_range.mpr hjlt)
  have hgf := (spined_mem_get h hf).1
  rw [hfj] at hgf
  rw [hget] at hgf
  obtain rfl := Option.some.inj hgf
  exact ⟨hf, hfj⟩

theorem chain_suffix {α : Type _} :
    ∀ (l1 : List (ChronEntry α)) (a e : ChronEntry α) (l2 : List (ChronEntry α)),
      Chain a (l1 ++ e :: l2) → Chain e l2 := by
  intro l1
  induction l1 with
  | nil => intro a e l2 h; exact h.2
  | cons b t ih => intro a e l2 h; exact ih b e l2 h.2

theorem chain_congr {α : Type _} {e f : ChronEntry α} (hl : e.latter = f.latter)
    (l : List (ChronEntry α)) (h : Chain f l) : Chain e l := by
  cases l with
  | nil => exact hl.trans h
  | cons g t => exact ⟨hl.trans h.1, h.2⟩

theorem chain_splice {α : Type _} {p p' enew : ChronEntry α} {l2 : List (ChronEntry α)}
    (hidx : p'.index = p.index) (hch : Chain p' (enew :: l2)) :
    ∀ (l1 : List (ChronEntry α)) (a : ChronEntry α),
      Chain a (l1 ++ p :: l2) → Chain a (l1 ++ p' :: enew :: l2) := by
  intro l1
  induction l1 with
  | nil =>
    intro a h
    exact ⟨by rw [hidx]; exact h.1, hch⟩
  | cons b t ih =>
    intro a h
    exact ⟨h.1, ih b h.2⟩

theorem chain_replace {α : Type _} {e e' : ChronEntry α} {l2 : List (ChronEntry α)}
    (hidx : e'.index = e.index) (hlat : e'.latter = e.latter) :
    ∀ (l1 : List (ChronEntry α)) (a : ChronEntry α),
      Chain a (l1 ++ e :: l2) → Chain a (l1 ++ e' :: l2) := by
  intro l1
  induction l1 with
  | nil =>
    intro a h
    exact ⟨by rw [hidx]; exact h.1, chain_congr hlat l2 h.2⟩
  | cons b t ih =>
    intro a h
    exact ⟨h.1, ih b h.2⟩

theorem walkGo_start_none {α : Type _} [DecidableEq α] (c : Chron α)
    (stop : Option (ChronEntry α)) (fuel : Nat) : c.walkGo stop none fuel = [] := by
  cases fuel <;> rfl

/-- A `latter`-chain suffix of the spine is walked off literally. -/
theorem spined_walk {α : Type _} [DecidableEq α] {c : Chron α} {s : List (ChronEntry α)}
    (h : Spined c s) :
    ∀ (rest : List (ChronEntry α)) (e : ChronEntry α) (s0 : List (ChronEntry α)),
      s = s0 ++ e :: rest → Chain e rest → ∀ fuel, rest.length + 1 ≤ fuel →
      c.walkGo none (some e) fuel = e :: rest := by
  intro rest
  induction rest with
  | nil =>
    intro e s0 hs hch fuel hfuel
    obtain ⟨fuel, rfl⟩ : ∃ f, fuel = f + 1 := ⟨fuel - 1, by omega⟩
    show (if (none : Option (ChronEntry α)) = some e then []
      else e :: c.walkGo none (c.logGet e.latter) fuel) = [e]
    rw [if_neg (by simp)]
    have hlat : e.latter = none := hch
    rw [hlat]
    show e :: c.walkGo none none fuel = [e]
    rw [walkGo_start_none]
  | cons f rest ih =>
    intro e s0 hs hch fuel hfuel
    obtain ⟨fuel, rfl⟩ : ∃ g, fuel = g + 1 := ⟨fuel - 1, by omega⟩
    show (if (none : Option (ChronEntry α)) = some e then []
      else e :: c.walkGo none (c.logGet e.latter) fuel) = e :: f :: rest
    rw [if_neg (by simp)]
    have hlat : e.latter = some f.index := hch.1
    have hf : f ∈ s := by
      rw [hs]
      exact List.mem_append.mpr (Or.inr (List.mem_cons.mpr (Or.inr (List.mem_cons_self f rest))))
    have hgf := (spined_mem_get h hf).1
    rw [hlat]
    show e :: c.walkGo none (c.log.get f.index) fuel = e :: f :: rest
    rw [hgf, ih f (s0 ++ [e]) (by rw [hs]; simp) hch.2 fuel (by simpa using hfuel)]

theorem spined_head_fields {α : Type _} {c : Chron α} {h : ChronEntry α}
    {t : List (ChronEntry α)} (hsp : Spined c (h :: t)) :
    h.index = 0 ∧ h.key = 0 ∧ h.atom = ChronAtom.deleted ∧ h.former = none ∧ Chain h t :=
  hsp.2.2.2.2.2.2.1

theorem spined_get_zero {α : Type _} {c : Chron α} {h : ChronEntry α}
    {t : List (ChronEntry α)} (hsp : Spined c (h :: t)) : c.log.get 0 = some h := by
  have hf := spined_head_fields hsp
  have := (spined_mem_get hsp (List.mem_cons_self h t)).1
  rw [hf.1] at this
  exact this

theorem spined_last_get {α : Type _} {c : Chron α} {s : List (ChronEntry α)}
    (hsp : Spined c s) :
    ∃ le, s.getLast? = some le ∧ le.latter = none ∧ c.last = le.index ∧
      c.log.get c.last = some le := by
  have hl := hsp.2.2.2.2.2.2.2
  unfold SpineLast at hl
  cases hget : s.getLast? with
  | none => rw [hget] at hl; exact absurd hl not_false
  | some le =>
    rw [hget] at hl
    have hmem : le ∈ s := by
      obtain ⟨hne, heq⟩ := List.mem_getLast?_eq_getLast (Option.mem_def.mpr hget)
      rw [heq]
      exact List.getLast_mem hne
    refine ⟨le, rfl, hl.1, hl.2, ?_⟩
    rw [hl.2]
    exact (spined_mem_get hsp hmem).1

/-- On a spined chron, `range(this)` yields exactly the non-root spine. -/
theorem spined_entriesList {α : Type _} [DecidableEq α] {c : Chron α} {h : ChronEntry α}
    {t : List (ChronEntry α)} (hsp : Spined c (h :: t)) : c.entriesList = t := by
  obtain ⟨le, hgl, hlat, hlast, hgetlast⟩ := spined_last_get hsp
  have hf := spined_head_fields hsp
  show c.walkGo
    (match c.log.get c.last with
      | some t => c.logGet t.latter
      | none => none)
    (match c.log.get 0 with
      | some r => c.logGet r.latter
      | none => none)
    c.log.length = t
  rw [spined_get_zero hsp, hgetlast]
  show c.walkGo (c.logGet le.latter) (c.logGet h.latter) c.log.length = t
  rw [hlat]
  show c.walkGo none (c.logGet h.latter) c.log.length = t
  cases ht : t with
  | nil =>
    have : h.latter = none := by
      have := hf.2.2.2.2
      rw [ht] at this
      exact this
    rw [this]
    exact walkGo_start_none c none c.log.length
  | cons f t2 =>
    have hch : Chain h (f :: t2) := by rw [← ht]; exact hf.2.2.2.2
    have hlat2 : h.latter = some f.index := hch.1
    have hffmem : f ∈ h :: t := by rw [ht]; simp
    have hgf := (spined_mem_get hsp hffmem).1
    rw [hlat2]
    show c.walkGo none (c.log.get f.index) c.log.length = f :: t2
    rw [hgf]
    apply spined_walk hsp t2 f [h] (by rw [ht]; rfl) hch.2
    rw [hsp.1, ht]
    simp

theorem prevToGo_mem {α : Type _} {c : Chron α} {s : List (ChronEntry α)}
    (h : Spined c s) :
    ∀ (fuel : Nat) (cur : Option (ChronEntry α)) (idx : Nat) (p : ChronEntry α),
      (∀ e, cur = some e → e ∈ s) → c.prevToGo idx cur fuel = some p → p ∈ s := by
  intro fuel
  induction fuel with
  | zero =>
    intro cur idx p hm hp
    exact absurd hp (by cases cur <;> simp [Chron.prevToGo])
  | succ n ih =>
    intro cur idx p hm hp
    cases cur with
    | none => exact absurd hp (by simp [Chron.prevToGo])
    | some e =>
      by_cases hl : e.latter = some idx
      · rw [show c.prevToGo idx (some e) (n + 1) =
          (if e.latter = some idx then some e else c.prevToGo idx (c.logGet e.latter) n)
          from rfl, if_pos hl] at hp
        obtain rfl := Option.some.inj hp
        exact hm e rfl
      · rw [show c.prevToGo idx (some e) (n + 1) =
          (if e.latter = some idx then some e else c.prevToGo idx (c.logGet e.latter) n)
          from rfl, if_neg hl] at hp
        refine ih _ idx p ?_ hp
        intro f hf
        cases hle : e.latter with
        | none =>
          rw [hle] at hf
          exact absurd hf (by simp [Chron.logGet])
        | some j =>
          rw [hle] at hf
          exact (spined_get_mem h (by simpa [Chron.logGet] using hf)).1

theorem anchorOf_mem {α : Type _} [DecidableEq α] {c : Chron α} {s : List (ChronEntry α)}
    (h : Spined c s) {cur : ChronCursor α} {a : ChronEntry α}
    (ha : c.anchorOf cur = some a) : a ∈ s := by
  obtain ⟨hd, t, rfl⟩ : ∃ hd t, s = hd :: t := by
    cases s with
    | nil => exact absurd h.2.2.2.2.2.2.1 not_false
    | cons hd t => exact ⟨hd, t, rfl⟩
  cases hanch : cur.anchor with
  | key k =>
    rw [Chron.anchorOf, hanch] at ha
    replace ha : List.find? (fun e => e.key == k) c.entriesList = some a := ha
    have := List.mem_of_find?_eq_some ha
    rw [spined_entriesList h] at this
    exact List.mem_cons.mpr (Or.inr this)
  | entry b =>
    rw [Chron.anchorOf, hanch] at ha
    replace ha : (match c.log.get b.index with
      | none => none
      | some anchor => if anchor.isSameE b then some anchor else none) = some a := ha
    cases hget : c.log.get b.index with
    | none => rw [hget] at ha; exact absurd ha (by simp)
    | some anchor =>
      rw [hget] at ha
      replace ha : (if anchor.isSameE b then some anchor else none) = some a := ha
      by_cases hsame : anchor.isSameE b
      · rw [if_pos hsame] at ha
        obtain rfl := Option.some.inj ha
        exact (spined_get_mem h hget).1
      · rw [if_neg hsame] at ha
        exact absurd ha (by simp)

theorem prevTo_mem {α : Type _} [DecidableEq α] {c : Chron α} {s : List (ChronEntry α)}
    (h : Spined c s) {cur : ChronCursor α} {p : ChronEntry α}
    (hp : c.prevTo cur = some p) : p ∈ s := by
  rw [Chron.prevTo] at hp
  cases hanch : c.anchorOf cur with
  | none => rw [hanch] at hp; exact absurd hp (by simp)
  | some a =>
    rw [hanch] at hp
    replace hp : (if cur.offset > 0 then some a
      else c.prevToGo a.index (c.logGet a.former) (c.log.length + 1)) = some p := hp
    by_cases hoff : cur.offset > 0
    · rw [if_pos hoff] at hp
      obtain rfl := Option.some.inj hp
      exact anchorOf_mem h hanch
    · rw [if_neg hoff] at hp
      refine prevToGo_mem h _ _ _ _ ?_ hp
      intro f hf
      cases hfo : a.former with
      | none =>
        rw [hfo] at hf
        exact absurd hf (by simp [Chron.logGet])
      | some j =>
        rw [hfo] at hf
        exact (spined_get_mem h (by simpa [Chron.logGet] using hf)).1

theorem atomsOf_append {α : Type _} (l1 l2 : List (ChronEntry α)) :
    atomsOf (l1 ++ l2) = atomsOf l1 ++ atomsOf l2 := by
  simp [atomsOf, List.filterMap_append]

theorem atomsOf_cons_deleted {α : Type _} {e : ChronEntry α}
    (he : e.atom = ChronAtom.deleted) (l : List (ChronEntry α)) :
    atomsOf (e :: l) = atomsOf l := by
  simp [atomsOf, he]

theorem atomsOf_cons_atom {α : Type _} {e : ChronEntry α} {a : α}
    (he : e.atom = ChronAtom.atom a) (l : List (ChronEntry α)) :
    atomsOf (e :: l) = a :: atomsOf l := by
  simp [atomsOf, he]

/-- `range(this)` (through the `head`/`tail` getters) and the inlined
`entriesList` traverse the same walk on a spined chron. -/
theorem spined_rangeFull {α : Type _} [DecidableEq α] {c : Chron α}
    {s : List (ChronEntry α)} (h : Spined c s) :
    c.rangeList c.fullRange = c.entriesList := by
  obtain ⟨hd, t, rfl⟩ : ∃ hd t, s = hd :: t := by
    cases s with
    | nil => exact absurd h.2.2.2.2.2.2.1 not_false
    | cons hd t => exact ⟨hd, t, rfl⟩
  obtain ⟨le, hgl, hlat, hlast, hgetlast⟩ := spined_last_get h
  have hz := spined_get_zero h
  have hhd0 : hd.index = 0 := (spined_head_fields h).1
  have hheadnext : c.nextTo c.headC = c.logGet hd.latter := by
    rw [Chron.headC, hz]
    show c.nextTo ⟨.entry hd, 1⟩ = c.logGet hd.latter
    rw [Chron.nextTo]
    have : c.anchorOf ⟨.entry hd, 1⟩ = some hd := by
      rw [Chron.anchorOf]
      show (match c.log.get hd.index with
        | none => none
        | some anchor => if anchor.isSameE hd then some anchor else none) = some hd
      rw [hhd0, hz]
      show (if hd.isSameE hd then some hd else none) = some hd
      rw [if_pos ⟨rfl, rfl⟩]
    rw [this]
    show (if (1 : Int) < 0 then some hd else c.logGet hd.latter) = c.logGet hd.latter
    rw [if_neg (by omega)]
  have htailnext : c.nextTo c.tailC = none := by
    rw [Chron.tailC, hgetlast]
    show c.nextTo ⟨.entry le, 1⟩ = none
    rw [Chron.nextTo]
    have : c.anchorOf ⟨.entry le, 1⟩ = some le := by
      rw [Chron.anchorOf]
      show (match c.log.get le.index with
        | none => none
        | some anchor => if anchor.isSameE le then some anchor else none) = some le
      rw [← hlast, hgetlast]
      show (if le.isSameE le then some le else none) = some le
      rw [if_pos ⟨rfl, rfl⟩]
    rw [this]
    show (if (1 : Int) < 0 then some le else c.logGet le.latter) = none
    rw [if_neg (by omega), hlat]
    rfl
  rw [Chron.rangeList]
  show c.walkGo (c.nextTo c.tailC) (c.nextTo c.headC) c.log.length = c.entriesList
  rw [htailnext, hheadnext]
  show c.walkGo none (c.logGet hd.latter) c.log.length = c.entriesList
  rw [Chron.entriesList]
  rw [hz, hgetlast]
  show _ = c.walkGo (c.logGet le.latter) (c.logGet hd.latter) c.log.length
  rw [hlat]
  rfl

/-- On a spined chron, `data()` yields the atoms of the live spine entries. -/
theorem spined_dataFull {α : Type _} [DecidableEq α] {c : Chron α}
    {s : List (ChronEntry α)} (h : Spined c s) : c.dataFull = atomsOf s := by
  obtain ⟨hd, t, rfl⟩ : ∃ hd t, s = hd :: t := by
    cases s with
    | nil => exact absurd h.2.2.2.2.2.2.1 not_false
    | cons hd t => exact ⟨hd, t, rfl⟩
  rw [Chron.dataFull, Chron.dataList, spined_rangeFull h, spined_entriesList h,
    atomsOf_cons_deleted (spined_head_fields h).2.2.1]

/-- Combined facts about the double update `v.set(i, a).set(v.length, b)`
performed by `Chron.insert`. -/
theorem Vector.insert2_facts {α : Type _} (v : Vector α) (i : Nat) (a b : Option α)
    (h5 : v.shift % 5 = 0) (hcap : v.length ≤ 32 * 2 ^ v.shift) (hi : i < v.length) :
    ((v.set i a).set v.length b).length = v.length + 1 ∧
    ((v.set i a).set v.length b).shift % 5 = 0 ∧
    ((v.set i a).set v.length b).length ≤ 32 * 2 ^ ((v.set i a).set v.length b).shift ∧
    ((v.set i a).set v.length b).get v.length = b ∧
    ((v.set i a).set v.length b).get i = a ∧
    (∀ j, j < v.length → j ≠ i → ((v.set i a).set v.length b).get j = v.get j) := by
  have hset1 : v.set i a = v.set1 i a := Vector.set_eq_set1 v i a (Nat.le_of_lt hi)
  have l1len : (v.set1 i a).length = v.length := Vector.length_set1_lt v i a hi
  have l1shift : (v.set1 i a).shift = v.shift := Vector.shift_set1_le v i a (Or.inl hi)
  have l1cap := Vector.cap_set1 v i a h5 hcap (Nat.le_of_lt hi)
  have hset2 : (v.set1 i a).set v.length b = (v.set1 i a).set1 v.length b := by
    rw [← l1len]
    exact Vector.set_eq_set1 _ _ _ (le_refl _)
  have happ := Vector.get_set1_append (v.set1 i a) b l1cap.1 l1cap.2
  rw [l1len] at happ
  have hothers : ∀ j, j < v.length → j ≠ i →
      ((v.set1 i a).set1 v.length b).get j = v.get j := by
    intro j hj hne
    have h1 : ((v.set1 i a).set1 v.length b).get j = (v.set1 i a).get j := by
      rw [← l1len]
      exact Vector.get_set1_other (v.set1 i a) (v.set1 i a).length j b l1cap.1 l1cap.2
        (le_refl _) (by omega) (by omega)
    rw [h1]
    exact Vector.get_set1_other v i j a h5 hcap (Nat.le_of_lt hi) hj hne
  have hgi : ((v.set1 i a).set1 v.length b).get i = a := by
    have h1 : ((v.set1 i a).set1 v.length b).get i = (v.set1 i a).get i := by
      rw [← l1len]
      exact Vector.get_set1_other (v.set1 i a) (v.set1 i a).length i b l1cap.1 l1cap.2
        (le_refl _) (by omega) (by omega)
    rw [h1]
    exact Vector.get_set1_lt v i a hi
  have l2cap := Vector.cap_set1 (v.set1 i a) v.length b l1cap.1 l1cap.2 (by omega)
  rw [hset1, hset2]
  exact ⟨happ.2, l2cap.1, l2cap.2, happ.1, hgi, hothers⟩

/-- The spine chains from any of its entries onwards. -/
theorem spined_chain_at {α : Type _} {c : Chron α} {s s1 s2 : List (ChronEntry α)}
    {p : ChronEntry α} (h : Spined c s) (hs : s = s1 ++ p :: s2) : Chain p s2 := by
  obtain ⟨hd, t, hst⟩ : ∃ hd t, s = hd :: t := by
    cases s with
    | nil => exact absurd h.2.2.2.2.2.2.1 not_false
    | cons hd t => exact ⟨hd, t, rfl⟩
  have hch : Chain hd t := by
    have := h.2.2.2.2.2.2.1
    rw [hst] at this
    exact this.2.2.2.2
  cases s1 with
  | nil =>
    have : hd = p ∧ t = s2 := by
      rw [hst] at hs
      exact ⟨List.head_eq_of_cons_eq hs, List.tail_eq_of_cons_eq hs⟩
    rw [← this.1, ← this.2]
    exact hch
  | cons hd2 s1' =>
    have heq : hd = hd2 ∧ t = s1' ++ p :: s2 := by
      rw [hst] at hs
      exact ⟨List.head_eq_of_cons_eq hs, List.tail_eq_of_cons_eq hs⟩
    apply chain_suffix s1' hd p s2
    rw [← heq.2]
    exact hch

/-- Entries in the tail of the spine never carry the root index 0. -/
theorem spined_tail_index_ne {α : Type _} {c : Chron α} {hd f : ChronEntry α}
    {t : List (ChronEntry α)} (h : Spined c (hd :: t)) (hf : f ∈ t) : f.index ≠ 0 := by
  intro h0
  have hhd0 : hd.index = 0 := (spined_head_fields h).1
  have hnd := h.2.2.2.2.2.1
  rw [List.map_cons, List.nodup_cons] at hnd
  exact hnd.1 (by rw [hhd0, ← h0]; exact List.mem_map_of_mem ChronEntry.index hf)

/-- The split tail of a spine split is contained in the spine tail. -/
theorem spined_split_sub {α : Type _} {s s1 s2 : List (ChronEntry α)}
    {hd p : ChronEntry α} {t : List (ChronEntry α)}
    (hst : s = hd :: t) (hs : s = s1 ++ p :: s2) : ∀ f ∈ s2, f ∈ t := by
  intro f hf
  cases s1 with
  | nil =>
    have : t = s2 := by
      rw [hst] at hs
      exact List.tail_eq_of_cons_eq hs
    rw [this]
    exact hf
  | cons hd2 s1' =>
    have : t = s1' ++ p :: s2 := by
      rw [hst] at hs
      exact List.tail_eq_of_cons_eq hs
    rw [this]
    exact List.mem_append.mpr (Or.inr (List.mem_cons.mpr (Or.inr hf)))

/-- `Chron.insert` preserves spinedness: the updated anchor `p'` and the fresh
entry `enew` splice into the spine right after the anchor's position. -/
theorem spined_insert {α : Type _} [DecidableEq α] {c : Chron α}
    {s s1 s2 : List (ChronEntry α)} {p : ChronEntry α}
    (h : Spined c s) (hs : s = s1 ++ p :: s2) (p' enew : ChronEntry α) (last2 : Nat)
    (hp'i : p'.index = p.index) (hp'k : p'.key = p.key) (hp'a : p'.atom = p.atom)
    (hp'f : p'.former = p.former) (hp'l : p'.latter = some c.log.length)
    (heni : enew.index = c.log.length)
    (henl : enew.latter = p.latter)
    (hlast2 : last2 = (match p.latter with
      | some l => if l = 0 then c.log.length else c.last
      | none => c.log.length)) :
    Spined ⟨(c.log.set p.index (some p')).set c.log.length (some enew), last2⟩
      (s1 ++ p' :: enew :: s2) := by
  have hlen := h.1
  have h5 := h.2.1
  have hcap := h.2.2.1
  have hmem := h.2.2.2.1
  have hcover := h.2.2.2.2.1
  have hnodup := h.2.2.2.2.2.1
  have hpmem : p ∈ s := by
    rw [hs]
    exact List.mem_append.mpr (Or.inr (List.mem_cons_self _ _))
  have hpidx : p.index < s.length := (hmem p hpmem).1
  have hpget : c.log.get p.index = some p := (hmem p hpmem).2
  have hplen : p.index < c.log.length := by omega
  have hfacts := Vector.insert2_facts c.log p.index (some p') (some enew) h5 hcap hplen
  obtain ⟨f1, f2, f3, f4, f5, f6⟩ := hfacts
  have hslen : s.length = s1.length + s2.length + 1 := by
    rw [hs]
    simp only [List.length_append, List.length_cons]
    omega
  have hs'len : (s1 ++ p' :: enew :: s2).length = s.length + 1 := by
    rw [hslen]
    simp
    omega
  have hfresh : ∀ f ∈ s, f.index < c.log.length := by
    intro f hf
    have := (hmem f hf).1
    omega
  have hnodup2 : p.index ∉ (s1.map ChronEntry.index ++ s2.map ChronEntry.index) ∧
      (s1.map ChronEntry.index ++ s2.map ChronEntry.index).Nodup := by
    have h0 := hnodup
    rw [hs, List.map_append, List.map_cons] at h0
    have h1 := List.nodup_middle.mp h0
    rw [List.nodup_cons] at h1
    exact h1
  have hchp : Chain p s2 := spined_chain_at h hs
  have hchen : Chain enew s2 := chain_congr (by rw [henl]) s2 hchp
  have hchp' : Chain p' (enew :: s2) := ⟨by rw [hp'l, heni], hchen⟩
  refine ⟨?_, f2, f3, ?_, ?_, ?_, ?_, ?_⟩
  · -- length
    show ((c.log.set p.index (some p')).set c.log.length (some enew)).length = _
    rw [f1, hs'len, hlen]
  · -- membership
    intro e he
    rw [hs'len]
    rcases List.mem_append.mp he with h1 | h2
    · -- e ∈ s1
      have hes : e ∈ s := by
        rw [hs]
        exact List.mem_append.mpr (Or.inl h1)
      have hold := hmem e hes
      have hne1 : e.index ≠ p.index := by
        intro heq
        have : c.log.get p.index = some e := by rw [← heq]; exact hold.2
        rw [hpget] at this
        obtain rfl := Option.some.inj this
        exact hnodup2.1 (List.mem_append.mpr (Or.inl (List.mem_map_of_mem _ h1)))
      refine ⟨by omega, ?_⟩
      show ((c.log.set p.index (some p')).set c.log.length (some enew)).get e.index = some e
      rw [f6 e.index (by omega) hne1]
      exact hold.2
    · rcases List.mem_cons.mp h2 with h3 | h4
      · -- e = the updated anchor
        refine ⟨by rw [h3, hp'i]; omega, ?_⟩
        rw [h3]
        show ((c.log.set p.index (some p')).set c.log.length (some enew)).get p'.index = _
        rw [hp'i, f5]
      · rcases List.mem_cons.mp h4 with h5e | h6
        · -- e = the fresh entry
          refine ⟨by rw [h5e, heni]; omega, ?_⟩
          rw [h5e]
          show ((c.log.set p.index (some p')).set c.log.length (some enew)).get enew.index = _
          rw [heni, f4]
        · -- e ∈ s2
          have hes : e ∈ s := by
            rw [hs]
            exact List.mem_append.mpr (Or.inr (List.mem_cons.mpr (Or.inr h6)))
          have hold := hmem e hes
          have hne1 : e.index ≠ p.index := by
            intro heq
            have : c.log.get p.index = some e := by rw [← heq]; exact hold.2
            rw [hpget] at this
            obtain rfl := Option.some.inj this
            exact hnodup2.1 (List.mem_append.mpr (Or.inr (List.mem_map_of_mem _ h6)))
          refine ⟨by omega, ?_⟩
          show ((c.log.set p.index (some p')).set c.log.length (some enew)).get e.index = some e
          rw [f6 e.index (by omega) hne1]
          exact hold.2
  · -- index coverage
    intro j hj
    rw [List.mem_range, hs'len] at hj
    by_cases hjs : j < s.length
    · obtain ⟨e, he, hei⟩ := hcover j (List.mem_range.mpr hjs)
      rw [hs] at he
      rcases List.mem_append.mp he with h1 | h2
      · exact ⟨e, List.mem_append.mpr (Or.inl h1), hei⟩
      · rcases List.mem_cons.mp h2 with h3 | h4
        · subst h3
          exact ⟨p', List.mem_append.mpr (Or.inr (List.mem_cons_self _ _)), by rw [hp'i, hei]⟩
        · exact ⟨e, List.mem_append.mpr (Or.inr (List.mem_cons.mpr (Or.inr
            (List.mem_cons.mpr (Or.inr h4))))), hei⟩
    · have hj2 : j = s.length := by omega
      refine ⟨enew, List.mem_append.mpr (Or.inr (List.mem_cons.mpr (Or.inr
        (List.mem_cons_self _ _)))), by rw [heni, hj2, hlen]⟩
  · -- nodup indices
    rw [List.map_append, List.map_cons, List.map_cons, hp'i, heni]
    apply List.nodup_middle.mpr
    apply List.nodup_cons.mpr
    constructor
    · intro hmem2
      rcases List.mem_append.mp hmem2 with h1 | h2
      · exact hnodup2.1 (List.mem_append.mpr (Or.inl h1))
      · rcases List.mem_cons.mp h2 with h3 | h4
        · omega
        · exact hnodup2.1 (List.mem_append.mpr (Or.inr h4))
    · apply List.nodup_middle.mpr
      apply List.nodup_cons.mpr
      constructor
      · intro hmem2
        rcases List.mem_append.mp hmem2 with h1 | h2
        · obtain ⟨f, hf, hfi⟩ := List.mem_map.mp h1
          have : f ∈ s := by
            rw [hs]
            exact List.mem_append.mpr (Or.inl hf)
          have := hfresh f this
          omega
        · obtain ⟨f, hf, hfi⟩ := List.mem_map.mp h2
          have : f ∈ s := by
            rw [hs]
            exact List.mem_append.mpr (Or.inr (List.mem_cons.mpr (Or.inr hf)))
          have := hfresh f this
          omega
      · exact hnodup2.2
  · -- spine head
    cases s1 with
    | nil =>
      have hsp : s = p :: s2 := hs
      have hold : SpineHead s := h.2.2.2.2.2.2.1
      rw [hsp] at hold
      show SpineHead (p' :: enew :: s2)
      exact ⟨by rw [hp'i]; exact hold.1, by rw [hp'k]; exact hold.2.1,
        by rw [hp'a]; exact hold.2.2.1, by rw [hp'f]; exact hold.2.2.2.1, hchp'⟩
    | cons hd s1' =>
      have hold : SpineHead s := h.2.2.2.2.2.2.1
      rw [hs] at hold
      replace hold : hd.index = 0 ∧ hd.key = 0 ∧ hd.atom = ChronAtom.deleted ∧
        hd.former = none ∧ Chain hd (s1' ++ p :: s2) := hold
      show SpineHead (hd :: (s1' ++ p' :: enew :: s2))
      exact ⟨hold.1, hold.2.1, hold.2.2.1, hold.2.2.2.1,
        chain_splice hp'i hchp' s1' hd hold.2.2.2.2⟩
  · -- spine last
    cases s2 with
    | nil =>
      have hgl : (s1 ++ p' :: enew :: ([] : List (ChronEntry α))).getLast? = some enew := by
        rw [List.getLast?_append_cons]
        rfl
      have hlat : p.latter = none := hchp
      show SpineLast _ (s1 ++ p' :: enew :: [])
      simp only [SpineLast, hgl]
      refine ⟨by rw [henl, hlat], ?_⟩
      show last2 = enew.index
      rw [hlast2, hlat, heni]
    | cons f s2' =>
      obtain ⟨le, hleg, hlelat, hlelast, _⟩ := spined_last_get h
      have hglold : s.getLast? = (f :: s2').getLast? := by
        rw [hs, List.getLast?_append_cons, List.getLast?_cons_cons]
      have hgl2 : (s1 ++ p' :: enew :: f :: s2').getLast? = some le := by
        rw [List.getLast?_append_cons, List.getLast?_cons_cons, List.getLast?_cons_cons,
          ← hglold, hleg]
      have hplat : p.latter = some f.index := hchp.1
      have hfne : f.index ≠ 0 := by
        obtain ⟨hd, t, hst⟩ : ∃ hd t, s = hd :: t := by
          cases hscase : s with
          | nil =>
            rw [hscase] at h
            exact absurd h.2.2.2.2.2.2.1 not_false
          | cons hd t => exact ⟨hd, t, rfl⟩
        have h2 := h
        rw [hst] at h2
        apply spined_tail_index_ne h2
        apply spined_split_sub hst hs
        exact List.mem_cons_self f s2'
      show SpineLast _ (s1 ++ p' :: enew :: f :: s2')
      simp only [SpineLast, hgl2]
      refine ⟨hlelat, ?_⟩
      show last2 = le.index
      rw [hlast2, hplat]
      simp only [if_neg hfne]
      exact hlelast

/-- `Chron.delete` preserves spinedness: the tombstoned entry replaces the
original at its spine position. -/
theorem spined_delete {α : Type _} [DecidableEq α] {c : Chron α}
    {s s1 s2 : List (ChronEntry α)} {e : ChronEntry α}
    (h : Spined c s) (hs : s = s1 ++ e :: s2) (e' : ChronEntry α)
    (he'i : e'.index = e.index) (he'k : e'.key = e.key)
    (he'a : e'.atom = ChronAtom.deleted)
    (he'f : e'.former = e.former) (he'l : e'.latter = e.latter) :
    Spined ⟨c.log.set e.index (some e'), c.last⟩ (s1 ++ e' :: s2) := by
  have hlen := h.1
  have h5 := h.2.1
  have hcap := h.2.2.1
  have hmem := h.2.2.2.1
  have hcover := h.2.2.2.2.1
  have hnodup := h.2.2.2.2.2.1
  have hemem : e ∈ s := by
    rw [hs]
    exact List.mem_append.mpr (Or.inr (List.mem_cons_self _ _))
  have heidx : e.index < s.length := (hmem e hemem).1
  have heget : c.log.get e.index = some e := (hmem e hemem).2
  have helen : e.index < c.log.length := by omega
  have hset1 : c.log.set e.index (some e') = c.log.set1 e.index (some e') :=
    Vector.set_eq_set1 c.log e.index (some e') (Nat.le_of_lt helen)
  have l1len : (c.log.set1 e.index (some e')).length = c.log.length :=
    Vector.length_set1_lt c.log e.index (some e') helen
  have l1cap := Vector.cap_set1 c.log e.index (some e') h5 hcap (Nat.le_of_lt helen)
  have l1same : (c.log.set1 e.index (some e')).get e.index = some e' :=
    Vector.get_set1_lt c.log e.index (some e') helen
  have l1other : ∀ j, j < c.log.length → j ≠ e.index →
      (c.log.set1 e.index (some e')).get j = c.log.get j := fun j hj hne =>
    Vector.get_set1_other c.log e.index j (some e') h5 hcap (Nat.le_of_lt helen) hj hne
  have hnodup2 : e.index ∉ (s1.map ChronEntry.index ++ s2.map ChronEntry.index) ∧
      (s1.map ChronEntry.index ++ s2.map ChronEntry.index).Nodup := by
    have h0 := hnodup
    rw [hs, List.map_append, List.map_cons] at h0
    have h1 := List.nodup_middle.mp h0
    rw [List.nodup_cons] at h1
    exact h1
  have hche : Chain e s2 := spined_chain_at h hs
  have hche' : Chain e' s2 := chain_congr (by rw [he'l]) s2 hche
  have hs'len : (s1 ++ e' :: s2).length = s.length := by
    rw [hs]
    simp
  refine ⟨?_, ?_, ?_, ?_, ?_, ?_, ?_, ?_⟩
  · show (c.log.set e.index (some e')).length = _
    rw [hset1, l1len, hs'len, hlen]
  · show (c.log.set e.index (some e')).shift % 5 = 0
    rw [hset1]
    exact l1cap.1
  · show (c.log.set e.index (some e')).length ≤ _
    rw [hset1]
    exact l1cap.2
  · intro f hf
    rw [hs'len]
    rcases List.mem_append.mp hf with h1 | h2
    · have hfs : f ∈ s := by
        rw [hs]
        exact List.mem_append.mpr (Or.inl h1)
      have hold := hmem f hfs
      have hne1 : f.index ≠ e.index := by
        intro heq
        have : c.log.get e.index = some f := by rw [← heq]; exact hold.2
        rw [heget] at this
        obtain rfl := Option.some.inj this
        exact hnodup2.1 (List.mem_append.mpr (Or.inl (List.mem_map_of_mem _ h1)))
      refine ⟨hold.1, ?_⟩
      show (c.log.set e.index (some e')).get f.index = some f
      rw [hset1, l1other f.index (by omega) hne1]
      exact hold.2
    · rcases List.mem_cons.mp h2 with h3 | h4
      · refine ⟨by rw [h3, he'i]; omega, ?_⟩
        rw [h3]
        show (c.log.set e.index (some e')).get e'.index = some e'
        rw [he'i, hset1]
        exact l1same
      · have hfs : f ∈ s := by
          rw [hs]
          exact List.mem_append.mpr (Or.inr (List.mem_cons.mpr (Or.inr h4)))
        have hold := hmem f hfs
        have hne1 : f.index ≠ e.index := by
          intro heq
          have : c.log.get e.index = some f := by rw [← heq]; exact hold.2
          rw [heget] at this
          obtain rfl := Option.some.inj this
          exact hnodup2.1 (List.mem_append.mpr (Or.inr (List.mem_map_of_mem _ h4)))
        refine ⟨hold.1, ?_⟩
        show (c.log.set e.index (some e')).get f.index = some f
        rw [hset1, l1other f.index (by omega) hne1]
        exact hold.2
  · intro j hj
    rw [List.mem_range, hs'len] at hj
    obtain ⟨f, hf, hfi⟩ := hcover j (List.mem_range.mpr hj)
    rw [hs] at hf
    rcases List.mem_append.mp hf with h1 | h2
    · exact ⟨f, List.mem_append.mpr (Or.inl h1), hfi⟩
    · rcases List.mem_cons.mp h2 with h3 | h4
      · subst h3
        exact ⟨e', List.mem_append.mpr (Or.inr (List.mem_cons_self _ _)), by rw [he'i, hfi]⟩
      · exact ⟨f, List.mem_append.mpr (Or.inr (List.mem_cons.mpr (Or.inr h4))), hfi⟩
  · rw [List.map_append, List.map_cons, he'i]
    have : (ChronEntry.index e :: List.map ChronEntry.index s2) =
        List.map ChronEntry.index (e :: s2) := rfl
    rw [this, ← List.map_append, ← hs]
    exact hnodup
  · cases s1 with
    | nil =>
      have hsp : s = e :: s2 := hs
      have hold : SpineHead s := h.2.2.2.2.2.2.1
      rw [hsp] at hold
      show SpineHead (e' :: s2)
      exact ⟨by rw [he'i]; exact hold.1, by rw [he'k]; exact hold.2.1, he'a,
        by rw [he'f]; exact hold.2.2.2.1, hche'⟩
    | cons hd s1' =>
      have hold : SpineHead s := h.2.2.2.2.2.2.1
      rw [hs] at hold
      replace hold : hd.index = 0 ∧ hd.key = 0 ∧ hd.atom = ChronAtom.deleted ∧
        hd.former = none ∧ Chain hd (s1' ++ e :: s2) := hold
      show SpineHead (hd :: (s1' ++ e' :: s2))
      exact ⟨hold.1, hold.2.1, hold.2.2.1, hold.2.2.2.1,
        chain_replace he'i he'l s1' hd hold.2.2.2.2⟩
  · obtain ⟨le, hleg, hlelat, hlelast, _⟩ := spined_last_get h
    cases s2 with
    | nil =>
      have hgl : (s1 ++ e' :: ([] : List (ChronEntry α))).getLast? = some e' := by
        rw [List.getLast?_append_cons]
        rfl
      have hle : le = e := by
        have : s.getLast? = some e := by
          rw [hs, List.getLast?_append_cons]
          rfl
        rw [this] at hleg
        exact (Option.some.inj hleg).symm
      show SpineLast _ (s1 ++ e' :: [])
      simp only [SpineLast, hgl]
      refine ⟨by rw [he'l, ← hle]; exact hlelat, ?_⟩
      show c.last = e'.index
      rw [he'i, ← hle]
      exact hlelast
    | cons f s2' =>
      have hgl : (s1 ++ e' :: f :: s2').getLast? = some le := by
        rw [List.getLast?_append_cons, List.getLast?_cons_cons]
        have : s.getLast? = (f :: s2').getLast? := by
          rw [hs, List.getLast?_append_cons, List.getLast?_cons_cons]
        rw [← this, hleg]
      show SpineLast _ (s1 ++ e' :: f :: s2')
      simp only [SpineLast, hgl]
      exact ⟨hlelat, hlelast⟩

theorem atomsOf_singleton_atom {α : Type _} {e : ChronEntry α} {a : α}
    (he : e.atom = ChronAtom.atom a) : atomsOf [e] = [a] := by
  simp [atomsOf, he]

/-- C2 (amended): on any spined chron, whenever `prevTo(c)` resolves to an
entry `p`, inserting splices the new atom into `data` right after the part of
the sequence that ends at `p`; whenever the cursor's anchor does not resolve,
`insert` returns the chron unchanged.  (As stated in the original claim the
property fails for the resolvable cursor `(root, -1)`, whose anchor resolves
while `prevTo` does not — see `chron_insert_C2_counterexample`.) -/
theorem chron_insert_C2 {α : Type _} [DecidableEq α] (c : Chron α)
    (s : List (ChronEntry α)) (cur : ChronCursor α) (x : α) (key : Nat)
    (h : Spined c s) :
    (∀ p, c.prevTo cur = some p →
      ∃ s1 s2, s = s1 ++ p :: s2 ∧
        c.dataFull = atomsOf (s1 ++ [p]) ++ atomsOf s2 ∧
        (c.insert cur x key).dataFull = atomsOf (s1 ++ [p]) ++ [x] ++ atomsOf s2) ∧
    (c.anchorOf cur = none → c.insert cur x key = c) := by
  constructor
  · intro p hp
    obtain ⟨s1, s2, hs⟩ := List.append_of_mem (prevTo_mem h hp)
    refine ⟨s1, s2, hs, ?_, ?_⟩
    · rw [spined_dataFull h, hs, atomsOf_append, atomsOf_append]
      have h1 : atomsOf (p :: s2) = atomsOf [p] ++ atomsOf s2 := atomsOf_append [p] s2
      rw [h1, List.append_assoc]
    · have hins : c.insert cur x key =
        ⟨(c.log.set p.index
            (some ⟨p.index, p.key, p.atom, p.former, some c.log.length⟩)).set c.log.length
            (some ⟨c.log.length, key, ChronAtom.atom x, some p.index, p.latter⟩),
          match p.latter with
          | some l => if l = 0 then c.log.length else c.last
          | none => c.log.length⟩ := by
        rw [Chron.insert, hp]
      rw [hins]
      have hsp' := spined_insert h hs
        ⟨p.index, p.key, p.atom, p.former, some c.log.length⟩
        ⟨c.log.length, key, ChronAtom.atom x, some p.index, p.latter⟩
        (match p.latter with
          | some l => if l = 0 then c.log.length else c.last
          | none => c.log.length)
        rfl rfl rfl rfl rfl rfl rfl rfl
      rw [spined_dataFull hsp', atomsOf_append, atomsOf_append]
      have h2 : atomsOf
          ((⟨p.index, p.key, p.atom, p.former, some c.log.length⟩ : ChronEntry α) ::
            (⟨c.log.length, key, ChronAtom.atom x, some p.index, p.latter⟩ : ChronEntry α) ::
            s2) =
          atomsOf [p] ++ ([x] ++ atomsOf s2) := by
        have e1 : atomsOf
            ((⟨p.index, p.key, p.atom, p.former, some c.log.length⟩ : ChronEntry α) ::
              (⟨c.log.length, key, ChronAtom.atom x, some p.index, p.latter⟩ : ChronEntry α) ::
              s2) =
            atomsOf [(⟨p.index, p.key, p.atom, p.former, some c.log.length⟩ : ChronEntry α)] ++
            atomsOf ((⟨c.log.length, key, ChronAtom.atom x, some p.index, p.latter⟩ :
              ChronEntry α) :: s2) :=
          atomsOf_append [(⟨p.index, p.key, p.atom, p.former, some c.log.length⟩ : ChronEntry α)]
            ((⟨c.log.length, key, ChronAtom.atom x, some p.index, p.latter⟩ :
              ChronEntry α) :: s2)
        rw [e1, atomsOf_cons_atom rfl s2]
        rfl
      rw [h2]
      simp [List.append_assoc]
  · intro hanch
    have hprev : c.prevTo cur = none := by
      rw [Chron.prevTo, hanch]
    rw [Chron.insert, hprev]

/-- The original C2 is refuted at the cursor `(Chron.root, -1)`: its anchor
resolves (to the root entry), but `insert` leaves the chron unchanged, so the
new atom never appears in `data`. -/
theorem chron_insert_C2_counterexample :
    ((Chron.empty : Chron Nat).anchorOf ⟨.entry Chron.rootEntry, -1⟩).isSome = true ∧
    (Chron.empty : Chron Nat).insert ⟨.entry Chron.rootEntry, -1⟩ 7 5 = Chron.empty ∧
    ((Chron.empty : Chron Nat).insert ⟨.entry Chron.rootEntry, -1⟩ 7 5).dataFull = [] :=
  ⟨by decide, rfl, by decide⟩

/-- Witness for `chron_insert_C2` on the empty chron and its tail cursor. -/
theorem chron_insert_C2_witness :
    Spined (Chron.empty : Chron Nat) [Chron.rootEntry] ∧
    ((∀ p, (Chron.empty : Chron Nat).prevTo (Chron.empty : Chron Nat).tailC = some p →
      ∃ s1 s2, [Chron.rootEntry] = s1 ++ p :: s2 ∧
        (Chron.empty : Chron Nat).dataFull = atomsOf (s1 ++ [p]) ++ atomsOf s2 ∧
        ((Chron.empty : Chron Nat).insert (Chron.empty : Chron Nat).tailC 7 3).dataFull =
          atomsOf (s1 ++ [p]) ++ [7] ++ atomsOf s2) ∧
    ((Chron.empty : Chron Nat).anchorOf (Chron.empty : Chron Nat).tailC = none →
      (Chron.empty : Chron Nat).insert (Chron.empty : Chron Nat).tailC 7 3 =
        (Chron.empty : Chron Nat))) :=
  ⟨by decide,
    chron_insert_C2 (Chron.empty : Chron Nat) [Chron.rootEntry]
      (Chron.empty : Chron Nat).tailC 7 3 (by decide)⟩

/-- C6: deleting a live entry of a spined chron removes exactly its atom from
`data`, and deleting it again is a no-op on the already-deleted entry. -/
theorem chron_delete_C6 {α : Type _} [DecidableEq α] (c : Chron α)
    (s : List (ChronEntry α)) (e : ChronEntry α) (h : Spined c s)
    (he : c.log.get e.index = some e) (hlive : e.atom ≠ ChronAtom.deleted) :
    ∃ s1 s2 a, s = s1 ++ e :: s2 ∧ e.atom = ChronAtom.atom a ∧
      c.dataFull = atomsOf s1 ++ a :: atomsOf s2 ∧
      (c.delete e).dataFull = atomsOf s1 ++ atomsOf s2 ∧
      (c.delete e).delete e = c.delete e := by
  obtain ⟨a, ha⟩ : ∃ a, e.atom = ChronAtom.atom a := by
    cases hat : e.atom with
    | atom a => exact ⟨a, rfl⟩
    | deleted => exact absurd hat hlive
  obtain ⟨s1, s2, hs⟩ := List.append_of_mem (spined_get_mem h he).1
  have hnotsame : ¬ (¬ e.isSameE e ∨ e.atom = ChronAtom.deleted) :=
    not_or.mpr ⟨not_not_intro ⟨rfl, rfl⟩, hlive⟩
  have hdel : c.delete e =
      ⟨c.log.set e.index (some ⟨e.index, e.key, ChronAtom.deleted, e.former, e.latter⟩),
        c.last⟩ := by
    rw [Chron.delete, he]
    show (if ¬ e.isSameE e ∨ e.atom = ChronAtom.deleted then c
      else ⟨c.log.set e.index
        (some ⟨e.index, e.key, ChronAtom.deleted, e.former, e.latter⟩), c.last⟩) = _
    rw [if_neg hnotsame]
  have hsp' := spined_delete h hs
    ⟨e.index, e.key, ChronAtom.deleted, e.former, e.latter⟩ rfl rfl rfl rfl rfl
  have hlog2get : (c.log.set e.index
      (some ⟨e.index, e.key, ChronAtom.deleted, e.former, e.latter⟩)).get e.index =
      some ⟨e.index, e.key, ChronAtom.deleted, e.former, e.latter⟩ := by
    have heidx : e.index < c.log.length := by
      have hm := (spined_get_mem h he).1
      have h2 := (h.2.2.2.1 e hm).1
      have h3 := h.1
      omega
    rw [Vector.set_eq_set1 c.log e.index _ (Nat.le_of_lt heidx)]
    exact Vector.get_set1_lt c.log e.index _ heidx
  refine ⟨s1, s2, a, hs, ha, ?_, ?_, ?_⟩
  · rw [spined_dataFull h, hs, atomsOf_append, atomsOf_cons_atom ha]
  · rw [hdel, spined_dataFull hsp', atomsOf_append, atomsOf_cons_deleted rfl]
  · rw [hdel]
    show Chron.delete _ e = _
    simp only [Chron.delete, hlog2get]
    simp

/-- Witness for `chron_delete_C6` on a one-atom chron. -/
theorem chron_delete_C6_witness :
    Spined ((Chron.empty : Chron Nat).insert (Chron.empty : Chron Nat).tailC 7 3)
      [⟨0, 0, ChronAtom.deleted, none, some 1⟩, ⟨1, 3, ChronAtom.atom 7, some 0, none⟩] ∧
    ((Chron.empty : Chron Nat).insert (Chron.empty : Chron Nat).tailC 7 3).log.get 1 =
      some ⟨1, 3, ChronAtom.atom 7, some 0, none⟩ ∧
    (⟨1, 3, ChronAtom.atom 7, some 0, none⟩ : ChronEntry Nat).atom ≠ ChronAtom.deleted ∧
    (∃ s1 s2 a,
      [(⟨0, 0, ChronAtom.deleted, none, some 1⟩ : ChronEntry Nat),
        ⟨1, 3, ChronAtom.atom 7, some 0, none⟩] =
        s1 ++ (⟨1, 3, ChronAtom.atom 7, some 0, none⟩ : ChronEntry Nat) :: s2 ∧
      (⟨1, 3, ChronAtom.atom 7, some 0, none⟩ : ChronEntry Nat).atom = ChronAtom.atom a ∧
      ((Chron.empty : Chron Nat).insert (Chron.empty : Chron Nat).tailC 7 3).dataFull =
        atomsOf s1 ++ a :: atomsOf s2 ∧
      (((Chron.empty : Chron Nat).insert (Chron.empty : Chron Nat).tailC 7 3).delete
        ⟨1, 3, ChronAtom.atom 7, some 0, none⟩).dataFull = atomsOf s1 ++ atomsOf s2 ∧
      ((((Chron.empty : Chron Nat).insert (Chron.empty : Chron Nat).tailC 7 3).delete
        ⟨1, 3, ChronAtom.atom 7, some 0, none⟩).delete
        ⟨1, 3, ChronAtom.atom 7, some 0, none⟩) =
        (((Chron.empty : Chron Nat).insert (Chron.empty : Chron Nat).tailC 7 3).delete
          ⟨1, 3, ChronAtom.atom 7, some 0, none⟩)) :=
  ⟨by decide, by decide, by decide,
    chron_delete_C6 ((Chron.empty : Chron Nat).insert (Chron.empty : Chron Nat).tailC 7 3)
      [⟨0, 0, ChronAtom.deleted, none, some 1⟩, ⟨1, 3, ChronAtom.atom 7, some 0, none⟩]
      ⟨1, 3, ChronAtom.atom 7, some 0, none⟩ (by decide) (by decide) (by decide)⟩

/-! ## WaveMergeState and WaveApp advance/merge (model.ts) -/

/- `tagString.split(':')` of `WaveMergeState._parseTag`: JS `split` on a
one-character separator, done structurally on the character list. -/

def splitColonGo : List Char → List Char → List String
  | [], acc => [String.mk acc.reverse]
  | c :: cs, acc =>
    if c = ':' then String.mk acc.reverse :: splitColonGo cs []
    else splitColonGo cs (c :: acc)

def splitColon (s : String) : List String :=
  splitColonGo s.data []

/- `WaveMergeState` of model.ts: the stored tag array and stored rate. JS
numbers are modelled as integers; an absent (`undefined`) rate argument is
`none`. -/

structure WaveMergeState where
  _tag : List String
  _rate : Int
deriving DecidableEq

/- `_parseTag(id, tagString, rate?)`: split on ':', substitute `id`, and
substitute `rate` with the rate's decimal string or `*` when absent. -/
def WaveMergeState.parseTag (id : String) (tagString : String)
    (rate : Option Int) : List String :=
  (splitColon tagString).map fun t =>
    if t = "id" then id
    else if t = "rate" then
      match rate with
      | some r => toString r
      | none => "*"
    else t

/- The loop of `_canMerge`: `tag[i] != '*' && tag[i] != this._tag[i]` returns
false; reading past the stored array gives `undefined`, never equal to a
string, so only `*` passes there. -/
def tagsMatch : List String → List String → Bool
  | [], _ => true
  | t :: ts, s :: ss => (t == "*" || t == s) && tagsMatch ts ss
  | t :: ts, [] => (t == "*") && tagsMatch ts []

/- `_canMerge(tag, rate?)`: JS `rate <= this._rate` is false when `rate` is
`undefined`, so an absent rate passes the first guard. -/
def WaveMergeState.canMerge (st : WaveMergeState) (tag : List String)
    (rate : Option Int) : Bool :=
  if (match rate with | some r => decide (r ≤ st._rate) | none => false) then false
  else if tag.length != st._tag.length then false
  else tagsMatch tag st._tag

/- `merge(id, tagString, rate?)`: on failure the stored state is reset to
`(tag, 1)`; on success the stored rate becomes the old stored rate plus one
(not the incoming rate). Returns the new state and the JS return value. -/
def WaveMergeState.merge (st : WaveMergeState) (id : String) (tagString : String)
    (rate : Option Int) : WaveMergeState × Bool :=
  let tag := WaveMergeState.parseTag id tagString rate
  if st.canMerge tag rate then (⟨tag, st._rate + 1⟩, true)
  else (⟨tag, 1⟩, false)

/- The `WaveApp` state as far as advancing is concerned: the depth of the
`_worlds` stack, the size of the `_redo` buffer, and `_waveMergeState`. A
fresh app has one world, an empty redo buffer, and merge state `(['*'], 0)`. -/
structure WaveAppSt where
  worldCount : Nat
  redoCount : Nat
  waveMergeState : WaveMergeState
deriving DecidableEq

/- `App.advance`: clean the redo buffer, lock the top world, push a child. -/
def WaveAppSt.advance (a : WaveAppSt) : WaveAppSt :=
  ⟨a.worldCount + 1, 0, a.waveMergeState⟩

/- `WaveApp._advanceWaveMerge`: run `merge`; on success only the redo buffer
is cleaned, otherwise `advance` pushes a new world. -/
def WaveAppSt.advanceWaveMerge (a : WaveAppSt) (id tagString : String)
    (rate : Option Int) : WaveAppSt :=
  let m := a.waveMergeState.merge id tagString rate
  if m.2 then ⟨a.worldCount, 0, m.1⟩
  else WaveAppSt.advance ⟨a.worldCount, a.redoCount, m.1⟩

/- The spec's merge condition, written from its words: tag arrays length-equal
and matching elementwise with `*` as wildcard, and the incoming rate strictly
greater than the stored rate. -/
def specMergeCond (st : WaveMergeState) (tag : List String) (r : Int) : Prop :=
  st._rate < r ∧ tag.length = st._tag.length ∧
    ∀ i, i < tag.length → tag.getD i "" = "*" ∨ tag.getD i "" = st._tag.getD i ""

instance (st : WaveMergeState) (tag : List String) (r : Int) :
    Decidable (specMergeCond st tag r) :=
  decidable_of_iff (st._rate < r ∧ tag.length = st._tag.length ∧
    ∀ i, i < tag.length → tag.getD i "" = "*" ∨ tag.getD i "" = st._tag.getD i "")
    Iff.rfl

theorem tagsMatch_refl (l : List String) : tagsMatch l l = true := by
  induction l with
  | nil => rfl
  | cons t ts ih =>
    show ((t == "*" || t == t) && tagsMatch ts ts) = true
    rw [ih]
    simp

theorem tagsMatch_iff (tag st : List String) (hlen : tag.length = st.length) :
    tagsMatch tag st = true ↔
      ∀ i, i < tag.length → tag.getD i "" = "*" ∨ tag.getD i "" = st.getD i "" := by
  induction tag generalizing st with
  | nil => simp [tagsMatch]
  | cons t ts ih =>
    cases st with
    | nil => simp at hlen
    | cons s ss =>
      have hlen' : ts.length = ss.length := by simpa using hlen
      constructor
      · intro h i hi
        have h' := h
        rw [show tagsMatch (t :: ts) (s :: ss) =
            ((t == "*" || t == s) && tagsMatch ts ss) from rfl,
          Bool.and_eq_true, Bool.or_eq_true, beq_iff_eq, beq_iff_eq] at h'
        cases i with
        | zero => simpa using h'.1
        | succ j =>
          have hj : j < ts.length := by simpa using hi
          simpa using (ih ss hlen').mp h'.2 j hj
      · intro h
        rw [show tagsMatch (t :: ts) (s :: ss) =
            ((t == "*" || t == s) && tagsMatch ts ss) from rfl,
          Bool.and_eq_true, Bool.or_eq_true, beq_iff_eq, beq_iff_eq]
        constructor
        · simpa using h 0 (by simp)
        · refine (ih ss hlen').mpr fun j hj => ?_
          simpa using h (j + 1) (by simpa using hj)

theorem canMerge_some_iff (st : WaveMergeState) (tag : List String) (r : Int) :
    st.canMerge tag (some r) = true ↔ specMergeCond st tag r := by
  unfold WaveMergeState.canMerge specMergeCond
  by_cases h1 : r ≤ st._rate
  · simp [h1, not_lt.mpr h1]
  · by_cases h2 : tag.length = st._tag.length
    · simp only [h1, decide_eq_true_eq, decide_False]
      rw [if_neg (by simpa using h1)]
      rw [if_neg (by simp [h2])]
      rw [tagsMatch_iff tag st._tag h2]
      simp [h2, lt_of_not_le h1]
    · rw [if_neg (by simpa using h1)]
      rw [if_pos (by simpa using h2)]
      simp [h2]

theorem advanceWaveMerge_merge (a : WaveAppSt) (id ts : String) (r : Int)
    (h : a.waveMergeState.canMerge
      (WaveMergeState.parseTag id ts (some r)) (some r) = true) :
    a.advanceWaveMerge id ts (some r) =
      ⟨a.worldCount, 0,
        ⟨WaveMergeState.parseTag id ts (some r), a.waveMergeState._rate + 1⟩⟩ := by
  unfold WaveAppSt.advanceWaveMerge WaveMergeState.merge
  simp only [h, if_true]

theorem advanceWaveMerge_advance (a : WaveAppSt) (id ts : String) (r : Int)
    (h : a.waveMergeState.canMerge
      (WaveMergeState.parseTag id ts (some r)) (some r) = false) :
    a.advanceWaveMerge id ts (some r) =
      ⟨a.worldCount + 1, 0, ⟨WaveMergeState.parseTag id ts (some r), 1⟩⟩ := by
  unfold WaveAppSt.advanceWaveMerge WaveMergeState.merge
  simp only [h, Bool.false_eq_true, if_false]
  rfl

theorem mergeRun_const (id ts : String) (tag0 : List String)
    (hparse : ∀ x : Int, WaveMergeState.parseTag id ts (some x) = tag0) :
    ∀ (rs : List Int) (a : WaveAppSt), a.waveMergeState._tag = tag0 →
      List.Chain' (fun x y : Int => x < y) rs →
      (∀ r0, rs.head? = some r0 → a.waveMergeState._rate < r0) →
      (rs.foldl (fun s x => s.advanceWaveMerge id ts (some x)) a).worldCount =
        a.worldCount := by
  intro rs
  induction rs with
  | nil => intro a _ _ _; rfl
  | cons r rest ih =>
    intro a htag hchain hhead
    have hr : a.waveMergeState._rate < r := hhead r rfl
    have hcm : a.waveMergeState.canMerge
        (WaveMergeState.parseTag id ts (some r)) (some r) = true := by
      rw [hparse]
      unfold WaveMergeState.canMerge
      rw [if_neg (by simp [not_le.mpr hr])]
      rw [if_neg (by simp [htag])]
      rw [htag]
      exact tagsMatch_refl tag0
    have hstep := advanceWaveMerge_merge a id ts r hcm
    rw [hparse] at hstep
    show (List.foldl _ (a.advanceWaveMerge id ts (some r)) rest).worldCount = _
    rw [hstep]
    apply ih ⟨a.worldCount, 0, ⟨tag0, a.waveMergeState._rate + 1⟩⟩ rfl hchain.tail
    intro r1 hr1
    cases rest with
    | nil => simp at hr1
    | cons b l =>
      have hb : b = r1 := by simpa using hr1
      have hlt : r < r1 := hb ▸ hchain.rel_head
      show a.waveMergeState._rate + 1 < r1
      omega

/-- C3: a mutating WaveApp call with a supplied rate coalesces (leaves the
world stack unchanged) precisely when the parsed tag matches the stored tag
elementwise with `*` as wildcard and the incoming rate is strictly greater
than the stored rate, and otherwise pushes exactly one new world; and a
sequence of equal-tag calls whose integer rates are strictly increasing and
whose first rate exceeds the stored rate coalesces entirely, leaving a single
live top world. (Amends the claim: the stored rate is reset to the merge
count, not the incoming rate, so a strictly increasing rate sequence alone
does not suffice — see the counterexample.) -/
theorem waveapp_merge_C3 (a : WaveAppSt) (id ts : String) (r : Int)
    (rs : List Int) (tag0 : List String)
    (hparse : ∀ x : Int, WaveMergeState.parseTag id ts (some x) = tag0)
    (htag : a.waveMergeState._tag = tag0)
    (hchain : List.Chain' (fun x y : Int => x < y) rs)
    (hhead : ∀ r0, rs.head? = some r0 → a.waveMergeState._rate < r0) :
    ((a.advanceWaveMerge id ts (some r)).worldCount =
      if specMergeCond a.waveMergeState (WaveMergeState.parseTag id ts (some r)) r
      then a.worldCount else a.worldCount + 1) ∧
    (rs.foldl (fun s x => s.advanceWaveMerge id ts (some x)) a).worldCount =
      a.worldCount := by
  constructor
  · by_cases h : specMergeCond a.waveMergeState
        (WaveMergeState.parseTag id ts (some r)) r
    · rw [if_pos h,
        advanceWaveMerge_merge a id ts r ((canMerge_some_iff _ _ _).mpr h)]
    · have hcf : a.waveMergeState.canMerge
          (WaveMergeState.parseTag id ts (some r)) (some r) = false := by
        cases hcb : a.waveMergeState.canMerge
            (WaveMergeState.parseTag id ts (some r)) (some r) with
        | false => rfl
        | true => exact absurd ((canMerge_some_iff _ _ _).mp hcb) h
      rw [if_neg h, advanceWaveMerge_advance a id ts r hcf]
  · exact mergeRun_const id ts tag0 hparse rs a htag hchain hhead

/-- Counterexample to C3's monotonicity sentence: from the fresh WaveApp merge
state `(['*'], 0)`, two calls with the same tag `t` and strictly increasing
rates 0 then 1 both advance — the failed first merge stores rate 1, and
`1 <= 1` blocks the second — so two new worlds are pushed where the claim
promises a single live top world. -/
theorem waveapp_merge_C3_counterexample :
    List.Chain' (fun x y : Int => x < y) [0, 1] ∧
    (∀ x : Int, WaveMergeState.parseTag "i" "t" (some x) = ["t"]) ∧
    (([0, 1] : List Int).foldl
      (fun s x => WaveAppSt.advanceWaveMerge s "i" "t" (some x))
      ⟨1, 0, ⟨["*"], 0⟩⟩).worldCount = 3 :=
  ⟨by norm_num [List.chain'_cons], fun x => rfl, by decide⟩

/-- Witness for `waveapp_merge_C3`: a state with stored tag `["t"]` and stored
rate 0, one call at rate 5 (which coalesces), and a run at rates 1, 2, 3
(which all coalesce). -/
theorem waveapp_merge_C3_witness :
    ((WaveAppSt.advanceWaveMerge ⟨1, 0, ⟨["t"], 0⟩⟩ "i" "t" (some 5)).worldCount
      = 1) ∧
    ((([1, 2, 3] : List Int).foldl
      (fun s x => WaveAppSt.advanceWaveMerge s "i" "t" (some x))
      ⟨1, 0, ⟨["t"], 0⟩⟩).worldCount = 1) := by
  have h := waveapp_merge_C3 ⟨1, 0, ⟨["t"], 0⟩⟩ "i" "t" 5 [1, 2, 3] ["t"]
    (fun x => rfl) rfl (by norm_num [List.chain'_cons])
    (by
      intro r0 h0
      have h1 : (1 : Int) = r0 := by simpa using h0
      rw [← h1]
      decide)
  refine ⟨?_, h.2⟩
  rw [h.1, if_pos (by decide)]

/-! ## Stream (model.ts) -/

/- `Stream`: `_subscribers` kept as a count (subscribers are identified by
their position), `_current : T | undefined` as an `Option`. -/
structure StreamSt (β : Type) where
  subscriberCount : Nat
  _current : Option β
deriving DecidableEq

/- A fresh stream: no subscribers, `_current` undefined. -/
def StreamSt.empty {β : Type} : StreamSt β := ⟨0, none⟩

/- `push(next)`: store `next` in `_current` and invoke every subscriber with
it; the second component lists the (subscriber, value) calls made. -/
def StreamSt.push {β : Type} (s : StreamSt β) (v : β) :
    StreamSt β × List (Nat × β) :=
  (⟨s.subscriberCount, some v⟩, (List.range s.subscriberCount).map fun i => (i, v))

/- `subscribe(fn)`: append the wrapper, then invoke it at once with
`_current` when that is defined; the second component lists the values the
new subscriber is synchronously called with during `subscribe`. -/
def StreamSt.subscribe {β : Type} (s : StreamSt β) : StreamSt β × List β :=
  (⟨s.subscriberCount + 1, s._current⟩,
    match s._current with
    | some v => [v]
    | none => [])

def StreamSt.pushAll {β : Type} (s : StreamSt β) (vs : List β) : StreamSt β :=
  vs.foldl (fun t v => (t.push v).1) s

/-- C10: subscribing to a stream after at least one push synchronously invokes
the new subscriber exactly once, with the most recently pushed value; on a
fresh stream (nothing pushed) subscribe makes no immediate call. -/
theorem stream_subscribe_C10 {β : Type} (s : StreamSt β) (vs : List β) (v : β) :
    ((s.pushAll (vs ++ [v])).subscribe).2 = [v] ∧
    ((StreamSt.empty : StreamSt β).subscribe).2 = [] := by
  constructor
  · unfold StreamSt.pushAll
    rw [List.foldl_append]
    rfl
  · rfl

/-! ## World.lock and Model._writeSlot (model.ts) -/

/- Worlds are identified by naturals; `parent` is the `_parent` pointer
(`none` at a root) and `locked` the `_locked` flags. `World.lock` walks up
with `while (world && !world.locked)`, setting `_locked = true` and stopping
at the first already-locked world; the loop is embedded with fuel, which any
bound on the ancestor chain's length discharges. -/
def lockGo : Nat → (Nat → Option Nat) → (Nat → Bool) → Nat → Nat → Bool
  | 0, _, locked, _ => locked
  | fuel + 1, parent, locked, w =>
    if locked w then locked
    else
      match parent w with
      | some p => lockGo fuel parent (fun x => if x = w then true else locked x) p
      | none => fun x => if x = w then true else locked x

/- `a` is `w` itself or reachable from `w` along `_parent` pointers. -/
inductive IsAncestor (parent : Nat → Option Nat) : Nat → Nat → Prop
  | refl (w : Nat) : IsAncestor parent w w
  | step (w p a : Nat) : parent w = some p → IsAncestor parent p a →
      IsAncestor parent w a

theorem isAncestor_rank_le (parent : Nat → Option Nat) (rank : Nat → Nat)
    (hrank : ∀ x p, parent x = some p → rank p < rank x)
    {x y : Nat} (h : IsAncestor parent x y) : rank y ≤ rank x := by
  induction h with
  | refl w => exact le_refl _
  | step w p a hp _ ih => exact le_of_lt (lt_of_le_of_lt ih (hrank w p hp))

theorem lockGo_mono : ∀ (fuel : Nat) (parent : Nat → Option Nat)
    (locked : Nat → Bool) (w x : Nat), locked x = true →
    lockGo fuel parent locked w x = true := by
  intro fuel
  induction fuel with
  | zero => intro parent locked w x hx; exact hx
  | succ n ih =>
    intro parent locked w x hx
    show (if locked w then locked
      else match parent w with
        | some p => lockGo n parent (fun y => if y = w then true else locked y) p
        | none => fun y => if y = w then true else locked y) x = true
    by_cases hw : locked w
    · rw [if_pos hw]; exact hx
    · rw [if_neg hw]
      cases hp : parent w with
      | some p =>
        simp only [hp]
        exact ih parent _ p x (by by_cases hxw : x = w <;> simp [hxw, hx])
      | none =>
        simp only [hp]
        by_cases hxw : x = w <;> simp [hxw, hx]

theorem lockGo_reach : ∀ (fuel : Nat) (parent : Nat → Option Nat)
    (rank : Nat → Nat) (locked : Nat → Bool) (w : Nat),
    (∀ x p, parent x = some p → rank p < rank x) → rank w < fuel →
    ∀ a, IsAncestor parent w a →
      lockGo fuel parent locked w a = true ∨
        ∃ q, locked q = true ∧ IsAncestor parent q a ∧ IsAncestor parent w q := by
  intro fuel
  induction fuel with
  | zero => intro parent rank locked w _ hf; omega
  | succ n ih =>
    intro parent rank locked w hrank hf a ha
    by_cases hw : locked w
    · exact Or.inr ⟨w, hw, ha, IsAncestor.refl w⟩
    · cases ha with
      | refl =>
        left
        cases hp : parent w with
        | some p =>
          have hred : lockGo (n + 1) parent locked w =
              lockGo n parent (fun x => if x = w then true else locked x) p := by
            show (if locked w then locked
              else match parent w with
                | some q =>
                  lockGo n parent (fun x => if x = w then true else locked x) q
                | none => fun x => if x = w then true else locked x) = _
            rw [if_neg hw, hp]
          rw [hred]
          exact lockGo_mono n parent _ p w (by simp)
        | none =>
          have hred : lockGo (n + 1) parent locked w =
              fun x => if x = w then true else locked x := by
            show (if locked w then locked
              else match parent w with
                | some q =>
                  lockGo n parent (fun x => if x = w then true else locked x) q
                | none => fun x => if x = w then true else locked x) = _
            rw [if_neg hw, hp]
          rw [hred]
          simp
      | step w p a hp hpa =>
        have hrp : rank p < rank w := hrank w p hp
        have := ih parent rank (fun x => if x = w then true else locked x) p
          hrank (by omega) a hpa
        have hred : lockGo (n + 1) parent locked w =
            lockGo n parent (fun x => if x = w then true else locked x) p := by
          show (if locked w then locked
            else match parent w with
              | some q => lockGo n parent (fun x => if x = w then true else locked x) q
              | none => fun x => if x = w then true else locked x) = _
          rw [if_neg hw, hp]
        cases this with
        | inl h => exact Or.inl (by rw [hred]; exact h)
        | inr h =>
          obtain ⟨q, hq, hqa, hpq⟩ := h
          have hqw : q ≠ w := by
            have : rank q ≤ rank p := isAncestor_rank_le parent rank hrank hpq
            intro he
            rw [he] at this
            omega
          refine Or.inr ⟨q, ?_, hqa, IsAncestor.step w p q hp hpq⟩
          simpa [hqw] using hq

/- `Model`: `_reads` and `_writes` are JS arrays of slot values, with the
`none` token as `Option.none`; `slotCount` is `_reads.length`. -/
structure ModelSt (δ : Type) where
  _reads : List (Option δ)
  _writes : List (Option δ)
deriving DecidableEq

def ModelSt.slotCount {δ : Type} (m : ModelSt δ) : Nat := m._reads.length

inductive JsError where
  | lockedWrite
deriving DecidableEq

/- `Model._writeSlot(index, v)`: out-of-range indices return `undefined`
before anything else; then a locked world throws; only then is the slot
written (`_downcast` is the identity on non-Ref data). -/
def ModelSt.writeSlot {δ : Type} (m : ModelSt δ) (locked : Bool) (i : Nat)
    (v : δ) : Except JsError (ModelSt δ × Option δ) :=
  if m.slotCount ≤ i then Except.ok (m, Option.none)
  else if locked then Except.error JsError.lockedWrite
  else Except.ok ({ m with _writes := jsSet m._writes i (some v) }, some v)

/-- C8: under an acyclic parent chain (witnessed by a rank function) and the
invariant that the locked set is closed under ancestors, `world.lock()` leaves
that world and every ancestor locked, and `_writeSlot` on a model bound to any
of those worlds, at an in-range slot index, throws the locked-write error and
leaves the slot unchanged. (Indices at or past `slotCount` return `undefined`
before the lock check fires, hence the in-range hypothesis.) -/
theorem world_lock_C8 {δ : Type} (parent : Nat → Option Nat) (rank : Nat → Nat)
    (locked : Nat → Bool) (w fuel : Nat)
    (hrank : ∀ x p, parent x = some p → rank p < rank x)
    (hfuel : rank w < fuel)
    (hinv : ∀ x, locked x = true → ∀ b, IsAncestor parent x b → locked b = true)
    (a : Nat) (ha : IsAncestor parent w a)
    (m : ModelSt δ) (i : Nat) (v : δ) (hi : i < m._reads.length) :
    lockGo fuel parent locked w a = true ∧
    m.writeSlot (lockGo fuel parent locked w a) i v =
      Except.error JsError.lockedWrite := by
  have hlocked : lockGo fuel parent locked w a = true := by
    cases lockGo_reach fuel parent rank locked w hrank hfuel a ha with
    | inl h => exact h
    | inr h =>
      obtain ⟨q, hq, hqa, _⟩ := h
      exact lockGo_mono fuel parent locked w a (hinv q hq a hqa)
  refine ⟨hlocked, ?_⟩
  rw [hlocked]
  unfold ModelSt.writeSlot
  rw [if_neg (by simp [ModelSt.slotCount]; omega)]
  rfl

/-- Witness for `world_lock_C8`: the three-world chain 2 → 1 → 0, nothing
locked, locking world 2 and writing slot 1 of a two-slot model bound to the
root world 0. -/
theorem world_lock_C8_witness :
    lockGo 3 (fun n => match n with | 0 => Option.none | Nat.succ m => some m)
      (fun _ => false) 2 0 = true ∧
    ModelSt.writeSlot (⟨[Option.none, Option.none], [Option.none, Option.none]⟩ :
        ModelSt Nat)
      (lockGo 3 (fun n => match n with | 0 => Option.none | Nat.succ m => some m)
        (fun _ => false) 2 0) 1 5 =
      Except.error JsError.lockedWrite :=
  world_lock_C8 (fun n => match n with | 0 => Option.none | Nat.succ m => some m)
    (fun n => n) (fun _ => false) 2 3
    (by
      intro x p h
      cases x with
      | zero => exact absurd h (by simp)
      | succ m =>
        have hpm : p = m := by simpa using h.symm
        simp [hpm])
    (by decide)
    (fun x hx => absurd hx (by simp))
    0 (IsAncestor.step 2 1 0 rfl (IsAncestor.step 1 0 0 rfl (IsAncestor.refl 0)))
    ⟨[Option.none, Option.none], [Option.none, Option.none]⟩ 1 5 (by decide)

/-! ## Model.committable (model.ts) -/

/- Slot values as stored in `_reads`/`_writes` after `_downcast`: the `none`
token, primitive data, or a plain `Ref` (downcast strips bound models back to
refs). -/
inductive SVal where
  | token
  | data (d : Nat)
  | ref (id : String)
deriving DecidableEq

/- JS runtime values as `_upcast` produces them: `_upcast` turns a `Ref` into
`this._world.bind(ref)`. `bind` memoizes models per world in `_models`, so a
bound model object is identified by its (world, id) pair. -/
inductive RVal where
  | undef
  | token
  | data (d : Nat)
  | model (world : Nat) (id : String)
deriving DecidableEq

def upcast (w : Nat) : SVal → RVal
  | SVal.token => RVal.token
  | SVal.data d => RVal.data d
  | SVal.ref id => RVal.model w id

/- JS loose equality `==` on the values above: numbers compare by value,
distinct objects (tokens, bound models) are never loosely equal, and
object-to-number coercion of a `Token` or `Model` yields `NaN`, never equal
to a number. -/
def jsEq : RVal → RVal → Bool
  | RVal.undef, RVal.undef => true
  | RVal.token, RVal.token => true
  | RVal.data a, RVal.data b => a == b
  | RVal.model w1 i1, RVal.model w2 i2 => w1 == w2 && i1 == i2
  | _, _ => false

/- `my instanceof Ref`: `Model extends Ref`, so bound models pass; tokens,
numbers and `undefined` do not. -/
def isRef : RVal → Bool
  | RVal.model _ _ => true
  | _ => false

/- `Ref.equal(other)`: `this._id == Ref.id(other)`. Model ids come from
`LinearKeyStream` (`@...` strings), never loosely equal to a number, so a
non-model `other` compares unequal. -/
def refIdEq (myId : String) : RVal → Bool
  | RVal.model _ oid => myId == oid
  | _ => false

def refEqualR : RVal → RVal → Bool
  | RVal.model _ myid, other => refIdEq myid other
  | _, _ => false

/- A model as `committable` sees one: its id, the id of the world it is bound
to, and its `_reads`/`_writes` arrays (`slotCount = _reads.length`). -/
structure CModel where
  _id : String
  worldId : Nat
  _reads : List SVal
  _writes : List SVal
deriving DecidableEq

def CModel.slotCount (m : CModel) : Nat := m._reads.length

/- `getOwnSlot(index)`: out-of-range gives the token; otherwise writes win
over reads, each upcast in the model's world; both empty gives the token. -/
def CModel.getOwnSlot (m : CModel) (i : Nat) : RVal :=
  if m.slotCount ≤ i then RVal.token
  else if m._writes.getD i SVal.token ≠ SVal.token then
    upcast m.worldId (m._writes.getD i SVal.token)
  else if m._reads.getD i SVal.token ≠ SVal.token then
    upcast m.worldId (m._reads.getD i SVal.token)
  else RVal.token

/- `Model.committable()`, given `parent = this._world.parent._findOwn(this)`
(`none` both when the world has no parent and when the parent world holds no
own model, the two early-true returns): every cached read is checked against
the parent model's own slot with
`if (my instanceof Ref && !my.equal(other)) return false; if (my != other) return false`. -/
def CModel.committable (m : CModel) (parentOwn : Option CModel) : Bool :=
  match parentOwn with
  | Option.none => true
  | some par =>
    (List.range m.slotCount).all fun i =>
      let r := m._reads.getD i SVal.token
      if r = SVal.token then true
      else
        let my := upcast m.worldId r
        let other := par.getOwnSlot i
        if isRef my && !(refEqualR my other) then false
        else jsEq my other

/-- C4 (code bug): a cached ref-valued read never validates against a parent
world's own model, even when the ref ids agree as the spec requires: the id
check `my.equal(other)` passes, but the following `my != other` compares the
child-world bound model against the parent-world bound model — two distinct
objects — and fails the commit. -/
theorem model_commit_C4 (m par : CModel) (i : Nat) (hi : i < m.slotCount)
    (hmw : m.worldId ≠ par.worldId) (rid : String)
    (hr : m._reads.getD i SVal.token = SVal.ref rid)
    (hpar : par.getOwnSlot i = RVal.model par.worldId rid) :
    m.committable (some par) = false := by
  unfold CModel.committable
  rw [List.all_eq_false]
  refine ⟨i, List.mem_range.mpr hi, ?_⟩
  simp only [hr, hpar, upcast, isRef, refEqualR, refIdEq, jsEq]
  simp [hmw]

/-- Witness for `model_commit_C4`: child model `a` in world 1 cached the read
`Ref("b")` at slot 0; the parent world 0 owns model `a` with slot 0 written
as `Ref("b")` — equal ids, yet `committable` is false. -/
theorem model_commit_C4_witness :
    0 < (⟨"a", 1, [SVal.ref "b"], [SVal.token]⟩ : CModel).slotCount ∧
    (⟨"a", 1, [SVal.ref "b"], [SVal.token]⟩ : CModel)._reads.getD 0 SVal.token =
      SVal.ref "b" ∧
    (⟨"a", 0, [SVal.token], [SVal.ref "b"]⟩ : CModel).getOwnSlot 0 =
      RVal.model 0 "b" ∧
    (⟨"a", 1, [SVal.ref "b"], [SVal.token]⟩ : CModel).committable
      (some ⟨"a", 0, [SVal.token], [SVal.ref "b"]⟩) = false :=
  ⟨by decide, by decide, by decide,
    model_commit_C4 ⟨"a", 1, [SVal.ref "b"], [SVal.token]⟩
      ⟨"a", 0, [SVal.token], [SVal.ref "b"]⟩ 0 (by decide) (by decide) "b"
      (by decide) (by decide)⟩

/-! ## Binary serializer (the binarizer module): the string path -/

/- `BinaryWriter.pushVarint`: both loops emit `(number & 0xFF) | 0x80`
(= 128 + n % 128, since OR forces bit 7 over bits 0..7) and then divide the
number by 128 — `number /= 128` is an exact power-of-two float division whose
fraction the next `&` truncates, and `number >>>= 7` likewise — so both are
Nat floor division here; the final byte is `number | 0`. The loops terminate
because the number shrinks, which the fuel argument witnesses. -/
def pushVarintGo : Nat → Nat → List Nat
  | 0, n => [n]
  | fuel + 1, n =>
    if 128 ≤ n then (128 + n % 128) :: pushVarintGo fuel (n / 128)
    else [n]

def pushVarint (n : Nat) : List Nat := pushVarintGo (n + 1) n

/- `BinaryReader.readVarint` over the buffer bytes from an offset: accumulate
`(byte & 0x7F) * 2^shift` (the `<< shift` and `* Math.pow(2, shift)` branches
agree on in-range values), 7 more shift bits per byte while `byte >= 0x80`;
`shift > 49` throws (`none`), as does reading past the buffer (DataView
throws). Returns the value and the next offset. -/
def readVarintGo : Nat → List Nat → Nat → Nat → Nat → Option (Nat × Nat)
  | 0, _, _, _, _ => Option.none
  | fuel + 1, buf, off, acc, shift =>
    if 49 < shift then Option.none
    else
      match buf.get? off with
      | Option.none => Option.none
      | some byte =>
        let acc' := acc + byte % 128 * 2 ^ shift
        if 128 ≤ byte then readVarintGo fuel buf (off + 1) acc' (shift + 7)
        else some (acc', off + 1)

def readVarint (buf : List Nat) (off : Nat) : Option (Nat × Nat) :=
  readVarintGo 9 buf off 0 0

/- `BinaryWriter.pushUTF8String`'s per-character encoding: the source walks
UTF-16 code units and recombines surrogate pairs into the code point before
the four-way length split, so per unicode scalar `u` it emits standard UTF-8
(the `|` masks partition the bits, so they are sums here). -/
def utf8Bytes (u : Nat) : List Nat :=
  if u ≤ 0x7F then [u]
  else if u ≤ 0x7FF then [0xC0 + u / 64, 0x80 + u % 64]
  else if u ≤ 0xFFFF then [0xE0 + u / 4096, 0x80 + u / 64 % 64, 0x80 + u % 64]
  else [0xF0 + u / 262144, 0x80 + u / 4096 % 64, 0x80 + u / 64 % 64,
    0x80 + u % 64]

/- `pushUTF8String`: the characters' UTF-8 bytes followed by a 0 terminator. -/
def pushUTF8String (s : List Char) : List Nat :=
  (s.map fun c => utf8Bytes c.toNat).flatten ++ [0]

/- `TextDecoder().decode` on the byte slices the reader produces: standard
UTF-8 decoding, structurally recursive on fuel (the byte count). Truncated
tails, which the encoder never emits, decode to nothing. -/
def utf8DecodeGo : Nat → List Nat → List Char
  | 0, _ => []
  | _ + 1, [] => []
  | fuel + 1, b :: rest =>
    if b < 0x80 then Char.ofNat b :: utf8DecodeGo fuel rest
    else if b < 0xE0 then
      match rest with
      | b1 :: rest1 =>
        Char.ofNat ((b - 0xC0) * 64 + (b1 - 0x80)) :: utf8DecodeGo fuel rest1
      | [] => []
    else if b < 0xF0 then
      match rest with
      | b1 :: b2 :: rest2 =>
        Char.ofNat (((b - 0xE0) * 64 + (b1 - 0x80)) * 64 + (b2 - 0x80)) ::
          utf8DecodeGo fuel rest2
      | _ => []
    else
      match rest with
      | b1 :: b2 :: b3 :: rest3 =>
        Char.ofNat ((((b - 0xF0) * 64 + (b1 - 0x80)) * 64 + (b2 - 0x80)) * 64 +
          (b3 - 0x80)) :: utf8DecodeGo fuel rest3
      | _ => []

def utf8Decode (bs : List Nat) : List Char := utf8DecodeGo bs.length bs

/- `BinaryReader.readUTF8String`: scan from the offset to the first 0 byte
(or the buffer's end), decode the bytes before it, and move the offset one
past the scan position. -/
def readUTF8String (buf : List Nat) (off : Nat) : List Char × Nat :=
  let seg := (buf.drop off).takeWhile fun b => b ≠ 0
  (utf8Decode seg, off + seg.length + 1)

/- `BinaryEncoder`'s head for `n` atoms that all use one coder id: `_flag`
packs two 4-bit ids per byte (even atom low nibble, odd atom high nibble via
`coder.id << 4`), flushed per pair, with `finish` flushing a nonzero
remainder. -/
def headFlags (coderId n : Nat) : List Nat :=
  List.replicate (n / 2) (coderId + coderId * 16) ++
    (if n % 2 ≠ 0 then [coderId] else [])

/- `encode(x)` for a root list of string objects (for a bare string root the
`Indexer` queues nothing — strings are atoms — and `flatten` yields the one
entry, so `objects = [s]` and the root index is 0): each `next(s, true)` takes
`pointer = -1`, picks `Coders.STRING` (id 5), records the flag nibble and
appends `pushUTF8String`; `finish` concatenates the three meta varints
(atoms, objects, root index), the head flags, and the body. -/
def encodeStrings (objs : List (List Char)) (root : Nat) : List Nat :=
  pushVarint objs.length ++ pushVarint objs.length ++ pushVarint root ++
    headFlags 5 objs.length ++ (objs.map pushUTF8String).flatten

def encodeStringValue (s : List Char) : List Nat := encodeStrings [s] 0

/- The decoder's predecode pass over `objects` atoms whose flags must all
name `Coders.STRING` (`coderByIndex` extracts the nibble
`(flags[index/2] >> (index%2 ? 4 : 0)) & 0xF`); each object's string is
stored in `_decoded`. Coders other than STRING are outside this
development's scope (`none`). -/
def decodeStringsGo : Nat → List Nat → List Nat → Nat → Nat →
    Option (List (List Char))
  | 0, _, _, _, _ => some []
  | k + 1, buf, flags, atomIndex, off =>
    let fb := flags.getD (atomIndex / 2) 0
    let id := if atomIndex % 2 ≠ 0 then fb / 16 % 16 else fb % 16
    if id ≠ 5 then Option.none
    else
      let r := readUTF8String buf off
      match decodeStringsGo k buf flags (atomIndex + 1) r.2 with
      | some rest => some (r.1 :: rest)
      | Option.none => Option.none

/- `decode(buffer)` for buffers of string atoms: the `BinaryDecoder`
constructor reads the meta varints (atoms, objects, root) and slices
`headByteLength = atoms/2 + (atoms%2 ? 1 : 0)` flag bytes; the driver
predecodes `meta.objects` objects; `finish`'s second pass re-reads each
STRING atom from the same bytes without changing `_decoded` (`decodeNext`
does not store), and returns `_decoded[meta.root]`. -/
def decodeStringRoot (buf : List Nat) : Option (List Char) :=
  match readVarint buf 0 with
  | Option.none => Option.none
  | some m1 =>
    match readVarint buf m1.2 with
    | Option.none => Option.none
    | some m2 =>
      match readVarint buf m2.2 with
      | Option.none => Option.none
      | some m3 =>
        let atoms := m1.1
        let objects := m2.1
        let root := m3.1
        let headLen := atoms / 2 + (if atoms % 2 ≠ 0 then 1 else 0)
        let flags := (buf.drop m3.2).take headLen
        match decodeStringsGo objects buf flags 0 (m3.2 + headLen) with
        | Option.none => Option.none
        | some decoded => decoded.get? root

/-- C1 (code bug): strings are written null-terminated
(`pushUTF8String` appends a 0 byte) but `readUTF8String` stops at the first
0 byte it meets, so a string containing U+0000 does not survive the round
trip: encoding the one-character string made of U+0000 and decoding the
buffer yields the empty string, not the original. -/
theorem serializer_roundtrip_C1 :
    decodeStringRoot (encodeStringValue [Char.ofNat 0]) = some [] ∧
    ([Char.ofNat 0] : List Char) ≠ [] := by
  exact ⟨by decide, by decide⟩

/-! ## The Vector iterator (immutable.ts `[Symbol.iterator]`) -/

/- The iterator's machine state: the explicit `stack` of
`[VectorNode[], number]` pairs (the JS array's end — the push/pop side — is
the HEAD of this list) and the current `node` array. -/
def MState (α : Type _) :=
  List (List (Option (VN α)) × Nat) × List (Option (VN α))

/- The carry's inner pop loop: `let step = stack.pop(); while (step[1] ===
nodeSize - 1) step = stack.pop();` — pop entries while their position is 31,
returning the first kept entry and the remaining stack; popping an empty
stack would crash (`none`). -/
def popLoop {α : Type _} : List (List (Option (VN α)) × Nat) →
    Option ((List (Option (VN α)) × Nat) × List (List (Option (VN α)) × Nat))
  | [] => Option.none
  | (a, d) :: rest => if d = 31 then popLoop rest else some ((a, d), rest)

/- The descent loop `for (let shift = stack.length * nodeBits; shift <
this.shift; shift += nodeBits) { stack.push([node, 0]); node = node[0]; }`,
run for its iteration count; a missing or non-array child crashes (`none`). -/
def descendGo {α : Type _} : Nat → List (List (Option (VN α)) × Nat) →
    List (Option (VN α)) → Option (MState α)
  | 0, stk, node => some (stk, node)
  | k + 1, stk, node =>
    match node.getD 0 Option.none with
    | some (VN.arr child) => descendGo k ((node, 0) :: stk) child
    | _ => Option.none

/- One body of the iterator's `while (i < this.length - 1)` loop, producing
element `i`: the source tests `i > 0 && (i & bitmask) === nodeSize - 1` on
the value before its `i++`, which for the incremented value `i` reads
`1 < i ∧ (i - 1) % 32 = 31`; on carry it pops, bumps the kept entry, moves
`node` to `step[0][step[1]]`, and the descent loop then completes the path;
finally it yields `node[i & bitmask]`. -/
def iterNext {α : Type _} (shift i : Nat) (st : MState α) :
    Option (Option α × MState α) :=
  let step1 : Option (MState α) :=
    if 1 < i ∧ (i - 1) % 32 = 31 then
      match popLoop st.1 with
      | some sd =>
        match sd.1.1.getD (sd.1.2 + 1) Option.none with
        | some (VN.arr child) => some ((sd.1.1, sd.1.2 + 1) :: sd.2, child)
        | _ => Option.none
      | Option.none => Option.none
    else some st
  match step1 with
  | Option.none => Option.none
  | some st1 =>
    match descendGo (shift / 5 - st1.1.length) st1.1 st1.2 with
    | Option.none => Option.none
    | some st2 =>
      some ((match st2.2.getD (i % 32) Option.none with
        | some (VN.val a) => some a
        | _ => Option.none), st2)

/- Run the loop `count` times from index `i`, collecting the yields. -/
def vecIterGo {α : Type _} (shift : Nat) :
    Nat → Nat → MState α → Option (List (Option α))
  | 0, _, _ => some []
  | k + 1, i, st =>
    match iterNext shift i st with
    | Option.none => Option.none
    | some r =>
      match vecIterGo shift k (i + 1) r.2 with
      | some rest => some (r.1 :: rest)
      | Option.none => Option.none

/- `Vector[Symbol.iterator]`: start with an empty stack and `node = root`,
`i = -1`, and yield once per index below `length`. -/
def Vector.iter {α : Type _} (v : Vector α) : Option (List (Option α)) :=
  vecIterGo v.shift v.length 0 ([], v.root)

/-! ### Dense vectors and iterator correctness -/

/- The canonical machine state for index `i`: descend `k` levels from an
array at height `h`, following the digit `i / 32^height % 32` at each node;
the stack holds, deepest entry first, each visited array with its digit, and
the second component is the array reached. -/
def walkPath {α : Type _} : Nat → Nat → List (Option (VN α)) → Nat →
    Option (MState α)
  | 0, _, arr, _ => some ([], arr)
  | k + 1, h, arr, i =>
    match arr.getD (i / 32 ^ h % 32) Option.none with
    | some (VN.arr child) =>
      match walkPath k (h - 1) child i with
      | some st => some (st.1 ++ [(arr, i / 32 ^ h % 32)], st.2)
      | Option.none => Option.none
    | _ => Option.none

/- A dense subtree: at level 0 a full prefix of values; at level `lv + 1` a
list of `.arr` children, all full (`32 ^ (lv + 1)` values) except a last
partial one.  This is the shape `Vector.append`-built vectors have. -/
def denseChildren {α : Type _} (f : Nat → List (Option (VN α)) → Bool)
    (cap : Nat) : Nat → List (Option (VN α)) → Bool
  | _, [] => false
  | n, x :: l' =>
    match x with
    | some (VN.arr c) =>
      if n ≤ cap then l'.isEmpty && f n c
      else f cap c && denseChildren f cap (n - cap) l'
    | _ => false

def denseArr {α : Type _} : Nat → Nat → List (Option (VN α)) → Bool
  | 0, n, l =>
    decide (0 < n) && decide (n ≤ 32) && decide (l.length = n) &&
      l.all fun x =>
        match x with
        | some (VN.val _) => true
        | _ => false
  | lv + 1, n, l => decide (0 < n) && denseChildren (denseArr lv) (32 ^ (lv + 1)) n l

/- A dense vector: empty, or a dense trie of the vector's shift and length
(shifts are multiples of 5). -/
def Vector.dense {α : Type _} (v : Vector α) : Bool :=
  (decide (v.length = 0) && v.root.isEmpty && decide (v.shift = 0)) ||
    (decide (v.shift % 5 = 0) && decide (v.length ≤ 32 * 2 ^ v.shift) &&
      denseArr (v.shift / 5) v.length v.root)

theorem jsGet_eq_getD {χ : Type _} (l : List (Option χ)) (i : Nat) :
    jsGet l i = l.getD i Option.none := by
  unfold jsGet List.getD
  cases l.get? i with
  | none => rfl
  | some x => cases x <;> rfl

theorem walkPath_length {α : Type _} :
    ∀ (k h : Nat) (arr : List (Option (VN α))) (i : Nat) (st : MState α),
      walkPath k h arr i = some st → st.1.length = k := by
  intro k
  induction k with
  | zero =>
    intro h arr i st hw
    cases hw
    rfl
  | succ m ih =>
    intro h arr i st hw
    unfold walkPath at hw
    cases hg : arr.getD (i / 32 ^ h % 32) Option.none with
    | none => rw [hg] at hw; exact absurd hw (by simp)
    | some child =>
      cases child with
      | val a => rw [hg] at hw; exact absurd hw (by simp)
      | arr c =>
        rw [hg] at hw
        replace hw : (match walkPath m (h - 1) c i with
          | some st => some (st.1 ++ [(arr, i / 32 ^ h % 32)], st.2)
          | Option.none => (Option.none : Option (MState α))) = some st := hw
        cases hw2 : walkPath m (h - 1) c i with
        | none => rw [hw2] at hw; exact absurd hw (by simp)
        | some st' =>
          rw [hw2] at hw
          cases hw
          have := ih (h - 1) c i st' hw2
          simp [this]

theorem walkPath_congr {α : Type _} :
    ∀ (k h : Nat) (arr : List (Option (VN α))) (i i' : Nat),
      (∀ g, h + 1 ≤ g + k → g ≤ h → i / 32 ^ g % 32 = i' / 32 ^ g % 32) →
      walkPath k h arr i = walkPath k h arr i' := by
  intro k
  induction k with
  | zero => intro h arr i i' _; rfl
  | succ m ih =>
    intro h arr i i' hdig
    unfold walkPath
    have htop : i / 32 ^ h % 32 = i' / 32 ^ h % 32 := hdig h (by omega) le_rfl
    rw [htop]
    cases arr.getD (i' / 32 ^ h % 32) Option.none with
    | none => rfl
    | some child =>
      cases child with
      | val a => rfl
      | arr c =>
        have hrec : walkPath m (h - 1) c i = walkPath m (h - 1) c i' := by
          apply ih
          intro g hg1 hg2
          exact hdig g (by omega) (by omega)
        change (match walkPath m (h - 1) c i with
            | some st => some (st.1 ++ [(arr, i' / 32 ^ h % 32)], st.2)
            | Option.none => (Option.none : Option (MState α))) =
          (match walkPath m (h - 1) c i' with
            | some st => some (st.1 ++ [(arr, i' / 32 ^ h % 32)], st.2)
            | Option.none => (Option.none : Option (MState α)))
        rw [hrec]

theorem walkPath_split {α : Type _} :
    ∀ (k1 k2 h : Nat) (arr : List (Option (VN α))) (i : Nat),
      walkPath (k1 + k2) h arr i =
        match walkPath k1 h arr i with
        | some st1 =>
          (match walkPath k2 (h - k1) st1.2 i with
            | some st2 => some (st2.1 ++ st1.1, st2.2)
            | Option.none => Option.none)
        | Option.none => Option.none := by
  intro k1
  induction k1 with
  | zero =>
    intro k2 h arr i
    rw [Nat.zero_add]
    show walkPath k2 h arr i =
      (match walkPath k2 h arr i with
        | some st2 => some (st2.1 ++ [], st2.2)
        | Option.none => (Option.none : Option (MState α)))
    cases hw : walkPath k2 h arr i with
    | none => rfl
    | some st => simp
  | succ m ih =>
    intro k2 h arr i
    have he : m + 1 + k2 = m + k2 + 1 := by omega
    rw [he]
    cases hg : arr.getD (i / 32 ^ h % 32) Option.none with
    | none =>
      show (match arr.getD (i / 32 ^ h % 32) Option.none with
        | some (VN.arr child) =>
          (match walkPath (m + k2) (h - 1) child i with
            | some st => some (st.1 ++ [(arr, i / 32 ^ h % 32)], st.2)
            | Option.none => (Option.none : Option (MState α)))
        | _ => Option.none) = _
      rw [hg]
      show (Option.none : Option (MState α)) =
        (match walkPath (m + 1) h arr i with
          | some st1 =>
            (match walkPath k2 (h - (m + 1)) st1.2 i with
              | some st2 => some (st2.1 ++ st1.1, st2.2)
              | Option.none => (Option.none : Option (MState α)))
          | Option.none => Option.none)
      have hnone : walkPath (m + 1) h arr i = Option.none := by
        unfold walkPath
        rw [hg]
      rw [hnone]
    | some child =>
      cases child with
      | val a =>
        show (match arr.getD (i / 32 ^ h % 32) Option.none with
          | some (VN.arr child) =>
            (match walkPath (m + k2) (h - 1) child i with
              | some st => some (st.1 ++ [(arr, i / 32 ^ h % 32)], st.2)
              | Option.none => (Option.none : Option (MState α)))
          | _ => Option.none) = _
        rw [hg]
        show (Option.none : Option (MState α)) =
          (match walkPath (m + 1) h arr i with
            | some st1 =>
              (match walkPath k2 (h - (m + 1)) st1.2 i with
                | some st2 => some (st2.1 ++ st1.1, st2.2)
                | Option.none => (Option.none : Option (MState α)))
            | Option.none => Option.none)
        have hnone : walkPath (m + 1) h arr i = Option.none := by
          unfold walkPath
          rw [hg]
        rw [hnone]
      | arr c =>
        have hlhs : walkPath (m + k2 + 1) h arr i =
            (match walkPath (m + k2) (h - 1) c i with
              | some st => some (st.1 ++ [(arr, i / 32 ^ h % 32)], st.2)
              | Option.none => (Option.none : Option (MState α))) := by
          show (match arr.getD (i / 32 ^ h % 32) Option.none with
            | some (VN.arr child) =>
              (match walkPath (m + k2) (h - 1) child i with
                | some st => some (st.1 ++ [(arr, i / 32 ^ h % 32)], st.2)
                | Option.none => (Option.none : Option (MState α)))
            | _ => Option.none) = _
          rw [hg]
          rfl
        have hrhs : walkPath (m + 1) h arr i =
            (match walkPath m (h - 1) c i with
              | some st => some (st.1 ++ [(arr, i / 32 ^ h % 32)], st.2)
              | Option.none => (Option.none : Option (MState α))) := by
          show (match arr.getD (i / 32 ^ h % 32) Option.none with
            | some (VN.arr child) =>
              (match walkPath m (h - 1) child i with
                | some st => some (st.1 ++ [(arr, i / 32 ^ h % 32)], st.2)
                | Option.none => (Option.none : Option (MState α)))
            | _ => Option.none) = _
          rw [hg]
          rfl
        rw [hlhs, hrhs, ih k2 (h - 1) c i]
        have hsub : h - 1 - m = h - (m + 1) := by omega
        rw [hsub]
        cases hw1 : walkPath m (h - 1) c i with
        | none => rfl
        | some st1 =>
          change (match (match walkPath k2 (h - (m + 1)) st1.2 i with
              | some st2 => some (st2.1 ++ st1.1, st2.2)
              | Option.none => (Option.none : Option (MState α))) with
            | some st => some (st.1 ++ [(arr, i / 32 ^ h % 32)], st.2)
            | Option.none => (Option.none : Option (MState α))) =
            (match walkPath k2 (h - (m + 1)) st1.2 i with
              | some st2 =>
                some (st2.1 ++ (st1.1 ++ [(arr, i / 32 ^ h % 32)]), st2.2)
              | Option.none => (Option.none : Option (MState α)))
          cases hw2 : walkPath k2 (h - (m + 1)) st1.2 i with
          | none => rfl
          | some st2 => simp

theorem walkPath_snd_mem {α : Type _} :
    ∀ (k h : Nat) (arr : List (Option (VN α))) (i : Nat) (st : MState α),
      walkPath k h arr i = some st →
      ∀ e ∈ st.1, ∃ g, h + 1 ≤ g + k ∧ g ≤ h ∧ e.2 = i / 32 ^ g % 32 := by
  intro k
  induction k with
  | zero =>
    intro h arr i st hw
    cases hw
    intro e he
    exact absurd he (by simp)
  | succ m ih =>
    intro h arr i st hw
    unfold walkPath at hw
    cases hg : arr.getD (i / 32 ^ h % 32) Option.none with
    | none => rw [hg] at hw; exact absurd hw (by simp)
    | some child =>
      cases child with
      | val a => rw [hg] at hw; exact absurd hw (by simp)
      | arr c =>
        rw [hg] at hw
        replace hw : (match walkPath m (h - 1) c i with
          | some st => some (st.1 ++ [(arr, i / 32 ^ h % 32)], st.2)
          | Option.none => (Option.none : Option (MState α))) = some st := hw
        cases hw2 : walkPath m (h - 1) c i with
        | none => rw [hw2] at hw; exact absurd hw (by simp)
        | some st' =>
          rw [hw2] at hw
          cases hw
          intro e he
          rcases List.mem_append.mp he with he1 | he2
          · obtain ⟨g, hg1, hg2, hg3⟩ := ih (h - 1) c i st' hw2 e he1
            exact ⟨g, by omega, by omega, hg3⟩
          · have he3 : e = (arr, i / 32 ^ h % 32) := by simpa using he2
            exact ⟨h, by omega, le_rfl, by rw [he3]⟩

theorem popLoop_append {α : Type _} :
    ∀ (front : List (List (Option (VN α)) × Nat))
      (a : List (Option (VN α))) (d : Nat)
      (rest : List (List (Option (VN α)) × Nat)),
      (∀ e ∈ front, e.2 = 31) → d ≠ 31 →
      popLoop (front ++ (a, d) :: rest) = some ((a, d), rest) := by
  intro front
  induction front with
  | nil =>
    intro a d rest _ hd
    show popLoop ((a, d) :: rest) = _
    unfold popLoop
    rw [if_neg hd]
  | cons e front' ih =>
    intro a d rest hall hd
    show popLoop (e :: (front' ++ (a, d) :: rest)) = _
    obtain ⟨ea, ed⟩ := e
    have : ed = 31 := hall (ea, ed) (by simp)
    unfold popLoop
    rw [if_pos this]
    exact ih a d rest (fun x hx => hall x (by simp [hx])) hd

theorem descendGo_walkPath {α : Type _} :
    ∀ (m : Nat) (node : List (Option (VN α))) (i : Nat) (st : MState α),
      (∀ g, 1 ≤ g → g ≤ m → i / 32 ^ g % 32 = 0) →
      walkPath m m node i = some st →
      ∀ stk, descendGo m stk node = some (st.1 ++ stk, st.2) := by
  intro m
  induction m with
  | zero =>
    intro node i st _ hw stk
    cases hw
    rfl
  | succ k ih =>
    intro node i st hz hw stk
    unfold walkPath at hw
    have hzk : i / 32 ^ (k + 1) % 32 = 0 := hz (k + 1) (by omega) le_rfl
    rw [hzk] at hw
    cases hg : node.getD 0 Option.none with
    | none => rw [hg] at hw; exact absurd hw (by simp)
    | some child =>
      cases child with
      | val a => rw [hg] at hw; exact absurd hw (by simp)
      | arr c =>
        rw [hg] at hw
        replace hw : (match walkPath k (k + 1 - 1) c i with
          | some st => some (st.1 ++ [(node, 0)], st.2)
          | Option.none => (Option.none : Option (MState α))) = some st := hw
        cases hw2 : walkPath k (k + 1 - 1) c i with
        | none => rw [hw2] at hw; exact absurd hw (by simp)
        | some st' =>
          rw [hw2] at hw
          cases hw
          show descendGo (k + 1) stk node = _
          unfold descendGo
          rw [hg]
          have hw2' : walkPath k k c i = some st' := by
            simpa using hw2
          have hrec := ih c i st' (fun g h1 h2 => hz g h1 (by omega)) hw2'
            ((node, 0) :: stk)
          change descendGo k ((node, 0) :: stk) c = _
          rw [hrec]
          simp

theorem walkPath_vnGet {α : Type _} :
    ∀ (lv : Nat) (arr : List (Option (VN α))) (i : Nat) (st : MState α),
      walkPath lv lv arr i = some st →
      vnGetLv lv (VN.arr arr) (5 * lv) i =
        (match st.2.getD (i % 32) Option.none with
          | some (VN.val a) => some a
          | _ => Option.none) := by
  intro lv
  induction lv with
  | zero =>
    intro arr i st hw
    cases hw
    show (match jsGet arr (i % 32) with
      | some (VN.val a) => some a
      | _ => Option.none) = _
    rw [jsGet_eq_getD]
  | succ k ih =>
    intro arr i st hw
    unfold walkPath at hw
    cases hg : arr.getD (i / 32 ^ (k + 1) % 32) Option.none with
    | none => rw [hg] at hw; exact absurd hw (by simp)
    | some child =>
      cases child with
      | val a => rw [hg] at hw; exact absurd hw (by simp)
      | arr c =>
        rw [hg] at hw
        replace hw : (match walkPath k (k + 1 - 1) c i with
          | some st => some (st.1 ++ [(arr, i / 32 ^ (k + 1) % 32)], st.2)
          | Option.none => (Option.none : Option (MState α))) = some st := hw
        cases hw2 : walkPath k (k + 1 - 1) c i with
        | none => rw [hw2] at hw; exact absurd hw (by simp)
        | some st' =>
          rw [hw2] at hw
          cases hw
          show (match jsGet arr (i / 2 ^ (5 * (k + 1)) % 32) with
            | some child => vnGetLv k child (5 * (k + 1) - 5) i
            | Option.none => Option.none) = _
          have hpow : (2 : Nat) ^ (5 * (k + 1)) = 32 ^ (k + 1) := by
            rw [pow_mul]
            norm_num
          rw [jsGet_eq_getD, hpow, hg]
          have hsh : 5 * (k + 1) - 5 = 5 * k := by omega
          rw [hsh]
          have hw2' : walkPath k k c i = some st' := by simpa using hw2
          exact ih c i st' hw2'

theorem denseChildren_getD {α : Type _} (cap : Nat)
    (f : Nat → List (Option (VN α)) → Bool) :
    ∀ (l : List (Option (VN α))) (n j : Nat),
      denseChildren f cap n l = true → j * cap < n → 0 < cap →
      ∃ c, l.getD j Option.none = some (VN.arr c) ∧
        f (min cap (n - j * cap)) c = true := by
  intro l
  induction l with
  | nil =>
    intro n j hd
    exact absurd hd (by simp [denseChildren])
  | cons x l' ih =>
    intro n j hd hj hcap
    unfold denseChildren at hd
    cases x with
    | none => exact absurd hd (by simp)
    | some v =>
      cases v with
      | val a => exact absurd hd (by simp)
      | arr c0 =>
        replace hd : (if n ≤ cap then l'.isEmpty && f n c0
            else f cap c0 && denseChildren f cap (n - cap) l') = true := hd
        by_cases hn : n ≤ cap
        · rw [if_pos hn] at hd
          rw [Bool.and_eq_true] at hd
          have hj0 : j = 0 := by
            by_contra hne
            have : 1 ≤ j := Nat.one_le_iff_ne_zero.mpr hne
            have : cap ≤ j * cap := by
              calc cap = 1 * cap := (one_mul cap).symm
              _ ≤ j * cap := Nat.mul_le_mul_right cap this
            omega
          subst hj0
          refine ⟨c0, by simp, ?_⟩
          have hmin : min cap (n - 0 * cap) = n := by
            rw [Nat.zero_mul]
            omega
          rw [hmin]
          exact hd.2
        · rw [if_neg hn] at hd
          rw [Bool.and_eq_true] at hd
          cases j with
          | zero =>
            refine ⟨c0, by simp, ?_⟩
            have hmin : min cap (n - 0 * cap) = cap := by
              rw [Nat.zero_mul]
              omega
            rw [hmin]
            exact hd.1
          | succ m =>
            have hm : m * cap < n - cap := by
              have : (m + 1) * cap = m * cap + cap := by ring
              omega
            obtain ⟨c, hc1, hc2⟩ := ih (n - cap) m hd.2 hm hcap
            refine ⟨c, by simpa using hc1, ?_⟩
            have : n - cap - m * cap = n - (m + 1) * cap := by
              have : (m + 1) * cap = m * cap + cap := by ring
              omega
            rw [this] at hc2
            exact hc2

theorem denseArr_walkPath {α : Type _} :
    ∀ (lv : Nat) (n : Nat) (arr : List (Option (VN α))) (i : Nat),
      denseArr lv n arr = true → i % 32 ^ (lv + 1) < n →
      ∃ st : MState α, walkPath lv lv arr i = some st ∧
        ∃ a, st.2.getD (i % 32) Option.none = some (VN.val a) := by
  intro lv
  induction lv with
  | zero =>
    intro n arr i hd hi
    unfold denseArr at hd
    simp only [Bool.and_eq_true, decide_eq_true_eq] at hd
    obtain ⟨⟨⟨hn0, hn32⟩, hlen⟩, hall⟩ := hd
    refine ⟨([], arr), rfl, ?_⟩
    have hi' : i % 32 < arr.length := by
      rw [hlen]
      simpa using hi
    have hget : arr.get? (i % 32) = some (arr.get ⟨i % 32, hi'⟩) :=
      List.get?_eq_get hi'
    have hmem : arr.get ⟨i % 32, hi'⟩ ∈ arr := List.get_mem arr _ hi'
    have hp := List.all_eq_true.mp hall _ hmem
    cases he : arr.get ⟨i % 32, hi'⟩ with
    | none => rw [he] at hp; exact absurd hp (by simp)
    | some v =>
      cases v with
      | arr c => rw [he] at hp; exact absurd hp (by simp)
      | val a =>
        refine ⟨a, ?_⟩
        show arr.getD (i % 32) Option.none = some (VN.val a)
        unfold List.getD
        rw [hget, he]
        rfl
  | succ lv ih =>
    intro n arr i hd hi
    unfold denseArr at hd
    rw [Bool.and_eq_true] at hd
    obtain ⟨hn0, hdc⟩ := hd
    set cap := 32 ^ (lv + 1) with hcap
    set m := i % 32 ^ (lv + 2) with hm
    have hcap0 : 0 < cap := Nat.pos_pow_of_pos _ (by norm_num)
    have hsplit : (32 : Nat) ^ (lv + 2) = cap * 32 := by
      rw [hcap, pow_succ]
    have hD : i / cap % 32 = m / cap := by
      rw [hm, hsplit, Nat.mod_mul_right_div_self]
    have hmodc : i % cap = m % cap := by
      rw [hm, hsplit]
      exact (Nat.mod_mod_of_dvd i ⟨32, rfl⟩).symm
    have hDcap : (m / cap) * cap ≤ m := Nat.div_mul_le_self m cap
    have hjlt : (m / cap) * cap < n := lt_of_le_of_lt hDcap hi
    obtain ⟨c, hc1, hc2⟩ := denseChildren_getD cap (denseArr lv) arr n (m / cap)
      hdc hjlt hcap0
    have hrec : i % 32 ^ (lv + 1) < min cap (n - (m / cap) * cap) := by
      rw [← hcap, hmodc]
      rcases le_or_lt cap (n - (m / cap) * cap) with hge | hlt
      · rw [min_eq_left hge]
        exact Nat.mod_lt _ hcap0
      · rw [min_eq_right (le_of_lt hlt)]
        have h1 := Nat.div_add_mod m cap
        have h2 : cap * (m / cap) = (m / cap) * cap := Nat.mul_comm _ _
        omega
    obtain ⟨st, hst1, hst2⟩ := ih (min cap (n - (m / cap) * cap)) c i hc2 hrec
    have hst1' : walkPath lv (lv + 1 - 1) c i = some st := by simpa using hst1
    refine ⟨(st.1 ++ [(arr, i / 32 ^ (lv + 1) % 32)], st.2), ?_, hst2⟩
    have hgoal : walkPath (lv + 1) (lv + 1) arr i =
        (match walkPath lv (lv + 1 - 1) c i with
          | some st' => some (st'.1 ++ [(arr, i / 32 ^ (lv + 1) % 32)], st'.2)
          | Option.none => (Option.none : Option (MState α))) := by
      show (match arr.getD (i / 32 ^ (lv + 1) % 32) Option.none with
        | some (VN.arr child) =>
          (match walkPath lv (lv + 1 - 1) child i with
            | some st' => some (st'.1 ++ [(arr, i / 32 ^ (lv + 1) % 32)], st'.2)
            | Option.none => (Option.none : Option (MState α)))
        | _ => Option.none) = _
      have hc1' : arr.getD (i / 32 ^ (lv + 1) % 32) Option.none =
          some (VN.arr c) := by
        show arr.getD (i / cap % 32) Option.none = some (VN.arr c)
        rw [hD]
        exact hc1
      rw [hc1']
      rfl
    rw [hgoal, hst1']

theorem succ_div_mod_of_lt (q C : Nat) (hC : 0 < C) (h : q % C < C - 1) :
    (q + 1) / C = q / C ∧ (q + 1) % C = q % C + 1 := by
  have hdm := Nat.div_add_mod q C
  have hq1 : q + 1 = (q % C + 1) + (q / C) * C := by
    have : C * (q / C) = (q / C) * C := Nat.mul_comm _ _
    omega
  constructor
  · rw [hq1, Nat.add_mul_div_right _ _ hC, Nat.div_eq_of_lt (by omega)]
    omega
  · rw [hq1, Nat.add_mul_mod_self_right, Nat.mod_eq_of_lt (by omega)]

theorem succ_div_mod_of_max (q C : Nat) (hC : 0 < C) (h : q % C = C - 1) :
    (q + 1) / C = q / C + 1 ∧ (q + 1) % C = 0 := by
  have hdm := Nat.div_add_mod q C
  have hq1 : q + 1 = (q / C + 1) * C := by
    have : C * (q / C) = (q / C) * C := Nat.mul_comm _ _
    have : (q / C + 1) * C = (q / C) * C + C := by ring
    omega
  constructor
  · rw [hq1, Nat.mul_div_cancel _ hC]
  · rw [hq1, Nat.mul_mod_left]

theorem pow32_pred_mod (s : Nat) (hs : 1 ≤ s) : (32 ^ s - 1) % 32 = 31 := by
  have h1 : (32 : Nat) ^ s = 32 * 32 ^ (s - 1) := by
    calc (32 : Nat) ^ s = 32 ^ (1 + (s - 1)) := by congr 1; omega
    _ = 32 * 32 ^ (s - 1) := by rw [pow_add, pow_one]
  have h2 : 0 < (32 : Nat) ^ (s - 1) := Nat.pos_pow_of_pos _ (by norm_num)
  have h3 : (32 ^ s - 1) = 31 + 32 * (32 ^ (s - 1) - 1) := by
    rw [h1]
    omega
  rw [h3, Nat.add_mul_mod_self_left]

theorem mod_pow32_lt_of_digit_ne (x s : Nat) (hs : 1 ≤ s)
    (h : x % 32 ≠ 31) : x % 32 ^ s < 32 ^ s - 1 := by
  have hdvd : (32 : Nat) ∣ 32 ^ s := dvd_pow_self 32 (by omega)
  have h1 : x % 32 ^ s % 32 = x % 32 := Nat.mod_mod_of_dvd x hdvd
  have h2 : 0 < (32 : Nat) ^ s := Nat.pos_pow_of_pos _ (by norm_num)
  have h3 : x % 32 ^ s < 32 ^ s := Nat.mod_lt _ h2
  rcases Nat.lt_or_ge (x % 32 ^ s) (32 ^ s - 1) with hlt | hge
  · exact hlt
  · exfalso
    have : x % 32 ^ s = 32 ^ s - 1 := by omega
    rw [this, pow32_pred_mod s hs] at h1
    exact h (h1.symm)

/- `a % (b * c)` decomposed into the low part and the next digit group. -/
theorem mod_mul_decomp (a b c : Nat) (hb : 0 < b) (hc : 0 < c) :
    a % (b * c) = a % b + b * (a / b % c) := by
  exact Nat.mod_mul

theorem trailing31_mod (i : Nat) :
    ∀ t : Nat, (∀ g, g < t → i / 32 ^ g % 32 = 31) → i % 32 ^ t = 32 ^ t - 1 := by
  intro t
  induction t with
  | zero => intro _; simp [Nat.mod_one]
  | succ s ih =>
    intro hall
    have h1 : i % 32 ^ s = 32 ^ s - 1 := ih fun g hg => hall g (by omega)
    have h2 : i / 32 ^ s % 32 = 31 := hall s (by omega)
    have hsplit : (32 : Nat) ^ (s + 1) = 32 ^ s * 32 := pow_succ 32 s
    have h3 : i % 32 ^ (s + 1) = i % 32 ^ s + 32 ^ s * (i / 32 ^ s % 32) := by
      rw [hsplit]
      exact mod_mul_decomp i (32 ^ s) 32 (Nat.pos_pow_of_pos _ (by norm_num))
        (by norm_num)
    have h4 : 0 < (32 : Nat) ^ s := Nat.pos_pow_of_pos _ (by norm_num)
    rw [h3, h1, h2, hsplit]
    omega

theorem walkPath_one {α : Type _} (h : Nat) (arr : List (Option (VN α)))
    (i : Nat) (st : MState α) (hw : walkPath 1 h arr i = some st) :
    ∃ b, arr.getD (i / 32 ^ h % 32) Option.none = some (VN.arr b) ∧
      st = ([(arr, i / 32 ^ h % 32)], b) := by
  unfold walkPath at hw
  cases hg : arr.getD (i / 32 ^ h % 32) Option.none with
  | none => rw [hg] at hw; exact absurd hw (by simp)
  | some v =>
    cases v with
    | val a => rw [hg] at hw; exact absurd hw (by simp)
    | arr b =>
      rw [hg] at hw
      replace hw : (match walkPath 0 (h - 1) b i with
        | some st => some (st.1 ++ [(arr, i / 32 ^ h % 32)], st.2)
        | Option.none => (Option.none : Option (MState α))) = some st := hw
      replace hw : some (([] ++ [(arr, i / 32 ^ h % 32)], b) : MState α) =
        some st := hw
      refine ⟨b, rfl, ?_⟩
      cases hw
      simp

theorem iterNext_no_carry {α : Type _} (shift i : Nat) (st : MState α)
    (h : ¬(1 < i ∧ (i - 1) % 32 = 31)) :
    iterNext shift i st =
      (match descendGo (shift / 5 - st.1.length) st.1 st.2 with
        | Option.none => Option.none
        | some st2 =>
          some ((match st2.2.getD (i % 32) Option.none with
            | some (VN.val a) => some a
            | _ => Option.none), st2)) := by
  unfold iterNext
  simp only [if_neg h]

theorem iterNext_carry {α : Type _} (shift i : Nat) (st : MState α)
    (h : 1 < i ∧ (i - 1) % 32 = 31)
    (a : List (Option (VN α))) (d : Nat)
    (rest : List (List (Option (VN α)) × Nat))
    (hpop : popLoop st.1 = some ((a, d), rest))
    (child : List (Option (VN α)))
    (hchild : a.getD (d + 1) Option.none = some (VN.arr child)) :
    iterNext shift i st =
      (match descendGo (shift / 5 - ((a, d + 1) :: rest).length)
          ((a, d + 1) :: rest) child with
        | Option.none => Option.none
        | some st2 =>
          some ((match st2.2.getD (i % 32) Option.none with
            | some (VN.val a) => some a
            | _ => Option.none), st2)) := by
  unfold iterNext
  simp only [if_pos h, hpop, hchild]

theorem walkPath_split_extract {α : Type _} (k1 k2 h : Nat)
    (arr : List (Option (VN α))) (i : Nat) (st : MState α)
    (hw : walkPath (k1 + k2) h arr i = some st) :
    ∃ st1 st2 : MState α, walkPath k1 h arr i = some st1 ∧
      walkPath k2 (h - k1) st1.2 i = some st2 ∧
      st = (st2.1 ++ st1.1, st2.2) := by
  rw [walkPath_split k1 k2 h arr i] at hw
  cases h1 : walkPath k1 h arr i with
  | none => rw [h1] at hw; exact absurd hw (by simp)
  | some st1 =>
    rw [h1] at hw
    replace hw : (match walkPath k2 (h - k1) st1.2 i with
      | some st2 => some (st2.1 ++ st1.1, st2.2)
      | Option.none => (Option.none : Option (MState α))) = some st := hw
    cases h2 : walkPath k2 (h - k1) st1.2 i with
    | none => rw [h2] at hw; exact absurd hw (by simp)
    | some st2 =>
      rw [h2] at hw
      exact ⟨st1, st2, rfl, h2, (Option.some.inj hw).symm⟩

/- The simulation step: from the canonical machine state for index `i`, one
loop body for index `i + 1` yields that element and moves to the canonical
state for `i + 1`.  The carry pops exactly the trailing-31 digits (the loop's
pop chain), bumps the first smaller digit, and the descent loop rebuilds the
zero-digit path below it. -/
theorem iterNext_canonical {α : Type _} (L n : Nat)
    (root : List (Option (VN α))) (hn : n ≤ 32 ^ (L + 1)) (i : Nat)
    (hi : i + 1 < n) (sti stj : MState α)
    (hwi : walkPath L L root i = some sti)
    (hwj : walkPath L L root (i + 1) = some stj) :
    iterNext (5 * L) (i + 1) sti =
      some ((match stj.2.getD ((i + 1) % 32) Option.none with
        | some (VN.val a) => some a
        | _ => Option.none), stj) := by
  have hL5 : 5 * L / 5 = L := Nat.mul_div_cancel_left L (by norm_num)
  have hleni : sti.1.length = L := walkPath_length L L root i sti hwi
  have hdivdiv : ∀ (x s g : Nat), s ≤ g →
      x / 32 ^ g = x / 32 ^ s / 32 ^ (g - s) := by
    intro x s g hsg
    rw [Nat.div_div_eq_div_mul, ← pow_add]
    congr 2
    omega
  by_cases hc : (i + 1) % 32 = 0
  · -- carry step
    have h31 : i % 32 = 31 := by omega
    have hexL : ∃ g, g ≤ L ∧ i / 32 ^ g % 32 ≠ 31 := by
      by_contra hno
      push_neg at hno
      have hall : ∀ g, g < L + 1 → i / 32 ^ g % 32 = 31 := fun g hg =>
        hno g (by omega)
      have hmod := trailing31_mod i (L + 1) hall
      have hlt : i < 32 ^ (L + 1) := by omega
      rw [Nat.mod_eq_of_lt hlt] at hmod
      omega
    obtain ⟨g0, hg0L, hg0P⟩ := hexL
    have hex : ∃ g, i / 32 ^ g % 32 ≠ 31 := ⟨g0, hg0P⟩
    set t := Nat.find hex with ht
    have hPt : i / 32 ^ t % 32 ≠ 31 := Nat.find_spec hex
    have hmin : ∀ g, g < t → i / 32 ^ g % 32 = 31 := fun g hg =>
      not_not.mp (Nat.find_min hex hg)
    have htL : t ≤ L := le_trans (Nat.find_min' hex hg0P) hg0L
    have ht1 : 1 ≤ t := by
      by_contra h0
      push_neg at h0
      apply hPt
      have ht0 : t = 0 := by omega
      rw [ht0]
      simpa using h31
    have hcap : 0 < (32 : Nat) ^ t := Nat.pos_pow_of_pos _ (by norm_num)
    have hmodt : i % 32 ^ t = 32 ^ t - 1 := trailing31_mod i t hmin
    have hjd := succ_div_mod_of_max i (32 ^ t) hcap hmodt
    have hdig_lt : ∀ g, 1 ≤ g → g < t → (i + 1) / 32 ^ g % 32 = 0 := by
      intro g _ hgt
      obtain ⟨K, hK⟩ := Nat.dvd_of_mod_eq_zero hjd.2
      have hsplit : (32 : Nat) ^ t = 32 ^ g * 32 ^ (t - g) := by
        rw [← pow_add]
        congr 1
        omega
      have hquot : (i + 1) / 32 ^ g = 32 ^ (t - g) * K := by
        rw [hK, hsplit, Nat.mul_assoc,
          Nat.mul_div_cancel_left _ (Nat.pos_pow_of_pos _ (by norm_num))]
      rw [hquot]
      have h32 : (32 : Nat) ^ (t - g) = 32 * 32 ^ (t - g - 1) := by
        conv_lhs => rw [show t - g = 1 + (t - g - 1) by omega]
        rw [pow_add, pow_one]
      rw [h32, Nat.mul_assoc, Nat.mul_mod_right]
    have hdig_t : (i + 1) / 32 ^ t % 32 = i / 32 ^ t % 32 + 1 := by
      have hq : i / 32 ^ t % 32 < 31 := by
        have := Nat.mod_lt (i / 32 ^ t) (show 0 < 32 by norm_num)
        omega
      rw [hjd.1]
      exact (succ_div_mod_of_lt (i / 32 ^ t) 32 (by norm_num) (by omega)).2
    have hdig_gt : ∀ g, t < g → (i + 1) / 32 ^ g = i / 32 ^ g := by
      intro g hgt
      rw [hdivdiv (i + 1) t g (le_of_lt hgt), hdivdiv i t g (le_of_lt hgt),
        hjd.1]
      have hlt1 : i / 32 ^ t % 32 ^ (g - t) < 32 ^ (g - t) - 1 :=
        mod_pow32_lt_of_digit_ne (i / 32 ^ t) (g - t) (by omega) hPt
      exact (succ_div_mod_of_lt (i / 32 ^ t) (32 ^ (g - t))
        (Nat.pos_pow_of_pos _ (by norm_num)) hlt1).1
    have hLsum : (L - t) + t = L := by omega
    have hwi' : walkPath ((L - t) + t) L root i = some sti := by
      rw [hLsum]
      exact hwi
    obtain ⟨stH, stLow, hhigh_i, hlow_i, hsti⟩ :=
      walkPath_split_extract (L - t) t L root i sti hwi'
    have hLmk : L - (L - t) = t := by omega
    rw [hLmk] at hlow_i
    have hwj' : walkPath ((L - t) + t) L root (i + 1) = some stj := by
      rw [hLsum]
      exact hwj
    obtain ⟨stH', stLowJ, hhigh_j, hlow_j, hstj⟩ :=
      walkPath_split_extract (L - t) t L root (i + 1) stj hwj'
    rw [hLmk] at hlow_j
    have hcongr_high : walkPath (L - t) L root (i + 1) =
        walkPath (L - t) L root i := by
      apply walkPath_congr
      intro g hg1 _
      have hgt : t < g := by omega
      rw [hdig_gt g hgt]
    have hHH : stH' = stH := by
      rw [hcongr_high, hhigh_i] at hhigh_j
      exact (Option.some.inj hhigh_j).symm
    subst hHH
    have htsum : 1 + (t - 1) = t := by omega
    have hlow_i' : walkPath (1 + (t - 1)) t stH'.2 i = some stLow := by
      rw [htsum]
      exact hlow_i
    obtain ⟨stOne, stFront, hone_i, hfront_i, hstLow⟩ :=
      walkPath_split_extract 1 (t - 1) t stH'.2 i stLow hlow_i'
    obtain ⟨Bi, hBi, hOneEq⟩ := walkPath_one t stH'.2 i stOne hone_i
    have hlow_j' : walkPath (1 + (t - 1)) t stH'.2 (i + 1) = some stLowJ := by
      rw [htsum]
      exact hlow_j
    obtain ⟨stOneJ, stFrontJ, hone_j, hfront_j, hstLowJ⟩ :=
      walkPath_split_extract 1 (t - 1) t stH'.2 (i + 1) stLowJ hlow_j'
    obtain ⟨Bj, hBj, hOneJEq⟩ := walkPath_one t stH'.2 (i + 1) stOneJ hone_j
    have hfront31 : ∀ e ∈ stFront.1, e.2 = 31 := by
      intro e he
      obtain ⟨g, hg1, hg2, hg3⟩ :=
        walkPath_snd_mem (t - 1) (t - 1) stOne.2 i stFront hfront_i e he
      have hgt : g < t := by omega
      rw [hg3]
      exact hmin g hgt
    have hstack : sti.1 =
        stFront.1 ++ ((stH'.2, i / 32 ^ t % 32) :: stH'.1) := by
      rw [hsti, hstLow, hOneEq]
      simp
    have hpop : popLoop sti.1 =
        some ((stH'.2, i / 32 ^ t % 32), stH'.1) := by
      rw [hstack]
      exact popLoop_append stFront.1 stH'.2 (i / 32 ^ t % 32) stH'.1
        hfront31 hPt
    have hchild : stH'.2.getD (i / 32 ^ t % 32 + 1) Option.none =
        some (VN.arr Bj) := by
      rw [← hdig_t]
      exact hBj
    have hcond : 1 < i + 1 ∧ (i + 1 - 1) % 32 = 31 := by
      constructor
      · omega
      · simpa using h31
    rw [iterNext_carry (5 * L) (i + 1) sti hcond stH'.2 (i / 32 ^ t % 32)
      stH'.1 hpop Bj hchild]
    have hlenH : stH'.1.length = L - t :=
      walkPath_length (L - t) L root i stH' hhigh_i
    have hcount : 5 * L / 5 -
        ((stH'.2, i / 32 ^ t % 32 + 1) :: stH'.1).length = t - 1 := by
      rw [hL5, List.length_cons, hlenH]
      omega
    rw [hcount]
    have hfront_j' : walkPath (t - 1) (t - 1) Bj (i + 1) = some stFrontJ := by
      rw [hOneJEq] at hfront_j
      exact hfront_j
    have hdescend := descendGo_walkPath (t - 1) Bj (i + 1) stFrontJ
      (fun g hga hgb => hdig_lt g hga (by omega)) hfront_j'
      ((stH'.2, i / 32 ^ t % 32 + 1) :: stH'.1)
    rw [hdescend]
    have hstjEq : ((stFrontJ.1 ++ (stH'.2, i / 32 ^ t % 32 + 1) :: stH'.1,
        stFrontJ.2) : MState α) = stj := by
      rw [hstj, hstLowJ, hOneJEq, hdig_t]
      simp
    rw [← hstjEq]
  · -- no carry: the stack is unchanged
    have h31 : i % 32 ≠ 31 := by omega
    have hdiv : (i + 1) / 32 = i / 32 :=
      (succ_div_mod_of_lt i 32 (by norm_num) (by
        have := Nat.mod_lt i (show 0 < 32 by norm_num)
        omega)).1
    have hdig : ∀ g, 1 ≤ g → (i + 1) / 32 ^ g = i / 32 ^ g := by
      intro g hg
      rw [hdivdiv (i + 1) 1 g hg, hdivdiv i 1 g hg, pow_one, hdiv]
    have hcong : walkPath L L root (i + 1) = walkPath L L root i :=
      walkPath_congr L L root (i + 1) i fun g hg1 _ => by
        rw [hdig g (by omega)]
    have hij : stj = sti := by
      rw [hcong, hwi] at hwj
      exact (Option.some.inj hwj).symm
    rw [iterNext_no_carry (5 * L) (i + 1) sti (by
      intro hcc
      exact h31 (by simpa using hcc.2))]
    rw [hL5, hleni, Nat.sub_self, hij]
    rfl

theorem vecIterGo_run {α : Type _} (L n : Nat) (root : List (Option (VN α)))
    (hd : denseArr L n root = true) (hn : n ≤ 32 ^ (L + 1)) :
    ∀ (k j : Nat) (st : MState α), j + k < n →
      walkPath L L root j = some st →
      vecIterGo (5 * L) k (j + 1) st =
        some ((List.range' (j + 1) k).map fun g =>
          vnGetLv L (VN.arr root) (5 * L) g) := by
  intro k
  induction k with
  | zero => intro j st _ _; rfl
  | succ m ih =>
    intro j st hjk hwj
    have hj1 : (j + 1) % 32 ^ (L + 1) < n := by
      rw [Nat.mod_eq_of_lt (by omega)]
      omega
    obtain ⟨stj, hwj1, _, _⟩ := denseArr_walkPath L n root (j + 1) hd hj1
    have hstep := iterNext_canonical L n root hn j (by omega) st stj hwj hwj1
    show (match iterNext (5 * L) (j + 1) st with
      | Option.none => Option.none
      | some r =>
        match vecIterGo (5 * L) m (j + 1 + 1) r.2 with
        | some rest => some (r.1 :: rest)
        | Option.none => Option.none) = _
    rw [hstep]
    have hrec := ih (j + 1) stj (by omega) hwj1
    change (match vecIterGo (5 * L) m (j + 1 + 1) stj with
      | some rest =>
        some ((match stj.2.getD ((j + 1) % 32) Option.none with
          | some (VN.val a) => some a
          | _ => Option.none) :: rest)
      | Option.none => Option.none) = _
    rw [hrec]
    have hval : (match stj.2.getD ((j + 1) % 32) Option.none with
        | some (VN.val a) => some a
        | _ => Option.none) = vnGetLv L (VN.arr root) (5 * L) (j + 1) :=
      (walkPath_vnGet L root (j + 1) stj hwj1).symm
    rw [hval]
    rfl

/-- The iterator of a dense vector enumerates exactly
`get 0, …, get (length - 1)`. -/
theorem vector_iter_dense {α : Type _} (v : Vector α) (hd : v.dense = true) :
    v.iter = some ((List.range v.length).map fun idx => v.get idx) := by
  unfold Vector.dense at hd
  rw [Bool.or_eq_true] at hd
  cases hd with
  | inl hempty =>
    simp only [Bool.and_eq_true, decide_eq_true_eq, List.isEmpty_iff]
      at hempty
    obtain ⟨⟨hlen, _⟩, _⟩ := hempty
    unfold Vector.iter
    rw [hlen]
    rfl
  | inr hdense =>
    simp only [Bool.and_eq_true, decide_eq_true_eq] at hdense
    obtain ⟨⟨hmod, hcap⟩, hda⟩ := hdense
    set L := v.shift / 5 with hL
    have hshift : v.shift = 5 * L := by
      have := Nat.div_add_mod v.shift 5
      omega
    have hn32 : v.length ≤ 32 ^ (L + 1) := by
      have h1 : (2 : Nat) ^ v.shift = 32 ^ L := by
        rw [hshift, pow_mul]
        norm_num
      have h2 : (32 : Nat) ^ (L + 1) = 32 ^ L * 32 := pow_succ 32 L
      calc v.length ≤ 32 * 2 ^ v.shift := hcap
      _ = 32 ^ (L + 1) := by rw [h1, h2]; ring
    have hn0 : 0 < v.length := by
      have hda' := hda
      cases L0 : L with
      | zero =>
        rw [L0] at hda'
        unfold denseArr at hda'
        simp only [Bool.and_eq_true, decide_eq_true_eq] at hda'
        omega
      | succ m =>
        rw [L0] at hda'
        unfold denseArr at hda'
        simp only [Bool.and_eq_true, decide_eq_true_eq] at hda'
        exact hda'.1
    have hL5 : 5 * L / 5 = L := Nat.mul_div_cancel_left L (by norm_num)
    obtain ⟨st0, hw0, _⟩ := denseArr_walkPath L v.length v.root 0
      hda (by rw [Nat.zero_mod]; exact hn0)
    have hfirst : iterNext (5 * L) 0 ([], v.root) =
        some ((match st0.2.getD (0 % 32) Option.none with
          | some (VN.val a) => some a
          | _ => Option.none), st0) := by
      rw [iterNext_no_carry (5 * L) 0 ([], v.root) (by omega)]
      have hz : ∀ g, 1 ≤ g → g ≤ L → (0 : Nat) / 32 ^ g % 32 = 0 := by
        intro g _ _
        rw [Nat.zero_div, Nat.zero_mod]
      have hdesc := descendGo_walkPath L v.root 0 st0 hz hw0 []
      show (match descendGo (5 * L / 5)
          ([] : List (List (Option (VN α)) × Nat)) v.root with
        | Option.none => Option.none
        | some st2 =>
          some ((match st2.2.getD (0 % 32) Option.none with
            | some (VN.val a) => some a
            | _ => Option.none), st2)) = _
      rw [hL5, hdesc]
      simp
    have hgetEq : ∀ g, g < v.length →
        v.get g = vnGetLv L (VN.arr v.root) (5 * L) g := by
      intro g hg
      unfold Vector.get vnGet
      rw [if_pos hg, hshift, hL5]
    have hrun := vecIterGo_run L v.length v.root hda hn32 (v.length - 1) 0 st0
      (by omega) hw0
    unfold Vector.iter
    rw [hshift]
    have hn' : v.length = (v.length - 1) + 1 := by omega
    rw [hn']
    show (match iterNext (5 * L) 0 ([], v.root) with
      | Option.none => Option.none
      | some r =>
        match vecIterGo (5 * L) (v.length - 1) 1 r.2 with
        | some rest => some (r.1 :: rest)
        | Option.none => Option.none) = _
    rw [hfirst]
    show (match vecIterGo (5 * L) (v.length - 1) 1 st0 with
      | some rest =>
        some ((match st0.2.getD (0 % 32) Option.none with
          | some (VN.val a) => some a
          | _ => Option.none) :: rest)
      | Option.none => Option.none) = _
    rw [show (1 : Nat) = 0 + 1 from rfl, hrun]
    have hval0 : (match st0.2.getD (0 % 32) Option.none with
        | some (VN.val a) => some a
        | _ => Option.none) = vnGetLv L (VN.arr v.root) (5 * L) 0 :=
      (walkPath_vnGet L v.root 0 st0 hw0).symm
    rw [hval0]
    have hrange : List.range ((v.length - 1) + 1) =
        0 :: List.range' 1 (v.length - 1) := by
      rw [List.range_eq_range']
      rfl
    rw [hrange, List.map_cons, ← hgetEq 0 hn0]
    have hmap : (List.range' (0 + 1) (v.length - 1)).map
        (fun g => vnGetLv L (VN.arr v.root) (5 * L) g) =
        (List.range' 1 (v.length - 1)).map fun idx => v.get idx := by
      apply List.map_congr_left
      intro g hg
      have hmem := List.mem_range'_1.mp hg
      exact (hgetEq g (by omega)).symm
    rw [hmap]

/-! ### Density is preserved by the vector's set and append paths -/

theorem jsSet_length_of_lt {χ : Type _} :
    ∀ (l : List (Option χ)) (i : Nat) (x : Option χ), i < l.length →
      (jsSet l i x).length = l.length := by
  intro l
  induction l with
  | nil => intro i x hi; simp at hi
  | cons h t ih =>
    intro i x hi
    cases i with
    | zero => rfl
    | succ j =>
      show (h :: jsSet t j x).length = (h :: t).length
      simp only [List.length_cons]
      rw [ih j x (by simpa using hi)]

theorem jsSet_at_length {χ : Type _} :
    ∀ (l : List (Option χ)) (x : Option χ), jsSet l l.length x = l ++ [x] := by
  intro l
  induction l with
  | nil => intro x; rfl
  | cons h t ih =>
    intro x
    show h :: jsSet t t.length x = h :: (t ++ [x])
    rw [ih x]

theorem jsGet_ge {χ : Type _} :
    ∀ (l : List (Option χ)) (i : Nat), l.length ≤ i → jsGet l i = none := by
  intro l
  induction l with
  | nil => intro i _; exact jsGet_nil i
  | cons h t ih =>
    intro i hi
    cases i with
    | zero => simp at hi
    | succ j =>
      rw [jsGet_cons_succ]
      exact ih j (by simpa using hi)

theorem jsSet_mem_of_lt {χ : Type _} :
    ∀ (l : List (Option χ)) (i : Nat) (x e : Option χ), i < l.length →
      e ∈ jsSet l i x → e = x ∨ e ∈ l := by
  intro l
  induction l with
  | nil => intro i x e hi; simp at hi
  | cons h t ih =>
    intro i x e hi hmem
    cases i with
    | zero =>
      have hmem' : e ∈ x :: t := hmem
      rcases List.mem_cons.mp hmem' with h1 | h1
      · exact Or.inl h1
      · exact Or.inr (by simp [h1])
    | succ j =>
      have hmem' : e ∈ h :: jsSet t j x := hmem
      rcases List.mem_cons.mp hmem' with h1 | h1
      · exact Or.inr (by simp [h1])
      · rcases ih j x e (by simpa using hi) h1 with h2 | h2
        · exact Or.inl h2
        · exact Or.inr (by simp [h2])

theorem sub_div_mod_self (a b : Nat) (hb : 0 < b) (hba : b ≤ a) :
    (a - b) / b = a / b - 1 ∧ (a - b) % b = a % b := by
  have hdm := Nat.div_add_mod a b
  have hq1 : 1 ≤ a / b := by
    by_contra h0
    push_neg at h0
    interval_cases h : a / b
    · have := Nat.mod_lt a hb
      omega
  have hsub : a - b = a % b + (a / b - 1) * b := by
    have h1 : (a / b - 1) * b + b = (a / b) * b := by
      have : a / b - 1 + 1 = a / b := by omega
      calc (a / b - 1) * b + b = (a / b - 1 + 1) * b := by ring
      _ = (a / b) * b := by rw [this]
    have h2 : b * (a / b) = (a / b) * b := Nat.mul_comm _ _
    omega
  constructor
  · rw [hsub, Nat.add_mul_div_right _ _ hb,
      Nat.div_eq_of_lt (Nat.mod_lt a hb)]
    omega
  · rw [hsub, Nat.add_mul_mod_self_right]
    exact Nat.mod_eq_of_lt (Nat.mod_lt a hb)

theorem denseChildren_length {α : Type _} (cap : Nat)
    (f : Nat → List (Option (VN α)) → Bool) (hcap : 0 < cap) :
    ∀ (l : List (Option (VN α))) (n : Nat), denseChildren f cap n l = true →
      l.length = (n - 1) / cap + 1 := by
  intro l
  induction l with
  | nil => intro n hd; exact absurd hd (by simp [denseChildren])
  | cons x l' ih =>
    intro n hd
    unfold denseChildren at hd
    cases x with
    | none => exact absurd hd (by simp)
    | some v =>
      cases v with
      | val a => exact absurd hd (by simp)
      | arr c0 =>
        replace hd : (if n ≤ cap then l'.isEmpty && f n c0
            else f cap c0 && denseChildren f cap (n - cap) l') = true := hd
        by_cases hn : n ≤ cap
        · rw [if_pos hn, Bool.and_eq_true, List.isEmpty_iff] at hd
          rw [hd.1]
          have : (n - 1) / cap = 0 := Nat.div_eq_of_lt (by omega)
          simp [this]
        · rw [if_neg hn, Bool.and_eq_true] at hd
          have hrec := ih (n - cap) hd.2
          have hsdm := sub_div_mod_self n cap hcap (by omega)
          have h1 : (n - cap - 1) / cap = (n - 1) / cap - 1 := by
            have h2 := sub_div_mod_self (n - 1) cap hcap (by omega)
            have : n - cap - 1 = n - 1 - cap := by omega
            rw [this]
            exact h2.1
          have h3 : 1 ≤ (n - 1) / cap := by
            have : cap ≤ n - 1 := by omega
            exact Nat.le_div_iff_mul_le hcap |>.mpr (by omega)
          simp only [List.length_cons, hrec, h1]
          omega

theorem denseChildren_jsSet {α : Type _} (cap : Nat)
    (f : Nat → List (Option (VN α)) → Bool) (hcap : 0 < cap) :
    ∀ (l : List (Option (VN α))) (n j : Nat)
      (c' : List (Option (VN α))),
      denseChildren f cap n l = true → j * cap < n →
      f (min cap (n - j * cap)) c' = true →
      denseChildren f cap n (jsSet l j (some (VN.arr c'))) = true := by
  intro l
  induction l with
  | nil => intro n j c' hd; exact absurd hd (by simp [denseChildren])
  | cons x l' ih =>
    intro n j c' hd hj hc'
    unfold denseChildren at hd
    cases x with
    | none => exact absurd hd (by simp)
    | some v =>
      cases v with
      | val a => exact absurd hd (by simp)
      | arr c0 =>
        replace hd : (if n ≤ cap then l'.isEmpty && f n c0
            else f cap c0 && denseChildren f cap (n - cap) l') = true := hd
        by_cases hn : n ≤ cap
        · rw [if_pos hn, Bool.and_eq_true] at hd
          have hj0 : j = 0 := by
            by_contra hne
            have h1 : 1 ≤ j := Nat.one_le_iff_ne_zero.mpr hne
            have : cap ≤ j * cap := by
              calc cap = 1 * cap := (one_mul cap).symm
              _ ≤ j * cap := Nat.mul_le_mul_right cap h1
            omega
          subst hj0
          show (if n ≤ cap then l'.isEmpty && f n c'
            else f cap c' && denseChildren f cap (n - cap) l') = true
          rw [if_pos hn, Bool.and_eq_true]
          refine ⟨hd.1, ?_⟩
          have : min cap (n - 0 * cap) = n := by
            rw [Nat.zero_mul]
            omega
          rw [this] at hc'
          exact hc'
        · rw [if_neg hn, Bool.and_eq_true] at hd
          cases j with
          | zero =>
            show (if n ≤ cap then l'.isEmpty && f n c'
              else f cap c' && denseChildren f cap (n - cap) l') = true
            rw [if_neg hn, Bool.and_eq_true]
            refine ⟨?_, hd.2⟩
            have : min cap (n - 0 * cap) = cap := by
              rw [Nat.zero_mul]
              omega
            rw [this] at hc'
            exact hc'
          | succ m =>
            show (if n ≤ cap then
                (jsSet l' m (some (VN.arr c'))).isEmpty && f n c0
              else f cap c0 && denseChildren f cap (n - cap)
                (jsSet l' m (some (VN.arr c')))) = true
            rw [if_neg hn, Bool.and_eq_true]
            refine ⟨hd.1, ?_⟩
            apply ih (n - cap) m c' hd.2
            · have : (m + 1) * cap = m * cap + cap := by ring
              omega
            · have : n - cap - m * cap = n - (m + 1) * cap := by
                have : (m + 1) * cap = m * cap + cap := by ring
                omega
              rw [this]
              exact hc'

theorem denseChildren_append {α : Type _} (cap : Nat)
    (f : Nat → List (Option (VN α)) → Bool) (hcap : 0 < cap) :
    ∀ (l : List (Option (VN α))) (n : Nat) (c' : List (Option (VN α))),
      denseChildren f cap n l = true → n % cap = 0 → 0 < n →
      f 1 c' = true →
      denseChildren f cap (n + 1) (l ++ [some (VN.arr c')]) = true := by
  intro l
  induction l with
  | nil => intro n c' hd; exact absurd hd (by simp [denseChildren])
  | cons x l' ih =>
    intro n c' hd hmod hn0 hc'
    unfold denseChildren at hd
    cases x with
    | none => exact absurd hd (by simp)
    | some v =>
      cases v with
      | val a => exact absurd hd (by simp)
      | arr c0 =>
        replace hd : (if n ≤ cap then l'.isEmpty && f n c0
            else f cap c0 && denseChildren f cap (n - cap) l') = true := hd
        by_cases hn : n ≤ cap
        · rw [if_pos hn, Bool.and_eq_true, List.isEmpty_iff] at hd
          have hncap : n = cap := by
            rcases Nat.lt_or_ge n cap with h1 | h1
            · exfalso
              have := Nat.mod_eq_of_lt h1
              omega
            · omega
          rw [hd.1]
          show (if n + 1 ≤ cap then
              ([some (VN.arr c')] : List (Option (VN α))).isEmpty && f (n + 1) c0
            else f cap c0 && denseChildren f cap (n + 1 - cap)
              [some (VN.arr c')]) = true
          rw [if_neg (by omega), Bool.and_eq_true]
          subst hncap
          refine ⟨hd.2, ?_⟩
          show (if n + 1 - n ≤ n then
              ([] : List (Option (VN α))).isEmpty && f (n + 1 - n) c'
            else f n c' && denseChildren f n (n + 1 - n - n) []) = true
          have h1 : n + 1 - n = 1 := by omega
          rw [h1, if_pos (by omega), Bool.and_eq_true]
          exact ⟨by simp, hc'⟩
        · rw [if_neg hn, Bool.and_eq_true] at hd
          show (if n + 1 ≤ cap then
              (l' ++ [some (VN.arr c')]).isEmpty && f (n + 1) c0
            else f cap c0 && denseChildren f cap (n + 1 - cap)
              (l' ++ [some (VN.arr c')])) = true
          rw [if_neg (by omega), Bool.and_eq_true]
          refine ⟨hd.1, ?_⟩
          have hsub : n + 1 - cap = (n - cap) + 1 := by omega
          rw [hsub]
          apply ih (n - cap) c' hd.2
          · exact (sub_div_mod_self n cap hcap (by omega)).2.symm ▸ hmod
          · have : cap ∣ n := Nat.dvd_of_mod_eq_zero hmod
            rcases this with ⟨k, hk⟩
            have hk2 : 2 ≤ k := by
              by_contra hlt
              push_neg at hlt
              interval_cases k <;> omega
            have : 2 * cap ≤ n := by
              calc 2 * cap ≤ k * cap := Nat.mul_le_mul_right cap hk2
              _ = n := by rw [hk]; ring
            omega
          · exact hc'

theorem denseChildren_grow_last {α : Type _} (cap : Nat)
    (f : Nat → List (Option (VN α)) → Bool) (hcap : 0 < cap) :
    ∀ (l : List (Option (VN α))) (n : Nat) (c' : List (Option (VN α))),
      denseChildren f cap n l = true → n % cap ≠ 0 → n < cap * 32 →
      f (n % cap + 1) c' = true →
      denseChildren f cap (n + 1) (jsSet l (n / cap) (some (VN.arr c'))) =
        true := by
  intro l
  induction l with
  | nil => intro n c' hd; exact absurd hd (by simp [denseChildren])
  | cons x l' ih =>
    intro n c' hd hmod hlt hc'
    unfold denseChildren at hd
    cases x with
    | none => exact absurd hd (by simp)
    | some v =>
      cases v with
      | val a => exact absurd hd (by simp)
      | arr c0 =>
        replace hd : (if n ≤ cap then l'.isEmpty && f n c0
            else f cap c0 && denseChildren f cap (n - cap) l') = true := hd
        by_cases hn : n ≤ cap
        · rw [if_pos hn, Bool.and_eq_true, List.isEmpty_iff] at hd
          have hncap : n < cap := by
            rcases Nat.lt_or_ge n cap with h1 | h1
            · exact h1
            · exfalso
              have : n = cap := by omega
              rw [this] at hmod
              simp at hmod
          have hdiv : n / cap = 0 := Nat.div_eq_of_lt hncap
          rw [hdiv]
          show (if n + 1 ≤ cap then l'.isEmpty && f (n + 1) c'
            else f cap c' && denseChildren f cap (n + 1 - cap) l') = true
          rw [if_pos (by omega), Bool.and_eq_true]
          rw [hd.1]
          refine ⟨by simp, ?_⟩
          rw [Nat.mod_eq_of_lt hncap] at hc'
          exact hc'
        · rw [if_neg hn, Bool.and_eq_true] at hd
          have hdiv1 : 1 ≤ n / cap := by
            exact Nat.le_div_iff_mul_le hcap |>.mpr (by omega)
          have hdiveq : n / cap = (n - cap) / cap + 1 := by
            have := sub_div_mod_self n cap hcap (by omega)
            omega
          rw [hdiveq]
          show (if n + 1 ≤ cap then
              (jsSet l' ((n - cap) / cap) (some (VN.arr c'))).isEmpty &&
                f (n + 1) c0
            else f cap c0 && denseChildren f cap (n + 1 - cap)
              (jsSet l' ((n - cap) / cap) (some (VN.arr c')))) = true
          rw [if_neg (by omega), Bool.and_eq_true]
          refine ⟨hd.1, ?_⟩
          have hsub : n + 1 - cap = (n - cap) + 1 := by omega
          rw [hsub]
          have hmods := (sub_div_mod_self n cap hcap (by omega)).2
          apply ih (n - cap) c' hd.2
          · rw [hmods]
            exact hmod
          · omega
          · rw [hmods]
            exact hc'

theorem denseArr_growChain {α : Type _} :
    ∀ (lv : Nat) (x : α), denseArr lv 1 (growChain lv (some x)) = true := by
  intro lv
  induction lv with
  | zero => intro x; rfl
  | succ m ih =>
    intro x
    show (decide (0 < 1) &&
      denseChildren (denseArr m) (32 ^ (m + 1)) 1
        [some (VN.arr (growChain m (some x)))]) = true
    rw [Bool.and_eq_true]
    refine ⟨by simp, ?_⟩
    show (if 1 ≤ 32 ^ (m + 1) then
        ([] : List (Option (VN α))).isEmpty && denseArr m 1 (growChain m (some x))
      else denseArr m (32 ^ (m + 1)) (growChain m (some x)) &&
        denseChildren (denseArr m) (32 ^ (m + 1)) (1 - 32 ^ (m + 1)) []) = true
    rw [if_pos (Nat.one_le_pow _ _ (by norm_num)), Bool.and_eq_true]
    exact ⟨by simp, ih x⟩

theorem denseArr_set {α : Type _} :
    ∀ (lv n : Nat) (arr : List (Option (VN α))) (i : Nat) (x : α),
      denseArr lv n arr = true → i % 32 ^ (lv + 1) < n →
      denseArr lv n (vnSetLv lv arr (5 * lv) i (some x)) = true := by
  intro lv
  induction lv with
  | zero =>
    intro n arr i x hd hi
    unfold denseArr at hd ⊢
    simp only [Bool.and_eq_true, decide_eq_true_eq] at hd ⊢
    obtain ⟨⟨⟨hn0, hn32⟩, hlen⟩, hall⟩ := hd
    have hi' : i % 32 < arr.length := by
      rw [hlen]
      simpa using hi
    show ((0 < n ∧ n ≤ 32) ∧ (jsSet arr (i % 32) (some (VN.val x))).length = n) ∧
      (jsSet arr (i % 32) (some (VN.val x))).all _ = true
    refine ⟨⟨⟨hn0, hn32⟩, ?_⟩, ?_⟩
    · rw [jsSet_length_of_lt _ _ _ hi']
      exact hlen
    · rw [List.all_eq_true]
      intro e he
      rcases jsSet_mem_of_lt arr (i % 32) (some (VN.val x)) e hi' he with h1 | h1
      · rw [h1]
      · exact List.all_eq_true.mp hall e h1
  | succ lv ih =>
    intro n arr i x hd hi
    unfold denseArr at hd
    rw [Bool.and_eq_true] at hd
    obtain ⟨hn0, hdc⟩ := hd
    set cap := 32 ^ (lv + 1) with hcap
    set m := i % 32 ^ (lv + 2) with hm
    have hcap0 : 0 < cap := Nat.pos_pow_of_pos _ (by norm_num)
    have hsplit : (32 : Nat) ^ (lv + 2) = cap * 32 := by
      rw [hcap, pow_succ]
    have hD : i / cap % 32 = m / cap := by
      rw [hm, hsplit, Nat.mod_mul_right_div_self]
    have hmodc : i % cap = m % cap := by
      rw [hm, hsplit]
      exact (Nat.mod_mod_of_dvd i ⟨32, rfl⟩).symm
    have hDcap : (m / cap) * cap ≤ m := Nat.div_mul_le_self m cap
    have hjlt : (m / cap) * cap < n := lt_of_le_of_lt hDcap hi
    obtain ⟨c, hc1, hc2⟩ := denseChildren_getD cap (denseArr lv) arr n
      (m / cap) hdc hjlt hcap0
    have hrec : i % 32 ^ (lv + 1) < min cap (n - (m / cap) * cap) := by
      rw [← hcap, hmodc]
      rcases le_or_lt cap (n - (m / cap) * cap) with hge | hlt
      · rw [min_eq_left hge]
        exact Nat.mod_lt _ hcap0
      · rw [min_eq_right (le_of_lt hlt)]
        have h1 := Nat.div_add_mod m cap
        have h2 : cap * (m / cap) = (m / cap) * cap := Nat.mul_comm _ _
        omega
    have hnew := ih (min cap (n - (m / cap) * cap)) c i x hc2 hrec
    have hpow : (2 : Nat) ^ (5 * (lv + 1)) = cap := by
      rw [hcap, pow_mul]
      norm_num
    have hD2 : i / 2 ^ (5 * (lv + 1)) % 32 = m / cap := by
      rw [hpow]
      exact hD
    have hgoal : vnSetLv (lv + 1) arr (5 * (lv + 1)) i (some x) =
        jsSet arr (m / cap)
          (some (VN.arr (vnSetLv lv c (5 * lv) i (some x)))) := by
      show jsSet arr (i / 2 ^ (5 * (lv + 1)) % 32)
        (some (VN.arr (vnSetLv lv
          (match jsGet arr (i / 2 ^ (5 * (lv + 1)) % 32) with
            | some (VN.arr cl) => cl
            | some (VN.val _) => []
            | Option.none => [])
          (5 * (lv + 1) - 5) i (some x)))) = _
      rw [hD2, jsGet_eq_getD, hc1]
      have hsh : 5 * (lv + 1) - 5 = 5 * lv := by omega
      rw [hsh]
    rw [hgoal]
    unfold denseArr
    rw [Bool.and_eq_true]
    refine ⟨hn0, ?_⟩
    exact denseChildren_jsSet cap (denseArr lv) hcap0 arr n (m / cap) _ hdc
      hjlt hnew

theorem denseArr_fresh {α : Type _} :
    ∀ (lv i : Nat) (x : α), i % 32 ^ (lv + 1) = 0 →
      denseArr lv 1 (vnSetLv lv ([] : List (Option (VN α))) (5 * lv) i
        (some x)) = true := by
  intro lv
  induction lv with
  | zero =>
    intro i x hz
    have hz' : i % 32 = 0 := by simpa using hz
    show denseArr 0 1 (jsSet [] (i % 32) (some (VN.val x))) = true
    rw [hz']
    rfl
  | succ lv ih =>
    intro i x hz
    set cap := 32 ^ (lv + 1) with hcap
    have hcap0 : 0 < cap := Nat.pos_pow_of_pos _ (by norm_num)
    have hsplit : (32 : Nat) ^ (lv + 2) = cap * 32 := by
      rw [hcap, pow_succ]
    have hdvd : cap ∣ i := by
      apply dvd_trans (Dvd.intro 32 rfl : cap ∣ cap * 32)
      rw [← hsplit]
      exact Nat.dvd_of_mod_eq_zero hz
    have hzc : i % cap = 0 := by
      obtain ⟨k, hk⟩ := hdvd
      rw [hk]
      exact Nat.mul_mod_right cap k
    have hD : i / 2 ^ (5 * (lv + 1)) % 32 = 0 := by
      have hpow : (2 : Nat) ^ (5 * (lv + 1)) = cap := by
        rw [hcap, pow_mul]
        norm_num
      rw [hpow, ← Nat.mod_mul_right_div_self, ← hsplit, hz]
      simp
    have hgoal : vnSetLv (lv + 1) ([] : List (Option (VN α)))
        (5 * (lv + 1)) i (some x) =
        [some (VN.arr (vnSetLv lv ([] : List (Option (VN α))) (5 * lv) i
          (some x)))] := by
      show jsSet [] (i / 2 ^ (5 * (lv + 1)) % 32)
        (some (VN.arr (vnSetLv lv
          (match jsGet ([] : List (Option (VN α)))
              (i / 2 ^ (5 * (lv + 1)) % 32) with
            | some (VN.arr cl) => cl
            | some (VN.val _) => []
            | Option.none => [])
          (5 * (lv + 1) - 5) i (some x)))) = _
      rw [hD, jsGet_nil]
      have hsh : 5 * (lv + 1) - 5 = 5 * lv := by omega
      rw [hsh]
      rfl
    rw [hgoal]
    have hrec := ih i x hzc
    show (decide (0 < 1) && denseChildren (denseArr lv) (32 ^ (lv + 1)) 1
      [some (VN.arr (vnSetLv lv [] (5 * lv) i (some x)))]) = true
    rw [Bool.and_eq_true]
    refine ⟨by simp, ?_⟩
    show (if 1 ≤ 32 ^ (lv + 1) then
        ([] : List (Option (VN α))).isEmpty &&
          denseArr lv 1 (vnSetLv lv [] (5 * lv) i (some x))
      else denseArr lv (32 ^ (lv + 1)) (vnSetLv lv [] (5 * lv) i (some x)) &&
        denseChildren (denseArr lv) (32 ^ (lv + 1)) (1 - 32 ^ (lv + 1)) []) =
      true
    rw [if_pos (Nat.one_le_pow _ _ (by norm_num)), Bool.and_eq_true]
    exact ⟨by simp, hrec⟩

theorem denseArr_append {α : Type _} :
    ∀ (lv n : Nat) (arr : List (Option (VN α))) (i : Nat) (x : α),
      denseArr lv n arr = true → i % 32 ^ (lv + 1) = n →
      denseArr lv (n + 1) (vnSetLv lv arr (5 * lv) i (some x)) = true := by
  intro lv
  induction lv with
  | zero =>
    intro n arr i x hd hn
    have hn32 : n < 32 := by
      have := Nat.mod_lt i (show 0 < (32 : Nat) ^ 1 by norm_num)
      omega
    unfold denseArr at hd
    simp only [Bool.and_eq_true, decide_eq_true_eq] at hd
    obtain ⟨⟨⟨hn0, _⟩, hlen⟩, hall⟩ := hd
    have hi' : i % 32 = arr.length := by
      rw [hlen]
      simpa using hn
    show (decide (0 < n + 1) && decide (n + 1 ≤ 32) &&
      decide ((jsSet arr (i % 32) (some (VN.val x))).length = n + 1) &&
      (jsSet arr (i % 32) (some (VN.val x))).all fun e =>
        match e with
        | some (VN.val _) => true
        | _ => false) = true
    rw [hi', jsSet_at_length]
    simp only [Bool.and_eq_true, decide_eq_true_eq]
    refine ⟨⟨⟨by omega, by omega⟩, ?_⟩, ?_⟩
    · rw [List.length_append, hlen]
      rfl
    · rw [List.all_append, Bool.and_eq_true]
      exact ⟨hall, by simp⟩
  | succ lv ih =>
    intro n arr i x hd hn
    unfold denseArr at hd
    rw [Bool.and_eq_true] at hd
    obtain ⟨hn0', hdc⟩ := hd
    have hn0 : 0 < n := by simpa using hn0'
    set cap := 32 ^ (lv + 1) with hcap
    have hcap0 : 0 < cap := Nat.pos_pow_of_pos _ (by norm_num)
    have hsplit : (32 : Nat) ^ (lv + 2) = cap * 32 := by
      rw [hcap, pow_succ]
    have hnlt : n < cap * 32 := by
      rw [← hsplit, ← hn]
      exact Nat.mod_lt i (by rw [hsplit]; positivity)
    have hD : i / cap % 32 = n / cap := by
      rw [← hn, hsplit, Nat.mod_mul_right_div_self]
    have hmodc : i % cap = n % cap := by
      have h1 : i % cap = i % (cap * 32) % cap :=
        (Nat.mod_mod_of_dvd i ⟨32, rfl⟩).symm
      rw [h1, ← hsplit, hn]
    have hpow : (2 : Nat) ^ (5 * (lv + 1)) = cap := by
      rw [hcap, pow_mul]
      norm_num
    have hsh : 5 * (lv + 1) - 5 = 5 * lv := by omega
    by_cases hmod : n % cap = 0
    · -- a fresh child is started
      have hlen := denseChildren_length cap (denseArr lv) hcap0 arr n hdc
      obtain ⟨k, hk⟩ := Nat.dvd_of_mod_eq_zero hmod
      have hk1 : 1 ≤ k := by
        by_contra h0
        push_neg at h0
        interval_cases k <;> omega
      have hdiveq : n / cap = k := by
        rw [hk, Nat.mul_div_cancel_left k hcap0]
      have hlen2 : arr.length = k := by
        rw [hlen]
        have h1 : n - 1 = (cap - 1) + (k - 1) * cap := by
          have : (k - 1) * cap + cap = k * cap := by
            have hx : k - 1 + 1 = k := by omega
            calc (k - 1) * cap + cap = (k - 1 + 1) * cap := by ring
            _ = k * cap := by rw [hx]
          have : k * cap = cap * k := Nat.mul_comm _ _
          omega
        rw [h1, Nat.add_mul_div_right _ _ hcap0,
          Nat.div_eq_of_lt (by omega)]
        omega
      have hgetnone : jsGet arr (n / cap) = Option.none := by
        apply jsGet_ge
        rw [hlen2, hdiveq]
      have hfresh := denseArr_fresh lv i x (by rw [← hcap]; omega)
      have hgoal : vnSetLv (lv + 1) arr (5 * (lv + 1)) i (some x) =
          jsSet arr (n / cap)
            (some (VN.arr (vnSetLv lv ([] : List (Option (VN α)))
              (5 * lv) i (some x)))) := by
        show jsSet arr (i / 2 ^ (5 * (lv + 1)) % 32)
          (some (VN.arr (vnSetLv lv
            (match jsGet arr (i / 2 ^ (5 * (lv + 1)) % 32) with
              | some (VN.arr cl) => cl
              | some (VN.val _) => []
              | Option.none => [])
            (5 * (lv + 1) - 5) i (some x)))) = _
        rw [hpow, hD, hgetnone, hsh]
      rw [hgoal]
      have hset : jsSet arr (n / cap)
          (some (VN.arr (vnSetLv lv ([] : List (Option (VN α)))
            (5 * lv) i (some x)))) =
          arr ++ [some (VN.arr (vnSetLv lv ([] : List (Option (VN α)))
            (5 * lv) i (some x)))] := by
        rw [show n / cap = arr.length by rw [hlen2, hdiveq]]
        exact jsSet_at_length arr _
      rw [hset]
      unfold denseArr
      rw [Bool.and_eq_true]
      refine ⟨by simp, ?_⟩
      exact denseChildren_append cap (denseArr lv) hcap0 arr n _ hdc hmod hn0
        hfresh
    · -- the last, partial child grows
      have hjlt : (n / cap) * cap < n := by
        have h1 := Nat.div_add_mod n cap
        have h2 : cap * (n / cap) = (n / cap) * cap := Nat.mul_comm _ _
        omega
      obtain ⟨c, hc1, hc2⟩ := denseChildren_getD cap (denseArr lv) arr n
        (n / cap) hdc hjlt hcap0
      have hmin : min cap (n - (n / cap) * cap) = n % cap := by
        have h1 := Nat.div_add_mod n cap
        have h2 : cap * (n / cap) = (n / cap) * cap := Nat.mul_comm _ _
        have h3 : n % cap < cap := Nat.mod_lt _ hcap0
        omega
      rw [hmin] at hc2
      have hrec := ih (n % cap) c i x hc2 hmodc
      have hgoal : vnSetLv (lv + 1) arr (5 * (lv + 1)) i (some x) =
          jsSet arr (n / cap)
            (some (VN.arr (vnSetLv lv c (5 * lv) i (some x)))) := by
        show jsSet arr (i / 2 ^ (5 * (lv + 1)) % 32)
          (some (VN.arr (vnSetLv lv
            (match jsGet arr (i / 2 ^ (5 * (lv + 1)) % 32) with
              | some (VN.arr cl) => cl
              | some (VN.val _) => []
              | Option.none => [])
            (5 * (lv + 1) - 5) i (some x)))) = _
        rw [hpow, hD, jsGet_eq_getD, hc1, hsh]
      rw [hgoal]
      unfold denseArr
      rw [Bool.and_eq_true]
      refine ⟨by simp, ?_⟩
      exact denseChildren_grow_last cap (denseArr lv) hcap0 arr n _ hdc hmod
        hnlt hrec

/-- Setting a value at an index up to the length (replace in place or append,
the growth branch included) keeps a vector dense. -/
theorem Vector.dense_set1_some {α : Type _} (v : Vector α) (i : Nat) (x : α)
    (hd : v.dense = true) (hle : i ≤ v.length) :
    (v.set1 i (some x)).dense = true := by
  unfold Vector.dense at hd
  rw [Bool.or_eq_true] at hd
  cases hd with
  | inl hempty =>
    simp only [Bool.and_eq_true, decide_eq_true_eq, List.isEmpty_iff]
      at hempty
    obtain ⟨⟨hlen, hroot⟩, hshift⟩ := hempty
    have hi0 : i = 0 := by omega
    have hv : v = ⟨[], 0, 0⟩ := by
      obtain ⟨r, s, l⟩ := v
      simp only at hlen hroot hshift
      rw [hlen, hroot, hshift]
    rw [hv, hi0]
    unfold Vector.set1
    rw [if_pos (Or.inr (by norm_num : (0 : Nat) < 32 * 2 ^ 0))]
    unfold Vector.dense
    simp [vnSetGo, vnSetLv, jsSet, denseArr]
  | inr hdense =>
    simp only [Bool.and_eq_true, decide_eq_true_eq] at hdense
    obtain ⟨⟨hmod, hcap⟩, hda⟩ := hdense
    set L := v.shift / 5 with hL
    have hshift : v.shift = 5 * L := by
      have := Nat.div_add_mod v.shift 5
      omega
    have hcap32 : 32 * 2 ^ v.shift = 32 ^ (L + 1) := by
      have h1 : (2 : Nat) ^ v.shift = 32 ^ L := by
        rw [hshift, pow_mul]
        norm_num
      rw [h1, pow_succ]
      ring
    by_cases hb : i < v.length ∨ v.length < 32 * 2 ^ v.shift
    · rw [Vector.set1, if_pos hb]
      unfold Vector.dense
      rw [Bool.or_eq_true]
      right
      simp only [Bool.and_eq_true, decide_eq_true_eq]
      have hsetgo : vnSetGo v.root v.shift i (some x) =
          vnSetLv L v.root (5 * L) i (some x) := by
        unfold vnSetGo
        rw [← hL, ← hshift]
      by_cases hilt : i < v.length
      · refine ⟨⟨hmod, ?_⟩, ?_⟩
        · show (if i < v.length then v.length else i + 1) ≤ 32 * 2 ^ v.shift
          rw [if_pos hilt]
          exact hcap
        · show denseArr (v.shift / 5)
            (if i < v.length then v.length else i + 1)
            (vnSetGo v.root v.shift i (some x)) = true
          rw [if_pos hilt, hsetgo, ← hL]
          apply denseArr_set L v.length v.root i x hda
          rw [Nat.mod_eq_of_lt (by omega)]
          exact hilt
      · have hieq : i = v.length := by omega
        have hlt : v.length < 32 * 2 ^ v.shift := by
          rcases hb with hb | hb
          · omega
          · exact hb
        refine ⟨⟨hmod, ?_⟩, ?_⟩
        · show (if i < v.length then v.length else i + 1) ≤ 32 * 2 ^ v.shift
          rw [if_neg hilt]
          omega
        · show denseArr (v.shift / 5)
            (if i < v.length then v.length else i + 1)
            (vnSetGo v.root v.shift i (some x)) = true
          rw [if_neg hilt, hsetgo, ← hL, hieq]
          apply denseArr_append L v.length v.root v.length x hda
          rw [Nat.mod_eq_of_lt (by omega)]
    · rw [Vector.set1, if_neg hb]
      push_neg at hb
      obtain ⟨hge, hcap2⟩ := hb
      have hcape : v.length = 32 * 2 ^ v.shift := by omega
      unfold Vector.dense
      rw [Bool.or_eq_true]
      right
      simp only [Bool.and_eq_true, decide_eq_true_eq]
      refine ⟨⟨by omega, ?_⟩, ?_⟩
      · show v.length + 1 ≤ 32 * 2 ^ (v.shift + 5)
        have : (2 : Nat) ^ v.shift < 2 ^ (v.shift + 5) :=
          Nat.pow_lt_pow_right (by omega) (by omega)
        omega
      · show denseArr ((v.shift + 5) / 5) (v.length + 1)
          [some (VN.arr v.root),
            some (VN.arr (growChain ((v.shift + 5) / 5 - 1) (some x)))] = true
        have hlv : (v.shift + 5) / 5 = L + 1 := by omega
        rw [hlv]
        have hlv2 : L + 1 - 1 = L := by omega
        rw [hlv2]
        show (decide (0 < v.length + 1) &&
          denseChildren (denseArr L) (32 ^ (L + 1)) (v.length + 1)
            [some (VN.arr v.root), some (VN.arr (growChain L (some x)))]) =
          true
        rw [Bool.and_eq_true]
        refine ⟨by simp, ?_⟩
        have hcapn : 32 ^ (L + 1) = v.length := by omega
        show (if v.length + 1 ≤ 32 ^ (L + 1) then
            ([some (VN.arr (growChain L (some x)))] :
              List (Option (VN α))).isEmpty && denseArr L (v.length + 1) v.root
          else denseArr L (32 ^ (L + 1)) v.root &&
            denseChildren (denseArr L) (32 ^ (L + 1))
              (v.length + 1 - 32 ^ (L + 1))
              [some (VN.arr (growChain L (some x)))]) = true
        rw [if_neg (by omega), Bool.and_eq_true]
        constructor
        · rw [hcapn]
          exact hda
        · have hsub : v.length + 1 - 32 ^ (L + 1) = 1 := by omega
          rw [hsub]
          show (if 1 ≤ 32 ^ (L + 1) then
              ([] : List (Option (VN α))).isEmpty &&
                denseArr L 1 (growChain L (some x))
            else denseArr L (32 ^ (L + 1)) (growChain L (some x)) &&
              denseChildren (denseArr L) (32 ^ (L + 1)) (1 - 32 ^ (L + 1)) []) =
            true
          rw [if_pos (Nat.one_le_pow _ _ (by norm_num)), Bool.and_eq_true]
          exact ⟨by simp, denseArr_growChain L x⟩

/-! ### ChronMarkup (`immutable.ts` 390-438): mark / rangeOf / unmark -/

/-- The element list a `for (let _ of vector)` loop visits, via the verified
iterator; the `getD []` default is never used on dense vectors
(`vector_iter_dense`). -/
def Vector.items {α : Type _} (v : Vector α) : List (Option α) :=
  (v.iter).getD []

/-- A dense vector's shift is a multiple of 5 and its length is within
capacity. -/
theorem Vector.dense_props {α : Type _} (v : Vector α) (hd : v.dense = true) :
    v.shift % 5 = 0 ∧ v.length ≤ 32 * 2 ^ v.shift := by
  unfold Vector.dense at hd
  rw [Bool.or_eq_true] at hd
  cases hd with
  | inl h =>
    simp only [Bool.and_eq_true, decide_eq_true_eq] at h
    obtain ⟨⟨h1, _⟩, h3⟩ := h
    rw [h1, h3]
    norm_num
  | inr h =>
    simp only [Bool.and_eq_true, decide_eq_true_eq] at h
    exact ⟨h.1.1, h.1.2⟩

/-- The empty vector is dense. -/
theorem Vector.dense_empty {α : Type _} : (Vector.empty : Vector α).dense = true := rfl

/-- On a dense vector the iterator materialises `get` at every index. -/
theorem Vector.items_dense {α : Type _} (v : Vector α) (hd : v.dense = true) :
    v.items = (List.range v.length).map fun idx => v.get idx := by
  unfold Vector.items
  rw [vector_iter_dense v hd]
  rfl

theorem Vector.items_length_dense {α : Type _} (v : Vector α) (hd : v.dense = true) :
    v.items.length = v.length := by
  rw [Vector.items_dense v hd]
  simp

theorem Vector.items_getElem {α : Type _} (v : Vector α) (hd : v.dense = true)
    (k : Nat) (hk : k < v.items.length) : v.items[k] = v.get k := by
  have hkL : k < v.length := by
    rw [Vector.items_length_dense v hd] at hk
    exact hk
  simp only [Vector.items_dense v hd]
  simp [List.getElem_map, List.getElem_range]

/-- `set1` at an in-range index rewrites one slot of the iterated list. -/
theorem Vector.items_set1_lt {α : Type _} (v : Vector α) (j : Nat) (x : α)
    (hd : v.dense = true) (hj : j < v.length) :
    (v.set1 j (some x)).items = v.items.set j (some x) := by
  obtain ⟨h5, hcap⟩ := Vector.dense_props v hd
  have hd' := Vector.dense_set1_some v j x hd hj.le
  have hlen := Vector.length_set1_lt v j (some x) hj
  rw [Vector.items_dense _ hd', Vector.items_dense _ hd, hlen]
  apply List.ext_getElem
  · simp
  · intro k h1 h2
    have hkL : k < v.length := by simpa using h1
    rw [List.getElem_map, List.getElem_range, List.getElem_set]
    by_cases hk : j = k
    · subst hk
      rw [if_pos rfl, Vector.get_set1_lt v j (some x) hj]
    · rw [if_neg hk, List.getElem_map, List.getElem_range]
      exact Vector.get_set1_other v j k (some x) h5 hcap hj.le hkL
        (fun h => hk h.symm)

/-- `set1` at the length appends one slot to the iterated list. -/
theorem Vector.items_set1_append {α : Type _} (v : Vector α) (x : α)
    (hd : v.dense = true) :
    (v.set1 v.length (some x)).items = v.items ++ [some x] := by
  obtain ⟨h5, hcap⟩ := Vector.dense_props v hd
  obtain ⟨hget, hlen⟩ := Vector.get_set1_append v (some x) h5 hcap
  have hd' := Vector.dense_set1_some v v.length x hd le_rfl
  rw [Vector.items_dense _ hd', Vector.items_dense _ hd, hlen, List.range_succ,
    List.map_append]
  congr 1
  · apply List.map_congr_left
    intro a ha
    have haL : a < v.length := List.mem_range.mp ha
    exact Vector.get_set1_other v v.length a (some x) h5 hcap le_rfl haL
      (Nat.ne_of_lt haL)
  · simp [hget]

/-- `immutable.ChronMarker`: `(data, range)`; an unmarked (garbage) marker
stores `undefined` (`none`) as its range. -/
structure ChronMarker (μ τ : Type _) where
  data : μ
  range : Option (ChronRange τ)
  deriving DecidableEq

/-- `immutable.ChronMarkup`: a persistent vector of markers. -/
structure ChronMarkup (μ τ : Type _) where
  markers : Vector (ChronMarker μ τ)

/-- `ChronMarkup.empty = new ChronMarkup(Vector.empty)`. -/
def ChronMarkup.empty {μ τ : Type _} : ChronMarkup μ τ := ⟨Vector.empty⟩

/-- The `_.data == data` test of the `mark` scan and `rangeOf` loops.  On a
hole (`undefined` marker) JS would throw reading `.data`; holes never occur on
the dense markups reachable from `empty`, and a hole is treated as a
non-match. -/
def markerIsData {μ τ : Type _} [DecidableEq μ] (d : μ) :
    Option (ChronMarker μ τ) → Bool
  | some mm => decide (mm.data = d)
  | none => false

/-- The `!marker.range` test of the garbage count in `mark` (same remark about
holes, which never occur on dense markups). -/
def markerIsGarbage {μ τ : Type _} : Option (ChronMarker μ τ) → Bool
  | some mm => mm.range.isNone
  | none => true

/-- The indexed scan loop of `mark`
(`for (var i = 0; i < markers.length; i++) ...`): replace the first marker
whose data matches, else append a fresh one; fueled by `length - i`. -/
def markScan {μ τ : Type _} [DecidableEq μ] (markers : Vector (ChronMarker μ τ))
    (d : μ) (r : Option (ChronRange τ)) : Nat → Nat → Vector (ChronMarker μ τ)
  | 0, _ => markers.append (some ⟨d, r⟩)
  | fuel + 1, i =>
    match markers.get i with
    | some entry =>
      if entry.data = d then markers.set i (some ⟨d, r⟩)
      else markScan markers d r fuel (i + 1)
    | none => markScan markers d r fuel (i + 1)

/-- `mark` without the garbage-compaction prelude (the scan-or-append part). -/
def ChronMarkup.markNC {μ τ : Type _} [DecidableEq μ] (mk : ChronMarkup μ τ)
    (d : μ) (r : Option (ChronRange τ)) : ChronMarkup μ τ :=
  ⟨markScan mk.markers d r mk.markers.length 0⟩

/-- The body of the compaction loop
`for (let marker of this.markers) if (marker.range) copy = copy.mark(...)`.
Every marker fed to the recursive `copy.mark` has a `some` range, so `copy`
never holds a garbage marker and its garbage count stays 0 ≤ 16: that call
takes the non-compacting branch, i.e. it is `markNC`
(`markRebuildStep_sound` below proves this substitution). -/
def markRebuildStep {μ τ : Type _} [DecidableEq μ] (acc : ChronMarkup μ τ)
    (m : Option (ChronMarker μ τ)) : ChronMarkup μ τ :=
  match m with
  | some mm =>
    match mm.range with
    | some _ => acc.markNC mm.data mm.range
    | none => acc
  | none => acc

/-- `ChronMarkup.mark` (`immutable.ts` 408-430): count garbage markers; with
more than 16, rebuild a compacted copy from the live markers and mark into it
(see `markRebuildStep`); otherwise scan-replace or append. -/
def ChronMarkup.mark {μ τ : Type _} [DecidableEq μ] (mk : ChronMarkup μ τ)
    (d : μ) (r : Option (ChronRange τ)) : ChronMarkup μ τ :=
  if 16 < mk.markers.items.countP markerIsGarbage then
    (mk.markers.items.foldl markRebuildStep
      (ChronMarkup.empty : ChronMarkup μ τ)).markNC d r
  else mk.markNC d r

/-- `ChronMarkup.rangeOf`: first marker (in vector-iteration order) whose data
matches returns its range; JS flattens a not-found and a found-but-unmarked
entry into the same `undefined`. -/
def ChronMarkup.rangeOf {μ τ : Type _} [DecidableEq μ] (mk : ChronMarkup μ τ)
    (d : μ) : Option (ChronRange τ) :=
  match mk.markers.items.find? (markerIsData d) with
  | some (some mm) => mm.range
  | some none => none
  | none => none

/-- `unmark(data) { return this.mark(data, undefined); }`. -/
def ChronMarkup.unmark {μ τ : Type _} [DecidableEq μ] (mk : ChronMarkup μ τ)
    (d : μ) : ChronMarkup μ τ :=
  mk.mark d none

/-- The data slots of the iterated marker list (holes kept as `none`). -/
def markupDatas {μ τ : Type _} (mk : ChronMarkup μ τ) : List (Option μ) :=
  mk.markers.items.map fun m => m.map ChronMarker.data

/-- The invariant of markups reachable from `empty`: a dense markers vector
with pairwise-distinct marker datas. -/
def MarkupInv {μ τ : Type _} (mk : ChronMarkup μ τ) : Prop :=
  mk.markers.dense = true ∧ (markupDatas mk).Nodup

instance {μ τ : Type _} [DecidableEq μ] (mk : ChronMarkup μ τ) :
    Decidable (MarkupInv mk) :=
  inferInstanceAs (Decidable (_ ∧ _))

/-- `markerLiveFor d` holds of a marker slot that carries data `d` and a live
(non-`undefined`) range. -/
def markerLiveFor {μ τ : Type _} [DecidableEq μ] (d : μ) :
    Option (ChronMarker μ τ) → Bool
  | some mm => decide (mm.data = d) && mm.range.isSome
  | none => false

theorem list_set_getElem_self {γ : Type _} :
    ∀ (l : List γ) (j : Nat) (hj : j < l.length), l.set j l[j] = l := by
  intro l
  induction l with
  | nil => intro j hj; exact absurd hj (by simp)
  | cons a t ih =>
    intro j hj
    cases j with
    | zero => rfl
    | succ j' =>
      have hj' : j' < t.length := by simpa using hj
      have hcs : (a :: t)[j' + 1] = t[j'] := by simp
      rw [hcs]
      show a :: t.set j' t[j'] = a :: t
      rw [ih j' hj']

theorem find_set_first {γ : Type _} (p : γ → Bool) :
    ∀ (l : List γ) (j : Nat) (x : γ), j < l.length →
      (∀ k (hk : k < l.length), k < j → p l[k] = false) → p x = true →
      (l.set j x).find? p = some x := by
  intro l
  induction l with
  | nil => intro j x hj _ _; exact absurd hj (by simp)
  | cons a t ih =>
    intro j x hj hlt hx
    cases j with
    | zero =>
      show (x :: t).find? p = some x
      rw [List.find?_cons_of_pos _ hx]
    | succ j' =>
      have ha : p a = false := hlt 0 (by simp) (Nat.succ_pos j')
      show (a :: t.set j' x).find? p = some x
      rw [List.find?_cons_of_neg _ (by simp [ha])]
      exact ih j' x (by simpa using hj)
        (fun k hk hkj => hlt (k + 1) (by simpa using hk) (by omega)) hx

theorem find_none_of_all {γ : Type _} (p : γ → Bool) :
    ∀ l : List γ, (∀ k (hk : k < l.length), p l[k] = false) →
      l.find? p = none := by
  intro l
  induction l with
  | nil => intro _; rfl
  | cons a t ih =>
    intro h
    have ha : p a = false := by simpa using h 0 (by simp)
    rw [List.find?_cons_of_neg _ (by simp [ha])]
    exact ih fun k hk => h (k + 1) (by simpa using hk)

theorem find_append_singleton {γ : Type _} (p : γ → Bool) :
    ∀ (l : List γ) (x : γ), l.find? p = none → p x = true →
      (l ++ [x]).find? p = some x := by
  intro l
  induction l with
  | nil =>
    intro x _ hx
    show [x].find? p = some x
    rw [List.find?_cons_of_pos _ hx]
  | cons a t ih =>
    intro x hl hx
    have ha : p a = false := by
      by_contra hc
      rw [List.find?_cons_of_pos _ (by revert hc; cases p a <;> simp)] at hl
      exact Option.noConfusion hl
    rw [List.find?_cons_of_neg _ (by simp [ha])] at hl
    show (a :: (t ++ [x])).find? p = some x
    rw [List.find?_cons_of_neg _ (by simp [ha])]
    exact ih x hl hx

theorem markerIsData_true_iff {μ τ : Type _} [DecidableEq μ] (d : μ)
    (m : Option (ChronMarker μ τ)) :
    markerIsData d m = true ↔ ∃ mm, m = some mm ∧ mm.data = d := by
  cases m with
  | none => simp [markerIsData]
  | some mm => simp [markerIsData]

/-- The scan loop, when some marker at an index `≥ i` matches `d` and `j` is
the first such index, replaces slot `j`. -/
theorem markScan_found {μ τ : Type _} [DecidableEq μ]
    (v : Vector (ChronMarker μ τ)) (d : μ) (r : Option (ChronRange τ)) :
    ∀ (fuel i j : Nat), fuel + i = v.length → i ≤ j → j < v.length →
      markerIsData d (v.get j) = true →
      (∀ k, i ≤ k → k < j → markerIsData d (v.get k) = false) →
      markScan v d r fuel i = v.set j (some ⟨d, r⟩) := by
  intro fuel
  induction fuel with
  | zero => intro i j hfi hij hjL _ _; omega
  | succ fuel ih =>
    intro i j hfi hij hjL hj hmin
    by_cases hie : i = j
    · subst hie
      obtain ⟨mm, hg, hdd⟩ := (markerIsData_true_iff d (v.get i)).mp hj
      show (match v.get i with
        | some entry =>
          if entry.data = d then v.set i (some ⟨d, r⟩)
          else markScan v d r fuel (i + 1)
        | none => markScan v d r fuel (i + 1)) = v.set i (some ⟨d, r⟩)
      rw [hg]
      show (if mm.data = d then v.set i (some ⟨d, r⟩)
        else markScan v d r fuel (i + 1)) = v.set i (some ⟨d, r⟩)
      rw [if_pos hdd]
    · have hij' : i < j := lt_of_le_of_ne hij hie
      have hki : markerIsData d (v.get i) = false := hmin i le_rfl hij'
      have hstep : markScan v d r (fuel + 1) i = markScan v d r fuel (i + 1) := by
        show (match v.get i with
          | some entry =>
            if entry.data = d then v.set i (some ⟨d, r⟩)
            else markScan v d r fuel (i + 1)
          | none => markScan v d r fuel (i + 1)) = markScan v d r fuel (i + 1)
        cases hgi : v.get i with
        | none => rfl
        | some mm =>
          rw [hgi] at hki
          have hne : ¬ mm.data = d := by simpa [markerIsData] using hki
          show (if mm.data = d then v.set i (some ⟨d, r⟩)
            else markScan v d r fuel (i + 1)) = markScan v d r fuel (i + 1)
          rw [if_neg hne]
      rw [hstep]
      exact ih (i + 1) j (by omega) (by omega) hjL hj
        (fun k hk1 hk2 => hmin k (by omega) hk2)

/-- The scan loop, when no marker matches `d`, appends a fresh marker. -/
theorem markScan_notfound {μ τ : Type _} [DecidableEq μ]
    (v : Vector (ChronMarker μ τ)) (d : μ) (r : Option (ChronRange τ)) :
    ∀ (fuel i : Nat), fuel + i = v.length →
      (∀ k, markerIsData d (v.get k) = false) →
      markScan v d r fuel i = v.append (some ⟨d, r⟩) := by
  intro fuel
  induction fuel with
  | zero => intro i _ _; rfl
  | succ fuel ih =>
    intro i hfi hall
    show (match v.get i with
      | some entry =>
        if entry.data = d then v.set i (some ⟨d, r⟩)
        else markScan v d r fuel (i + 1)
      | none => markScan v d r fuel (i + 1)) = v.append (some ⟨d, r⟩)
    cases hgi : v.get i with
    | none => exact ih (i + 1) (by omega) hall
    | some mm =>
      have hne : ¬ mm.data = d := by
        have hq := hall i
        rw [hgi] at hq
        simpa [markerIsData] using hq
      show (if mm.data = d then v.set i (some ⟨d, r⟩)
        else markScan v d r fuel (i + 1)) = v.append (some ⟨d, r⟩)
      rw [if_neg hne]
      exact ih (i + 1) (by omega) hall

/-- With at most 16 garbage markers, `mark` is the plain scan-or-append. -/
theorem ChronMarkup.mark_eq_markNC {μ τ : Type _} [DecidableEq μ]
    (mk : ChronMarkup μ τ) (d : μ) (r : Option (ChronRange τ))
    (hg : mk.markers.items.countP markerIsGarbage ≤ 16) :
    mk.mark d r = mk.markNC d r := by
  unfold ChronMarkup.mark
  rw [if_neg (by omega)]

/-- On a garbage-free accumulator the compaction step `markRebuildStep` agrees
with the source's recursive `copy.mark(marker.data, marker.range)` call. -/
theorem markRebuildStep_sound {μ τ : Type _} [DecidableEq μ]
    (acc : ChronMarkup μ τ) (m : Option (ChronMarker μ τ))
    (hg : acc.markers.items.countP markerIsGarbage ≤ 16) :
    markRebuildStep acc m =
      (match m with
       | some mm =>
         match mm.range with
         | some _ => acc.mark mm.data mm.range
         | none => acc
       | none => acc) := by
  rcases m with _ | ⟨md, rng⟩
  · rfl
  · cases rng with
    | none => rfl
    | some rr =>
      show acc.markNC md (some rr) = acc.mark md (some rr)
      rw [ChronMarkup.mark_eq_markNC acc md (some rr) hg]

/-- `markNC` on a dense markers vector: it keeps the vector dense, and at the
item level either rewrites the first slot whose data matches or appends a
fresh slot. -/
theorem markNC_char {μ τ : Type _} [DecidableEq μ] (mk : ChronMarkup μ τ)
    (d : μ) (r : Option (ChronRange τ)) (hdense : mk.markers.dense = true) :
    (mk.markNC d r).markers.dense = true ∧
      ((∃ j, j < mk.markers.length ∧ markerIsData d (mk.markers.get j) = true ∧
          (∀ k, k < j → markerIsData d (mk.markers.get k) = false) ∧
          (mk.markNC d r).markers.items =
            mk.markers.items.set j (some ⟨d, r⟩)) ∨
        ((∀ k, markerIsData d (mk.markers.get k) = false) ∧
          (mk.markNC d r).markers.items = mk.markers.items ++ [some ⟨d, r⟩])) := by
  by_cases hex : ∃ j, j < mk.markers.length ∧
      markerIsData d (mk.markers.get j) = true
  · obtain ⟨hj0L, hj0p⟩ := Nat.find_spec hex
    have hmin : ∀ k, k < Nat.find hex →
        markerIsData d (mk.markers.get k) = false := by
      intro k hk
      have hnk := Nat.find_min hex hk
      cases hq : markerIsData d (mk.markers.get k) with
      | false => rfl
      | true => exact absurd ⟨lt_trans hk hj0L, hq⟩ hnk
    have hres : mk.markNC d r =
        ⟨mk.markers.set (Nat.find hex) (some ⟨d, r⟩)⟩ := by
      show ChronMarkup.mk (markScan mk.markers d r mk.markers.length 0) = _
      exact congrArg ChronMarkup.mk
        (markScan_found mk.markers d r mk.markers.length 0 (Nat.find hex)
          (by omega) (Nat.zero_le _) hj0L hj0p (fun k _ hk2 => hmin k hk2))
    have hset1 : mk.markers.set (Nat.find hex) (some ⟨d, r⟩) =
        mk.markers.set1 (Nat.find hex) (some ⟨d, r⟩) :=
      Vector.set_eq_set1 _ _ _ hj0L.le
    refine ⟨?_, Or.inl ⟨Nat.find hex, hj0L, hj0p, hmin, ?_⟩⟩
    · rw [hres]
      show (mk.markers.set (Nat.find hex) (some ⟨d, r⟩)).dense = true
      rw [hset1]
      exact Vector.dense_set1_some mk.markers (Nat.find hex) ⟨d, r⟩ hdense hj0L.le
    · rw [hres]
      show (mk.markers.set (Nat.find hex) (some ⟨d, r⟩)).items = _
      rw [hset1]
      exact Vector.items_set1_lt mk.markers (Nat.find hex) ⟨d, r⟩ hdense hj0L
  · push_neg at hex
    have hall : ∀ k, markerIsData d (mk.markers.get k) = false := by
      intro k
      by_cases hkL : k < mk.markers.length
      · have hne := hex k hkL
        cases hq : markerIsData d (mk.markers.get k) with
        | false => rfl
        | true => exact absurd hq hne
      · rw [Vector.get_ge mk.markers k (by omega)]
        rfl
    have hres : mk.markNC d r = ⟨mk.markers.append (some ⟨d, r⟩)⟩ := by
      show ChronMarkup.mk (markScan mk.markers d r mk.markers.length 0) = _
      exact congrArg ChronMarkup.mk
        (markScan_notfound mk.markers d r mk.markers.length 0 (by omega) hall)
    have happ : mk.markers.append (some ⟨d, r⟩) =
        mk.markers.set1 mk.markers.length (some ⟨d, r⟩) := by
      unfold Vector.append
      exact Vector.set_eq_set1 _ _ _ le_rfl
    refine ⟨?_, Or.inr ⟨hall, ?_⟩⟩
    · rw [hres]
      show (mk.markers.append (some ⟨d, r⟩)).dense = true
      rw [happ]
      exact Vector.dense_set1_some mk.markers mk.markers.length ⟨d, r⟩ hdense
        le_rfl
    · rw [hres]
      show (mk.markers.append (some ⟨d, r⟩)).items = _
      rw [happ]
      exact Vector.items_set1_append mk.markers ⟨d, r⟩ hdense

/-- `markNC` under the markup invariant: `rangeOf` the marked data reads back
exactly the stored range (also when it is `none`), and the invariant is
preserved. -/
theorem markNC_spec {μ τ : Type _} [DecidableEq μ] (mk : ChronMarkup μ τ)
    (d : μ) (r : Option (ChronRange τ)) (hinv : MarkupInv mk) :
    (mk.markNC d r).rangeOf d = r ∧ MarkupInv (mk.markNC d r) := by
  obtain ⟨hdense, hnodup⟩ := hinv
  obtain ⟨hdense', hchar⟩ := markNC_char mk d r hdense
  have hitemsL : mk.markers.items.length = mk.markers.length :=
    Vector.items_length_dense _ hdense
  have hpx : markerIsData d (some (⟨d, r⟩ : ChronMarker μ τ)) = true := by
    simp [markerIsData]
  cases hchar with
  | inl hfound =>
    obtain ⟨j, hjL, hjp, hmin, hitems⟩ := hfound
    constructor
    · unfold ChronMarkup.rangeOf
      rw [hitems, find_set_first (markerIsData d) mk.markers.items j
        (some ⟨d, r⟩) (by omega)
        (fun k hk hkj => by
          rw [Vector.items_getElem mk.markers hdense k hk]
          exact hmin k hkj)
        hpx]
    · refine ⟨hdense', ?_⟩
      unfold markupDatas
      rw [hitems, List.map_set]
      have hjlen : j <
          (mk.markers.items.map fun m => m.map ChronMarker.data).length := by
        simp only [List.length_map]
        omega
      have hgj : (mk.markers.items.map fun m => m.map ChronMarker.data)[j] =
          (some (⟨d, r⟩ : ChronMarker μ τ)).map ChronMarker.data := by
        rw [List.getElem_map,
          Vector.items_getElem mk.markers hdense j (by omega)]
        obtain ⟨mm, hg, hdd⟩ := (markerIsData_true_iff d _).mp hjp
        rw [hg]
        simp [hdd]
      have hsame : (mk.markers.items.map fun m =>
            m.map ChronMarker.data).set j
            ((some (⟨d, r⟩ : ChronMarker μ τ)).map ChronMarker.data) =
          mk.markers.items.map fun m => m.map ChronMarker.data := by
        conv_lhs => rw [← hgj]
        exact list_set_getElem_self _ j hjlen
      rw [hsame]
      exact hnodup
  | inr hnotf =>
    obtain ⟨hall, hitems⟩ := hnotf
    constructor
    · unfold ChronMarkup.rangeOf
      rw [hitems, find_append_singleton (markerIsData d) mk.markers.items
        (some ⟨d, r⟩)
        (find_none_of_all _ _ (fun k hk => by
          rw [Vector.items_getElem mk.markers hdense k hk]
          exact hall k))
        hpx]
    · refine ⟨hdense', ?_⟩
      unfold markupDatas
      rw [hitems, List.map_append, List.nodup_append]
      refine ⟨hnodup, by simp, ?_⟩
      intro a ha hb
      simp only [List.map_cons, List.map_nil, List.mem_singleton] at hb
      subst hb
      obtain ⟨i0, hi0, hgi⟩ := List.mem_iff_getElem.mp ha
      rw [List.getElem_map] at hgi
      have hlt : i0 < mk.markers.items.length := by simpa using hi0
      rw [Vector.items_getElem mk.markers hdense i0 hlt] at hgi
      have hcontra : markerIsData d (mk.markers.get i0) = true := by
        cases hq : mk.markers.get i0 with
        | none => rw [hq] at hgi; exact Option.noConfusion hgi
        | some mm =>
          rw [hq] at hgi
          have hdd : mm.data = d := by simpa using hgi
          simp [markerIsData, hdd]
      rw [hall i0] at hcontra
      exact Bool.noConfusion hcontra

/-- The empty markup satisfies the invariant. -/
theorem markup_empty_inv {μ τ : Type _} :
    MarkupInv (ChronMarkup.empty : ChronMarkup μ τ) := by
  refine ⟨Vector.dense_empty, ?_⟩
  have hnil : markupDatas (ChronMarkup.empty : ChronMarkup μ τ) = [] := rfl
  rw [hnil]
  exact List.nodup_nil

/-- Marking with a live range into a garbage-free markup keeps it
garbage-free (so the compacted copy's garbage count stays 0). -/
theorem markNC_garbage_free {μ τ : Type _} [DecidableEq μ]
    (mk : ChronMarkup μ τ) (d : μ) (rr : ChronRange τ)
    (hdense : mk.markers.dense = true)
    (hg : ∀ m ∈ mk.markers.items, markerIsGarbage m = false) :
    ∀ m ∈ (mk.markNC d (some rr)).markers.items, markerIsGarbage m = false := by
  obtain ⟨-, hchar⟩ := markNC_char mk d (some rr) hdense
  intro m hm
  cases hchar with
  | inl hfound =>
    obtain ⟨j, _, _, _, hitems⟩ := hfound
    rw [hitems] at hm
    rcases List.mem_or_eq_of_mem_set hm with hold | hnew
    · exact hg m hold
    · rw [hnew]
      rfl
  | inr hnotf =>
    rw [hnotf.2] at hm
    rcases List.mem_append.mp hm with hold | hnew
    · exact hg m hold
    · rw [List.mem_singleton.mp hnew]
      rfl

/-- The compaction fold (`for (let marker of this.markers) if (marker.range)
copy = copy.mark(...)`) keeps the invariant and never creates garbage. -/
theorem markup_fold_inv {μ τ : Type _} [DecidableEq μ] :
    ∀ (l : List (Option (ChronMarker μ τ))) (acc : ChronMarkup μ τ),
      MarkupInv acc → (∀ m ∈ acc.markers.items, markerIsGarbage m = false) →
      MarkupInv (l.foldl markRebuildStep acc) ∧
        (∀ m ∈ (l.foldl markRebuildStep acc).markers.items,
          markerIsGarbage m = false) := by
  intro l
  induction l with
  | nil => intro acc hinv hg; exact ⟨hinv, hg⟩
  | cons m t ih =>
    intro acc hinv hg
    rw [List.foldl_cons]
    rcases m with _ | ⟨md, rng⟩
    · exact ih acc hinv hg
    · cases rng with
      | none => exact ih acc hinv hg
      | some rr =>
        have hstep : markRebuildStep acc (some ⟨md, some rr⟩) =
            acc.markNC md (some rr) := rfl
        rw [hstep]
        exact ih (acc.markNC md (some rr))
          (markNC_spec acc md (some rr) hinv).2
          (markNC_garbage_free acc md rr hinv.1 hg)

/-- `mark` (with the compaction prelude) under the invariant: `rangeOf` the
marked data reads back the stored range and the invariant is preserved. -/
theorem mark_spec {μ τ : Type _} [DecidableEq μ] (mk : ChronMarkup μ τ)
    (d : μ) (r : Option (ChronRange τ)) (hinv : MarkupInv mk) :
    (mk.mark d r).rangeOf d = r ∧ MarkupInv (mk.mark d r) := by
  unfold ChronMarkup.mark
  by_cases hg : 16 < mk.markers.items.countP markerIsGarbage
  · rw [if_pos hg]
    refine markNC_spec _ d r ?_
    refine (markup_fold_inv mk.markers.items ChronMarkup.empty
      markup_empty_inv ?_).1
    intro m hm
    have hnil : (ChronMarkup.empty : ChronMarkup μ τ).markers.items = [] := rfl
    rw [hnil] at hm
    exact absurd hm (List.not_mem_nil m)
  · rw [if_neg hg]
    exact markNC_spec mk d r hinv

/-- With pairwise-distinct marker datas, at most one slot is live for any
given data. -/
theorem countP_live_le_one {μ τ : Type _} [DecidableEq μ] (d : μ) :
    ∀ l : List (Option (ChronMarker μ τ)),
      (l.map fun m => m.map ChronMarker.data).Nodup →
      l.countP (markerLiveFor d) ≤ 1 := by
  intro l
  induction l with
  | nil => intro _; simp
  | cons m t ih =>
    intro hnd
    rw [List.map_cons, List.nodup_cons] at hnd
    obtain ⟨hnotmem, hndt⟩ := hnd
    rw [List.countP_cons]
    cases hq : markerLiveFor d m with
    | false => simpa using ih hndt
    | true =>
      obtain ⟨mm, hm, hdd⟩ : ∃ mm, m = some mm ∧ mm.data = d := by
        cases m with
        | none => exact absurd hq (by simp [markerLiveFor])
        | some mm =>
          refine ⟨mm, rfl, ?_⟩
          have := hq
          simp [markerLiveFor] at this
          exact this.1
      have hzero : t.countP (markerLiveFor d) = 0 := by
        rw [List.countP_eq_zero]
        intro a ha hlive
        obtain ⟨aa, haa, hada⟩ : ∃ aa, a = some aa ∧ aa.data = d := by
          cases a with
          | none => exact absurd hlive (by simp [markerLiveFor])
          | some aa =>
            refine ⟨aa, rfl, ?_⟩
            simp [markerLiveFor] at hlive
            exact hlive.1
        apply hnotmem
        have hmd : m.map ChronMarker.data = some d := by rw [hm]; simp [hdd]
        have had : a.map ChronMarker.data = some d := by rw [haa]; simp [hada]
        rw [hmd, ← had]
        exact List.mem_map_of_mem _ ha
      simp [hzero]

/-- **C5.** For every markup `mk` satisfying the invariant of markups
reachable from `empty` (dense markers vector, pairwise-distinct marker
datas), every data `d` and range `r`: `mk.mark(d, r).rangeOf(d)` equals `r`;
`mk.unmark(d).rangeOf(d)` is `none`; both operations preserve the invariant
and the empty markup satisfies it (so it holds after any sequence of
mark/unmark operations); and under the invariant at most one live
(non-`none`-range) marker slot exists per data identity. -/
theorem chron_markup_C5 {μ τ : Type _} [DecidableEq μ] (mk : ChronMarkup μ τ)
    (d : μ) (r : ChronRange τ) (hinv : MarkupInv mk) :
    (mk.mark d (some r)).rangeOf d = some r ∧
    (mk.unmark d).rangeOf d = none ∧
    MarkupInv (mk.mark d (some r)) ∧ MarkupInv (mk.unmark d) ∧
    MarkupInv (ChronMarkup.empty : ChronMarkup μ τ) ∧
    ∀ d' : μ, mk.markers.items.countP (markerLiveFor d') ≤ 1 := by
  obtain ⟨h1, h2⟩ := mark_spec mk d (some r) hinv
  obtain ⟨h3, h4⟩ := mark_spec mk d none hinv
  exact ⟨h1, h3, h2, h4, markup_empty_inv,
    fun d' => countP_live_le_one d' mk.markers.items hinv.2⟩

def rangeW1 : ChronRange Nat := ⟨⟨CAnchor.key 1, -1⟩, ⟨CAnchor.key 1, 1⟩⟩

def rangeW2 : ChronRange Nat := ⟨⟨CAnchor.key 2, -1⟩, ⟨CAnchor.key 3, 1⟩⟩

def markupW : ChronMarkup Nat Nat := ⟨Vector.empty.append (some ⟨5, some rangeW1⟩)⟩

set_option maxRecDepth 10000 in
theorem chron_markup_C5_witness :
    MarkupInv markupW ∧
      ((markupW.mark 7 (some rangeW2)).rangeOf 7 = some rangeW2 ∧
        (markupW.unmark 7).rangeOf 7 = none ∧
        MarkupInv (markupW.mark 7 (some rangeW2)) ∧
        MarkupInv (markupW.unmark 7) ∧
        MarkupInv (ChronMarkup.empty : ChronMarkup Nat Nat) ∧
        ∀ d' : Nat, markupW.markers.items.countP (markerLiveFor d') ≤ 1) :=
  ⟨by decide, chron_markup_C5 markupW 7 rangeW2 (by decide)⟩

/-! ### ChronMarkup.entries (`immutable.ts` 445-494) -/

/-- The markup iterator
`*[Symbol.iterator]() { for (let marker of this.markers) if (marker.range)
yield marker; }`: the live markers in vector order (a hole would throw on
`.range` in JS; dense markups have none and are skipped here). -/
def liveMarkers {μ τ : Type _} (mk : ChronMarkup μ τ) :
    List (ChronMarker μ τ) :=
  mk.markers.items.filterMap fun m =>
    match m with
    | some mm =>
      match mm.range with
      | some _ => some mm
      | none => none
    | none => none

/-- `marker.range.head`; on a garbage marker JS would throw, so the default
arm is never reached for markers handled by `entries` (all live). -/
def markerHead {μ τ : Type _} (m : ChronMarker μ τ) : ChronCursor τ :=
  match m.range with
  | some rr => rr.head
  | none => ⟨CAnchor.key 0, -1⟩

/-- `marker.range.tail` (same remark). -/
def markerTail {μ τ : Type _} (m : ChronMarker μ τ) : ChronCursor τ :=
  match m.range with
  | some rr => rr.tail
  | none => ⟨CAnchor.key 0, -1⟩

/-- The bucket key `chron.anchorOf(cursor)?.index || -1` of the `push`
closure: JS `||` maps both a missing anchor and the falsy index `0` to
`-1`. -/
def bucketKey {τ : Type _} [DecidableEq τ] (c : Chron τ)
    (cursor : ChronCursor τ) : Int :=
  match c.anchorOf cursor with
  | some e => if e.index = 0 then -1 else (e.index : Int)
  | none => -1

/-- The two `Map<number, ChronMarker[]>`s of `entries`. -/
structure Buckets (μ τ : Type _) where
  heads : Int → List (ChronMarker μ τ)
  tails : Int → List (ChronMarker μ τ)

/-- The `push` closure: heads for a negative cursor offset, tails otherwise;
a push appends to the keyed bucket (`map.get(key).push(marker)`). -/
def pushBucket {μ τ : Type _} [DecidableEq τ] (c : Chron τ) (b : Buckets μ τ)
    (cursor : ChronCursor τ) (m : ChronMarker μ τ) : Buckets μ τ :=
  if cursor.offset < 0 then
    ⟨fun k => if k = bucketKey c cursor then b.heads k ++ [m] else b.heads k,
      b.tails⟩
  else
    ⟨b.heads,
      fun k => if k = bucketKey c cursor then b.tails k ++ [m] else b.tails k⟩

/-- The bucket-building loop of `entries` (no `set.filter`):
`for (let marker of this) { push(marker.range.head, marker);
push(marker.range.tail, marker); }`. -/
def buildBuckets {μ τ : Type _} [DecidableEq τ] (c : Chron τ)
    (live : List (ChronMarker μ τ)) : Buckets μ τ :=
  live.foldl
    (fun b m => pushBucket c (pushBucket c b (markerHead m) m) (markerTail m) m)
    ⟨fun _ => [], fun _ => []⟩

/-- An observable event of `entries`: an `add` or `delete` callback on the
marker set, or a yielded chron entry. -/
inductive MarkEvent (μ τ : Type _) where
  | add : μ → ChronCursor τ → MarkEvent μ τ
  | del : μ → ChronCursor τ → MarkEvent μ τ
  | enter : ChronEntry τ → MarkEvent μ τ
  deriving DecidableEq

/-- The `trigger` closure: toggle the marker in the open set; unless silent,
a newly opened marker emits `set.add(data, range.head)` and a closing one
`set.delete(data, range.tail)`.  The JS `Set` keeps insertion order; markers
handled together are pairwise distinct under the markup invariant, so list
membership models object identity. -/
def trigger {μ τ : Type _} [DecidableEq μ] [DecidableEq τ] (silent : Bool)
    (st : List (ChronMarker μ τ) × List (MarkEvent μ τ))
    (m : ChronMarker μ τ) :
    List (ChronMarker μ τ) × List (MarkEvent μ τ) :=
  if m ∈ st.1 then
    (st.1.erase m,
      if silent then st.2 else st.2 ++ [MarkEvent.del m.data (markerTail m)])
  else
    (st.1 ++ [m],
      if silent then st.2 else st.2 ++ [MarkEvent.add m.data (markerHead m)])

/-- A `forEach(_ => trigger(_, silent))` pass over a bucket list. -/
def runTriggers {μ τ : Type _} [DecidableEq μ] [DecidableEq τ] (silent : Bool)
    (ms : List (ChronMarker μ τ))
    (st : List (ChronMarker μ τ) × List (MarkEvent μ τ)) :
    List (ChronMarker μ τ) × List (MarkEvent μ τ) :=
  ms.foldl (trigger silent) st

/-- The event trace of `entries(chron, set)` called without a scope `range`
and with a `set` having no `filter`/`covered`: `suppressHead` is `undefined`
(falsy), so the bucket `-1` prelude is not silent; the `if (range)`
suppression walk is skipped; the main loop iterates
`chron[Symbol.iterator]()`, i.e. `range(this)` (`Chron.entriesList`), firing
the heads bucket, yielding the entry, then the reversed tails bucket. -/
def ChronMarkup.entriesTrace {μ τ : Type _} [DecidableEq μ] [DecidableEq τ]
    (mk : ChronMarkup μ τ) (c : Chron τ) : List (MarkEvent μ τ) :=
  let b := buildBuckets c (liveMarkers mk)
  let st1 := runTriggers false (b.heads (-1)) ([], [])
  let st2 := runTriggers false ((b.tails (-1)).reverse) st1
  let st3 := c.entriesList.foldl
    (fun st e =>
      let stH := runTriggers false (b.heads (e.index : Int)) st
      runTriggers false ((b.tails (e.index : Int)).reverse)
        (stH.1, stH.2 ++ [MarkEvent.enter e]))
    st2
  st3.2

theorem trigger_split {μ τ : Type _} [DecidableEq μ] [DecidableEq τ]
    (silent : Bool) (s : List (ChronMarker μ τ)) (evs : List (MarkEvent μ τ))
    (m : ChronMarker μ τ) :
    trigger silent (s, evs) m =
      ((trigger silent (s, []) m).1, evs ++ (trigger silent (s, []) m).2) := by
  unfold trigger
  by_cases hm : m ∈ s <;> cases silent <;> simp [hm]

theorem runTriggers_split {μ τ : Type _} [DecidableEq μ] [DecidableEq τ]
    (silent : Bool) :
    ∀ (ms : List (ChronMarker μ τ)) (s : List (ChronMarker μ τ))
      (evs : List (MarkEvent μ τ)),
      runTriggers silent ms (s, evs) =
        ((runTriggers silent ms (s, [])).1,
          evs ++ (runTriggers silent ms (s, [])).2) := by
  intro ms
  induction ms with
  | nil =>
    intro s evs
    show (s, evs) = (s, evs ++ [])
    rw [List.append_nil]
  | cons m t ih =>
    intro s evs
    have h1 : runTriggers silent (m :: t) (s, evs) =
        runTriggers silent t (trigger silent (s, evs) m) := rfl
    have h2 : runTriggers silent (m :: t) (s, []) =
        runTriggers silent t (trigger silent (s, []) m) := rfl
    rw [h1, h2, trigger_split silent s evs m]
    rcases hp : trigger silent (s, []) m with ⟨s0, e0⟩
    rw [ih s0 (evs ++ e0), ih s0 e0]
    simp

theorem runTriggers_not_mem {μ τ : Type _} [DecidableEq μ] [DecidableEq τ]
    (silent : Bool) :
    ∀ (ms : List (ChronMarker μ τ))
      (st : List (ChronMarker μ τ) × List (MarkEvent μ τ))
      (m : ChronMarker μ τ),
      m ∉ st.1 → m ∉ ms → m ∉ (runTriggers silent ms st).1 := by
  intro ms
  induction ms with
  | nil => intro st m h _; exact h
  | cons x t ih =>
    intro st m hst hms
    have hne : m ≠ x := fun h => hms (h ▸ List.mem_cons_self x t)
    have hstep : m ∉ (trigger silent st x).1 := by
      unfold trigger
      by_cases hx : x ∈ st.1
      · rw [if_pos hx]
        exact fun hmem => hst (List.mem_of_mem_erase hmem)
      · rw [if_neg hx]
        intro hmem
        rcases List.mem_append.mp hmem with h | h
        · exact hst h
        · exact hne (List.mem_singleton.mp h)
    exact ih (trigger silent st x) m hstep (fun h => hms (List.mem_cons_of_mem x h))

/-- A non-silent pass over markers that are all currently open emits their
delete callbacks in the pass order. -/
theorem runTriggers_all_open {μ τ : Type _} [DecidableEq μ] [DecidableEq τ] :
    ∀ (ms s : List (ChronMarker μ τ)) (evs : List (MarkEvent μ τ)),
      ms.Nodup → (∀ x ∈ ms, x ∈ s) →
      (runTriggers false ms (s, evs)).2 =
        evs ++ ms.map fun x => MarkEvent.del x.data (markerTail x) := by
  intro ms
  induction ms with
  | nil => intro s evs _ _; simp [runTriggers]
  | cons x t ih =>
    intro s evs hnd hsub
    have hx : x ∈ s := hsub x (List.mem_cons_self x t)
    have h1 : runTriggers false (x :: t) (s, evs) =
        runTriggers false t (trigger false (s, evs) x) := rfl
    have h2 : trigger false (s, evs) x =
        (s.erase x, evs ++ [MarkEvent.del x.data (markerTail x)]) := by
      unfold trigger
      rw [if_pos hx]
      rfl
    rw [List.nodup_cons] at hnd
    have hsub' : ∀ y ∈ t, y ∈ s.erase x := by
      intro y hy
      have hyne : y ≠ x := fun h => hnd.1 (h ▸ hy)
      exact (List.mem_erase_of_ne hyne).mpr (hsub y (List.mem_cons_of_mem x hy))
    rw [h1, h2, ih (s.erase x) _ hnd.2 hsub']
    simp

theorem pushBucket_heads {μ τ : Type _} [DecidableEq τ] (c : Chron τ)
    (b : Buckets μ τ) (cursor : ChronCursor τ) (m : ChronMarker μ τ) (k : Int) :
    (pushBucket c b cursor m).heads k =
      b.heads k ++
        (if cursor.offset < 0 ∧ k = bucketKey c cursor then [m] else []) := by
  unfold pushBucket
  by_cases ho : cursor.offset < 0
  · rw [if_pos ho]
    show (if k = bucketKey c cursor then b.heads k ++ [m] else b.heads k) = _
    by_cases hk : k = bucketKey c cursor
    · rw [if_pos hk, if_pos ⟨ho, hk⟩]
    · rw [if_neg hk, if_neg (fun h => hk h.2), List.append_nil]
  · rw [if_neg ho]
    show b.heads k = _
    rw [if_neg (fun h => ho h.1), List.append_nil]

theorem pushBucket_tails {μ τ : Type _} [DecidableEq τ] (c : Chron τ)
    (b : Buckets μ τ) (cursor : ChronCursor τ) (m : ChronMarker μ τ) (k : Int) :
    (pushBucket c b cursor m).tails k =
      b.tails k ++
        (if ¬cursor.offset < 0 ∧ k = bucketKey c cursor then [m] else []) := by
  unfold pushBucket
  by_cases ho : cursor.offset < 0
  · rw [if_pos ho]
    show b.tails k = _
    rw [if_neg (fun h => h.1 ho), List.append_nil]
  · rw [if_neg ho]
    show (if k = bucketKey c cursor then b.tails k ++ [m] else b.tails k) = _
    by_cases hk : k = bucketKey c cursor
    · rw [if_pos hk, if_pos ⟨ho, hk⟩]
    · rw [if_neg hk, if_neg (fun h => hk h.2), List.append_nil]

def concatMap {γ δ : Type _} (f : γ → List δ) : List γ → List δ
  | [] => []
  | x :: t => f x ++ concatMap f t

theorem mem_concatMap {γ δ : Type _} (f : γ → List δ) :
    ∀ (l : List γ) (y : δ), y ∈ concatMap f l → ∃ x ∈ l, y ∈ f x := by
  intro l
  induction l with
  | nil => intro y hy; exact absurd hy (List.not_mem_nil y)
  | cons x t ih =>
    intro y hy
    rcases List.mem_append.mp hy with h | h
    · exact ⟨x, List.mem_cons_self x t, h⟩
    · obtain ⟨x', hx', hyx'⟩ := ih y h
      exact ⟨x', List.mem_cons_of_mem x hx', hyx'⟩

/-- What one marker contributes to the heads bucket of key `k`: its head
cursor if that has a negative offset and lands on `k`, then its tail cursor
under the same test. -/
def contribHeads {μ τ : Type _} [DecidableEq τ] (c : Chron τ) (k : Int)
    (m : ChronMarker μ τ) : List (ChronMarker μ τ) :=
  (if (markerHead m).offset < 0 ∧ k = bucketKey c (markerHead m) then [m]
    else []) ++
  (if (markerTail m).offset < 0 ∧ k = bucketKey c (markerTail m) then [m]
    else [])

/-- The tails-bucket contribution (non-negative offsets). -/
def contribTails {μ τ : Type _} [DecidableEq τ] (c : Chron τ) (k : Int)
    (m : ChronMarker μ τ) : List (ChronMarker μ τ) :=
  (if ¬(markerHead m).offset < 0 ∧ k = bucketKey c (markerHead m) then [m]
    else []) ++
  (if ¬(markerTail m).offset < 0 ∧ k = bucketKey c (markerTail m) then [m]
    else [])

theorem contribHeads_eq {μ τ : Type _} [DecidableEq τ] (c : Chron τ) (k : Int)
    (x y : ChronMarker μ τ) (hy : y ∈ contribHeads c k x) : y = x := by
  unfold contribHeads at hy
  rcases List.mem_append.mp hy with h | h <;>
    [skip; skip] <;>
    · split at h
      · exact List.mem_singleton.mp h
      · exact absurd h (List.not_mem_nil y)

theorem contribTails_eq {μ τ : Type _} [DecidableEq τ] (c : Chron τ) (k : Int)
    (x y : ChronMarker μ τ) (hy : y ∈ contribTails c k x) : y = x := by
  unfold contribTails at hy
  rcases List.mem_append.mp hy with h | h <;>
    · split at h
      · exact List.mem_singleton.mp h
      · exact absurd h (List.not_mem_nil y)

/-- The bucket-building fold lays out, per bucket, each marker's
contributions in iteration order. -/
theorem buildBuckets_go {μ τ : Type _} [DecidableEq τ] (c : Chron τ) :
    ∀ (live : List (ChronMarker μ τ)) (b : Buckets μ τ) (k : Int),
      ((live.foldl (fun b m =>
          pushBucket c (pushBucket c b (markerHead m) m) (markerTail m) m)
          b).heads k = b.heads k ++ concatMap (contribHeads c k) live) ∧
      ((live.foldl (fun b m =>
          pushBucket c (pushBucket c b (markerHead m) m) (markerTail m) m)
          b).tails k = b.tails k ++ concatMap (contribTails c k) live) := by
  intro live
  induction live with
  | nil => intro b k; constructor <;> simp [concatMap]
  | cons m t ih =>
    intro b k
    have hstepH :
        (pushBucket c (pushBucket c b (markerHead m) m) (markerTail m) m).heads
          k = b.heads k ++ contribHeads c k m := by
      rw [pushBucket_heads, pushBucket_heads, List.append_assoc]
      rfl
    have hstepT :
        (pushBucket c (pushBucket c b (markerHead m) m) (markerTail m) m).tails
          k = b.tails k ++ contribTails c k m := by
      rw [pushBucket_tails, pushBucket_tails, List.append_assoc]
      rfl
    constructor
    · rw [List.foldl_cons,
        (ih (pushBucket c (pushBucket c b (markerHead m) m) (markerTail m) m)
          k).1, hstepH]
      show _ = b.heads k ++ (contribHeads c k m ++ concatMap (contribHeads c k) t)
      rw [List.append_assoc]
    · rw [List.foldl_cons,
        (ih (pushBucket c (pushBucket c b (markerHead m) m) (markerTail m) m)
          k).2, hstepT]
      show _ = b.tails k ++ (contribTails c k m ++ concatMap (contribTails c k) t)
      rw [List.append_assoc]

theorem buildBuckets_heads {μ τ : Type _} [DecidableEq τ] (c : Chron τ)
    (live : List (ChronMarker μ τ)) (k : Int) :
    (buildBuckets c live).heads k = concatMap (contribHeads c k) live := by
  unfold buildBuckets
  rw [(buildBuckets_go c live ⟨fun _ => [], fun _ => []⟩ k).1]
  rfl

theorem buildBuckets_tails {μ τ : Type _} [DecidableEq τ] (c : Chron τ)
    (live : List (ChronMarker μ τ)) (k : Int) :
    (buildBuckets c live).tails k = concatMap (contribTails c k) live := by
  unfold buildBuckets
  rw [(buildBuckets_go c live ⟨fun _ => [], fun _ => []⟩ k).2]
  rfl

theorem concatMap_append {γ δ : Type _} (f : γ → List δ) :
    ∀ l₁ l₂ : List γ,
      concatMap f (l₁ ++ l₂) = concatMap f l₁ ++ concatMap f l₂ := by
  intro l₁
  induction l₁ with
  | nil => intro l₂; rfl
  | cons x t ih =>
    intro l₂
    show f x ++ concatMap f (t ++ l₂) = (f x ++ concatMap f t) ++ concatMap f l₂
    rw [ih l₂, List.append_assoc]

/-- **C9.** The per-anchor callback structure of `entries` run without a
scope, corrected.  (1) A closing pass (`tails.get(k)?.reverse()?.forEach`)
over pairwise-distinct markers that are all open emits their delete
callbacks in reverse bucket order, i.e. in reverse of the order in which the
same markers' opening adds fired from the (unreversed) heads bucket of the
same anchor.  (2) A collapsed live marker (`head = tail`) has its two cursor
pushes adjacent in its single bucket, an adjacency the tails reversal
preserves.  (3) Firing a bucket holding such an adjacent pair of a
currently-closed marker emits its add callback immediately followed by its
delete callback.  The blanket reversal of the original claim fails for two
collapsed markers at one anchor (see the counterexample). -/
theorem chron_markup_entries_C9 {μ τ : Type _} [DecidableEq μ] [DecidableEq τ]
    (c : Chron τ) (mk : ChronMarkup μ τ)
    (ts l₁ l₂ s : List (ChronMarker μ τ)) (evs : List (MarkEvent μ τ))
    (m mc : ChronMarker μ τ)
    (hts : ts.Nodup) (hsub : ∀ x ∈ ts, x ∈ s)
    (hml : m ∉ l₁) (hms : m ∉ s)
    (hlive : (liveMarkers mk).Nodup) (hmc : mc ∈ liveMarkers mk)
    (hcol : markerHead mc = markerTail mc) :
    ((runTriggers false ts.reverse (s, evs)).2 =
      evs ++ (ts.map fun x => MarkEvent.del x.data (markerTail x)).reverse) ∧
    (∃ A B,
      (if (markerHead mc).offset < 0 then
          (buildBuckets c (liveMarkers mk)).heads (bucketKey c (markerHead mc))
        else
          (buildBuckets c (liveMarkers mk)).tails
            (bucketKey c (markerHead mc))) = A ++ [mc, mc] ++ B ∧
      (A ++ [mc, mc] ++ B).reverse = B.reverse ++ [mc, mc] ++ A.reverse ∧
      mc ∉ A ∧ mc ∉ B) ∧
    (∃ E, (runTriggers false (l₁ ++ [m, m] ++ l₂) (s, evs)).2 =
      (runTriggers false l₁ (s, evs)).2 ++
        [MarkEvent.add m.data (markerHead m),
          MarkEvent.del m.data (markerTail m)] ++ E) := by
  refine ⟨?_, ?_, ?_⟩
  · rw [runTriggers_all_open ts.reverse s evs (List.nodup_reverse.mpr hts)
      (fun x hx => hsub x (List.mem_reverse.mp hx)), List.map_reverse]
  · obtain ⟨u, w, huw⟩ := List.append_of_mem hmc
    have hnd := hlive
    rw [huw, List.nodup_append] at hnd
    have hmcu : mc ∉ u := fun hin => hnd.2.2 hin (List.mem_cons_self mc w)
    have hmcw : mc ∉ w := by
      have hcw := hnd.2.1
      rw [List.nodup_cons] at hcw
      exact hcw.1
    by_cases ho : (markerHead mc).offset < 0
    · have hcon : contribHeads c (bucketKey c (markerHead mc)) mc = [mc, mc] := by
        unfold contribHeads
        rw [← hcol, if_pos ⟨ho, rfl⟩]
        rfl
      refine ⟨concatMap (contribHeads c (bucketKey c (markerHead mc))) u,
        concatMap (contribHeads c (bucketKey c (markerHead mc))) w,
        ?_, by simp, ?_, ?_⟩
      · rw [if_pos ho, buildBuckets_heads, huw, concatMap_append]
        show _ ++ (contribHeads c (bucketKey c (markerHead mc)) mc ++ _) = _
        rw [hcon, List.append_assoc]
      · intro hin
        obtain ⟨x, hxu, hyx⟩ := mem_concatMap _ u mc hin
        exact hmcu (contribHeads_eq c _ x mc hyx ▸ hxu)
      · intro hin
        obtain ⟨x, hxw, hyx⟩ := mem_concatMap _ w mc hin
        exact hmcw (contribHeads_eq c _ x mc hyx ▸ hxw)
    · have hcon : contribTails c (bucketKey c (markerHead mc)) mc = [mc, mc] := by
        unfold contribTails
        rw [← hcol, if_pos ⟨ho, rfl⟩]
        rfl
      refine ⟨concatMap (contribTails c (bucketKey c (markerHead mc))) u,
        concatMap (contribTails c (bucketKey c (markerHead mc))) w,
        ?_, by simp, ?_, ?_⟩
      · rw [if_neg ho, buildBuckets_tails, huw, concatMap_append]
        show _ ++ (contribTails c (bucketKey c (markerHead mc)) mc ++ _) = _
        rw [hcon, List.append_assoc]
      · intro hin
        obtain ⟨x, hxu, hyx⟩ := mem_concatMap _ u mc hin
        exact hmcu (contribTails_eq c _ x mc hyx ▸ hxu)
      · intro hin
        obtain ⟨x, hxw, hyx⟩ := mem_concatMap _ w mc hin
        exact hmcw (contribTails_eq c _ x mc hyx ▸ hxw)
  · have hsplit : runTriggers false (l₁ ++ [m, m] ++ l₂) (s, evs) =
        runTriggers false l₂
          (runTriggers false [m, m] (runTriggers false l₁ (s, evs))) := by
      unfold runTriggers
      rw [List.foldl_append, List.foldl_append]
    rcases hst1 : runTriggers false l₁ (s, evs) with ⟨s1, e1⟩
    have hm1 : m ∉ s1 := by
      have hnm := runTriggers_not_mem false l₁ (s, evs) m hms hml
      rw [hst1] at hnm
      exact hnm
    have hrun2 : runTriggers false [m, m] (s1, e1) =
        ((s1 ++ [m]).erase m,
          e1 ++ [MarkEvent.add m.data (markerHead m),
            MarkEvent.del m.data (markerTail m)]) := by
      show trigger false (trigger false (s1, e1) m) m = _
      have ht1 : trigger false (s1, e1) m =
          (s1 ++ [m], e1 ++ [MarkEvent.add m.data (markerHead m)]) := by
        unfold trigger
        rw [if_neg hm1]
        rfl
      rw [ht1]
      have hm2 : m ∈ s1 ++ [m] :=
        List.mem_append.mpr (Or.inr (List.mem_singleton.mpr rfl))
      unfold trigger
      rw [if_pos hm2]
      simp
    refine ⟨(runTriggers false l₂ ((s1 ++ [m]).erase m, [])).2, ?_⟩
    rw [hsplit, hst1, hrun2, runTriggers_split false l₂]

/-- The data arguments of the `add` callbacks of a trace, in order. -/
def addDatas {μ τ : Type _} (evs : List (MarkEvent μ τ)) : List μ :=
  evs.filterMap fun e =>
    match e with
    | MarkEvent.add d _ => some d
    | _ => none

/-- The data arguments of the `delete` callbacks of a trace, in order. -/
def delDatas {μ τ : Type _} (evs : List (MarkEvent μ τ)) : List μ :=
  evs.filterMap fun e =>
    match e with
    | MarkEvent.del d _ => some d
    | _ => none

def curC9 : ChronCursor Nat := ⟨CAnchor.entry Chron.rootEntry, -1⟩

def rC9 : ChronRange Nat := ⟨curC9, curC9⟩

def mC9a : ChronMarker Nat Nat := ⟨1, some rC9⟩

def mC9b : ChronMarker Nat Nat := ⟨2, some rC9⟩

def mkC9 : ChronMarkup Nat Nat :=
  ((ChronMarkup.empty : ChronMarkup Nat Nat).mark 1 (some rC9)).mark 2
    (some rC9)

set_option maxRecDepth 10000 in
/-- Two collapsed markers at the same anchor: the enumeration closes them in
the same order it opened them (adds 1,2 and deletes 1,2), not in reverse
order as the original claim demands — though each marker's add is immediately
followed by its delete. -/
theorem chron_markup_entries_C9_counterexample :
    ChronMarkup.entriesTrace mkC9 (Chron.empty : Chron Nat) =
      [MarkEvent.add 1 curC9, MarkEvent.del 1 curC9,
        MarkEvent.add 2 curC9, MarkEvent.del 2 curC9] ∧
    ¬ delDatas (ChronMarkup.entriesTrace mkC9 (Chron.empty : Chron Nat)) =
        (addDatas
          (ChronMarkup.entriesTrace mkC9 (Chron.empty : Chron Nat))).reverse := by
  decide

set_option maxRecDepth 10000 in
theorem chron_markup_entries_C9_witness :
    (liveMarkers mkC9).Nodup ∧
      (((runTriggers false ([mC9b] : List (ChronMarker Nat Nat)).reverse
            ([mC9b], ([] : List (MarkEvent Nat Nat)))).2 =
          [] ++ ([mC9b].map fun x =>
            MarkEvent.del x.data (markerTail x)).reverse) ∧
        (∃ A B,
          (if (markerHead mC9a).offset < 0 then
              (buildBuckets Chron.empty (liveMarkers mkC9)).heads
                (bucketKey Chron.empty (markerHead mC9a))
            else
              (buildBuckets Chron.empty (liveMarkers mkC9)).tails
                (bucketKey Chron.empty (markerHead mC9a))) =
            A ++ [mC9a, mC9a] ++ B ∧
          (A ++ [mC9a, mC9a] ++ B).reverse =
            B.reverse ++ [mC9a, mC9a] ++ A.reverse ∧
          mC9a ∉ A ∧ mC9a ∉ B) ∧
        (∃ E, (runTriggers false ([mC9b] ++ [mC9a, mC9a] ++ [])
            ([mC9b], ([] : List (MarkEvent Nat Nat)))).2 =
          (runTriggers false [mC9b]
            ([mC9b], ([] : List (MarkEvent Nat Nat)))).2 ++
            [MarkEvent.add mC9a.data (markerHead mC9a),
              MarkEvent.del mC9a.data (markerTail mC9a)] ++ E)) :=
  ⟨by decide,
    chron_markup_entries_C9 Chron.empty mkC9 [mC9b] [mC9b] [] [mC9b] []
      mC9a mC9a (by decide) (by decide) (by decide) (by decide) (by decide)
      (by decide) (by decide)⟩

end Spatik
